import Mathlib

/-! Boundary-tag allocator of `malloclab-handout/mm.c`.

A shallow embedding of the implicit-list allocator and a verification of its
specification.

Modelling conventions.

* Memory is a total map from byte addresses to byte values.  A header or footer
  word is four consecutive bytes read and written in little-endian order
  (`GET`, `PUT`), so a store of a `size_t` value keeps its low 32 bits.
* `size_t`, `unsigned int` and pointers are 32 bits wide (the lab is built for
  ILP32); every `size_t` computation that can wrap is reduced modulo `UMAX`.
* Addresses are natural numbers; `NULL` is `0`.
* The allocator's only global, `heap_listp`, and the two variables of the
  growth primitive (`mem_brk`, `mem_max_addr`) form the state `Heap`.
* The loop of `find_fit` is run with a fuel of `mem_brk` iterations, more than
  any walk that stays inside the arena can take.
* A call that yields `none` does not return: the walk of `find_fit` did not end
  inside the arena, or `memcpy` stored through the null pointer and the program
  faulted.
-/

namespace MM

/-! ## Constants and macros -/

/-- Number of values of a 32-bit `size_t` / `unsigned int`. -/
def UMAX : Nat := 4294967296

/-- Source: `#define ALIGNMENT 8`. -/
def ALIGNMENT : Nat := 8

/-- Source: `#define WSIZE 4`. -/
def WSIZE : Nat := 4

/-- Source: `#define DSIZE 8`. -/
def DSIZE : Nat := 8

/-- Source: `#define CHUNKSIZE (1<<12)`. -/
def CHUNKSIZE : Nat := 4096

/-- Source: `#define MIN_BLOCK_SIZE 24`. -/
def MIN_BLOCK_SIZE : Nat := 24

/-- Byte-addressed memory. -/
abbrev Mem := Nat → Nat

/-- Source: `ALIGN(size) = ((size) + (ALIGNMENT-1)) & ~0x7` on `size_t`. -/
def ALIGN (size : Nat) : Nat := ((size + (ALIGNMENT - 1)) % UMAX) &&& 4294967288

/-- Source: `PACK(size, alloc) = ((size) | (alloc))`. -/
def PACK (size alloc : Nat) : Nat := size ||| alloc

/-- Source: `GET(p) = *(unsigned int *)(p)`, four bytes, little-endian. -/
def GET (m : Mem) (p : Nat) : Nat :=
  m p % 256 + 256 * (m (p + 1) % 256) + 65536 * (m (p + 2) % 256)
    + 16777216 * (m (p + 3) % 256)

/-- Source: `PUT(p, val) = (*(unsigned int *)(p) = (val))`. -/
def PUT (m : Mem) (p val : Nat) : Mem := fun a =>
  if a = p then val % 256
  else if a = p + 1 then val / 256 % 256
  else if a = p + 2 then val / 65536 % 256
  else if a = p + 3 then val / 16777216 % 256
  else m a

/-- Source: `GET_SIZE(p) = GET(p) & ~0x7`. -/
def GET_SIZE (m : Mem) (p : Nat) : Nat := GET m p &&& 4294967288

/-- Source: `GET_ALLOC(p) = GET(p) & 0x1`. -/
def GET_ALLOC (m : Mem) (p : Nat) : Nat := GET m p &&& 1

/-- Source: `HDRP(ptr) = (char *)(ptr) - WSIZE`. -/
def HDRP (ptr : Nat) : Nat := ptr - WSIZE

/-- Source: `FTRP(ptr) = (char *)(ptr) + GET_SIZE(HDRP(ptr)) - DSIZE`. -/
def FTRP (m : Mem) (ptr : Nat) : Nat := ptr + GET_SIZE m (HDRP ptr) - DSIZE

/-- Source: `NEXT_BLKP(ptr) = (char *)(ptr) + GET_SIZE((char *)(ptr) - WSIZE)`. -/
def NEXT_BLKP (m : Mem) (ptr : Nat) : Nat := ptr + GET_SIZE m (ptr - WSIZE)

/-- Source: `PREV_BLKP(ptr) = (char *)(ptr) - GET_SIZE((char *)(ptr) - DSIZE)`. -/
def PREV_BLKP (m : Mem) (ptr : Nat) : Nat := ptr - GET_SIZE m (ptr - DSIZE)

/-- Memory after the bytes `src .. src + n - 1` have been copied to
`dst .. dst + n - 1`, for non-overlapping regions. -/
def copy_bytes (m : Mem) (dst src n : Nat) : Mem := fun a =>
  if dst ≤ a ∧ a < dst + n then m (src + (a - dst)) else m a

/-- Library `memcpy(dst, src, n)` on non-overlapping regions.  A copy of at least
one byte to the null pointer is a store through `NULL`: the program faults and
there is no memory afterwards (`none`). -/
def memcpy (m : Mem) (dst src n : Nat) : Option Mem :=
  if dst = 0 ∧ 0 < n then none else some (copy_bytes m dst src n)

/-! ## State -/

/-- Allocator state: the arena bytes, the static `heap_listp`, and the break
and limit of the growth primitive. -/
structure Heap where
  mem : Mem
  heap_listp : Nat
  mem_brk : Nat
  mem_max_addr : Nat

/-- Modelled from the spec: the growth primitive `mem_sbrk` of `memlib.c`, which
is not part of the sources.  It returns the address following the previous end
of the arena and extends the arena by exactly `incr` bytes, or fails (`none`,
the C value `(void *)-1`) when the limit of the address range would be passed. -/
def mem_sbrk (h : Heap) (incr : Nat) : Option (Nat × Heap) :=
  if h.mem_brk + incr ≤ h.mem_max_addr then
    some (h.mem_brk, { h with mem_brk := h.mem_brk + incr })
  else none

/-- State before `mm_init`: an empty arena starting at `lo` that may grow up to
`hi`, over memory contents `m`. -/
def fresh (m : Mem) (lo hi : Nat) : Heap :=
  { mem := m, heap_listp := 0, mem_brk := lo, mem_max_addr := hi }

/-! ## The allocator -/

/-- Source: `coalesce`, lines 233-266.  Returns the block pointer and the state. -/
def coalesce (h : Heap) (ptr : Nat) : Nat × Heap :=
  let m := h.mem
  let prev_alloc := GET_ALLOC m (FTRP m (PREV_BLKP m ptr))
  let next_alloc := GET_ALLOC m (HDRP (NEXT_BLKP m ptr))
  let size := GET_SIZE m (HDRP ptr)
  if prev_alloc ≠ 0 ∧ next_alloc ≠ 0 then
    (ptr, h)
  else if prev_alloc ≠ 0 ∧ next_alloc = 0 then
    let size := (size + GET_SIZE m (HDRP (NEXT_BLKP m ptr))) % UMAX
    let m1 := PUT m (HDRP ptr) (PACK size 0)
    let m2 := PUT m1 (FTRP m1 ptr) (PACK size 0)
    (ptr, { h with mem := m2 })
  else if prev_alloc = 0 ∧ next_alloc ≠ 0 then
    let size := (size + GET_SIZE m (HDRP (PREV_BLKP m ptr))) % UMAX
    let m1 := PUT m (FTRP m ptr) (PACK size 0)
    let m2 := PUT m1 (HDRP (PREV_BLKP m1 ptr)) (PACK size 0)
    (PREV_BLKP m2 ptr, { h with mem := m2 })
  else
    let size := (size + (GET_SIZE m (HDRP (PREV_BLKP m ptr))
      + GET_SIZE m (FTRP m (NEXT_BLKP m ptr))) % UMAX) % UMAX
    let m1 := PUT m (HDRP (PREV_BLKP m ptr)) (PACK size 0)
    let m2 := PUT m1 (FTRP m1 (NEXT_BLKP m1 ptr)) (PACK size 0)
    (PREV_BLKP m2 ptr, { h with mem := m2 })

/-- Source: `extend_heap`, lines 119-138.  Pointer `0` is `NULL`. -/
def extend_heap (h : Heap) (words : Nat) : Nat × Heap :=
  let size := if words % 2 ≠ 0 then ((words + 1) * WSIZE) % UMAX else (words * WSIZE) % UMAX
  match mem_sbrk h size with
  | none => (0, h)
  | some (ptr, h1) =>
    let m1 := PUT h1.mem (HDRP ptr) (PACK size 0)
    let m2 := PUT m1 (FTRP m1 ptr) (PACK size 0)
    let m3 := PUT m2 (HDRP (NEXT_BLKP m2 ptr)) (PACK 0 1)
    coalesce { h1 with mem := m3 } ptr

/-- Source: `mm_init`, lines 96-112.  Returns the C result (`0` or `-1`) and
the state. -/
def mm_init (h : Heap) : Int × Heap :=
  match mem_sbrk h (4 * WSIZE) with
  | none => (-1, { h with heap_listp := UMAX - 1 })
  | some (p, h1) =>
    let m1 := PUT h1.mem p 0
    let m2 := PUT m1 (p + 1 * WSIZE) (PACK DSIZE 1)
    let m3 := PUT m2 (p + 2 * WSIZE) (PACK DSIZE 1)
    let m4 := PUT m3 (p + 3 * WSIZE) (PACK 0 1)
    let h2 : Heap := { h1 with mem := m4, heap_listp := p + 2 * WSIZE }
    let r := extend_heap h2 (CHUNKSIZE / WSIZE)
    if r.1 = 0 then (-1, r.2) else (0, r.2)

/-- The `for` loop of `find_fit`, lines 185-189, with a bound on the number of
iterations. -/
def find_fit_loop (m : Mem) (asize : Nat) : Nat → Nat → Option Nat
  | 0, _ => none
  | fuel + 1, ptr =>
    if GET_SIZE m (HDRP ptr) > 0 then
      if GET_ALLOC m (HDRP ptr) = 0 ∧ asize ≤ GET_SIZE m (HDRP ptr) then some ptr
      else find_fit_loop m asize fuel (NEXT_BLKP m ptr)
    else some 0

/-- Source: `find_fit`, lines 180-194. -/
def find_fit (h : Heap) (asize : Nat) : Option Nat :=
  find_fit_loop h.mem asize h.mem_brk h.heap_listp

/-- Source: `place`, lines 201-218. -/
def place (h : Heap) (ptr asize : Nat) : Heap :=
  let m := h.mem
  let csize := GET_SIZE m (HDRP ptr)
  if (csize + (UMAX - asize % UMAX)) % UMAX ≥ 2 * DSIZE then
    let m1 := PUT m (HDRP ptr) (PACK asize 1)
    let m2 := PUT m1 (FTRP m1 ptr) (PACK asize 1)
    let ptr1 := NEXT_BLKP m2 ptr
    let rest := (csize + (UMAX - asize % UMAX)) % UMAX
    let m3 := PUT m2 (HDRP ptr1) (PACK rest 0)
    let m4 := PUT m3 (FTRP m3 ptr1) (PACK rest 0)
    { h with mem := m4 }
  else
    let m1 := PUT m (HDRP ptr) (PACK csize 1)
    let m2 := PUT m1 (FTRP m1 ptr) (PACK csize 1)
    { h with mem := m2 }

/-- The adjusted block size of `mm_malloc`, lines 155-158. -/
def adjust (size : Nat) : Nat :=
  if size ≤ DSIZE then 2 * DSIZE
  else (DSIZE * (((size + DSIZE + (DSIZE - 1)) % UMAX) / DSIZE)) % UMAX

/-- Source: `mm_malloc`, lines 144-174. -/
def mm_malloc (h : Heap) (size : Nat) : Option (Nat × Heap) :=
  if size = 0 then some (0, h)
  else
    let asize := adjust size
    match find_fit h asize with
    | none => none
    | some ptr =>
      if ptr ≠ 0 then some (ptr, place h ptr asize)
      else
        let extendsize := max asize CHUNKSIZE
        let r := extend_heap h (extendsize / WSIZE)
        if r.1 = 0 then some (0, r.2)
        else some (r.1, place r.2 r.1 asize)

/-- Source: `mm_free`, lines 223-229. -/
def mm_free (h : Heap) (ptr : Nat) : Heap :=
  let size := GET_SIZE h.mem (HDRP ptr)
  let m1 := PUT h.mem (HDRP ptr) (PACK size 0)
  let m2 := PUT m1 (FTRP m1 ptr) (PACK size 0)
  (coalesce { h with mem := m2 } ptr).2

/-- The target block size of `mm_realloc`, line 279. -/
def realloc_asize (size : Nat) : Nat := max ((ALIGN size + DSIZE) % UMAX) MIN_BLOCK_SIZE

/-- Source: `mm_realloc`, lines 274-324.  The result is `none` when the call does
not return (see `find_fit`, `memcpy`). -/
def mm_realloc (h : Heap) (ptr size : Nat) : Option (Nat × Heap) :=
  let copySize := GET_SIZE h.mem (HDRP ptr)
  let asize := realloc_asize size
  if size = 0 then some (0, mm_free h ptr)
  else if asize = copySize then some (ptr, h)
  else if asize ≤ copySize then
    if copySize - asize ≤ MIN_BLOCK_SIZE then some (ptr, h)
    else
      let m1 := PUT h.mem (HDRP ptr) (PACK asize 1)
      let m2 := PUT m1 (FTRP m1 ptr) (PACK asize 1)
      let m3 := PUT m2 (HDRP (NEXT_BLKP m2 ptr)) (PACK asize 1)
      some (ptr, mm_free { h with mem := m3 } (NEXT_BLKP m3 ptr))
  else
    match mm_malloc h size with
    | none => none
    | some (newptr, h1) =>
      let n := if size < copySize then size else copySize
      match memcpy h1.mem newptr ptr n with
      | none => none
      | some m2 => some (newptr, mm_free { h1 with mem := m2 } ptr)

/-- The `while` loop of `mm_check`, lines 337-342, with a bound on the number
of iterations; `none` when the bound is reached. -/
def mm_check_loop (h : Heap) : Nat → Nat → Option Int
  | 0, _ => none
  | fuel + 1, tempPtr =>
    if h.heap_listp ≠ 0 then
      if FTRP h.mem tempPtr ≥ HDRP (NEXT_BLKP h.mem tempPtr) then some 0
      else mm_check_loop h fuel (NEXT_BLKP h.mem tempPtr)
    else some 1

/-- Source: `mm_check`, lines 330-350, run for at most `fuel` iterations. -/
def mm_check (fuel : Nat) (h : Heap) : Option Int :=
  mm_check_loop h fuel h.heap_listp

/-! ## Call sequences -/

/-- A call of the public interface. -/
inductive Op where
  | malloc (size : Nat)
  | free (ptr : Nat)
  | realloc (ptr size : Nat)

/-- Runs one call; the result is the returned pointer (`0` for `mm_free`). -/
def step (h : Heap) : Op → Option (Nat × Heap)
  | .malloc n => mm_malloc h n
  | .free p => some (0, mm_free h p)
  | .realloc p n => mm_realloc h p n

/-- Runs a sequence of calls, collecting the returned pointers. -/
def run (h : Heap) : List Op → Option (List Nat × Heap)
  | [] => some ([], h)
  | op :: ops =>
    match step h op with
    | none => none
    | some (r, h1) =>
      match run h1 ops with
      | none => none
      | some (rs, h2) => some (r :: rs, h2)

/-! ## Block lists: the abstract view of the arena -/

/-- Abstract block: recorded size and allocation flag. -/
abbrev Blk := Nat × Bool

/-- The allocation flag as the C value of `GET_ALLOC`. -/
def bit (a : Bool) : Nat := if a then 1 else 0

/-- The header (and footer) word of a block. -/
def tag (b : Blk) : Nat := PACK b.1 (bit b.2)

/-- Sum of the block sizes. -/
def total : List Blk → Nat
  | [] => 0
  | b :: bs => b.1 + total bs

/-- The words of `m` hold the headers and footers of the consecutive blocks
`bs`, the first of which has block pointer `p`. -/
def Tags (m : Mem) : Nat → List Blk → Prop
  | _, [] => True
  | p, b :: bs => GET m (p - 4) = tag b ∧ GET m (p + b.1 - 8) = tag b ∧ Tags m (p + b.1) bs

/-- The words of `m` hold the headers of the consecutive blocks `bs`. -/
def Hdrs (m : Mem) : Nat → List Blk → Prop
  | _, [] => True
  | p, b :: bs => GET m (p - 4) = tag b ∧ Hdrs m (p + b.1) bs

/-- Every size is a positive multiple of 8. -/
def Sizes (bs : List Blk) : Prop := ∀ b ∈ bs, 8 ≤ b.1 ∧ b.1 % 8 = 0

/-- No two consecutive blocks are both free. -/
def NoFreePair : List Blk → Prop
  | [] => True
  | [_] => True
  | a :: b :: rest => (a.2 = true ∨ b.2 = true) ∧ NoFreePair (b :: rest)

/-- Well-formed heap with block list `bs` (the blocks between prologue and
epilogue, in address order): the prologue `(8, allocated)` sits at
`heap_listp`; walking by recorded size visits exactly `bs` and ends at the
epilogue header `(0, allocated)` in the last word of the arena; every block,
allocated or free, carries equal header and footer; sizes are positive
multiples of 8; no two neighbours are both free.  The arena is one C object of
the 32-bit address space: it ends below `2^32` and spans less than `2^31`
bytes. -/
structure Layout (h : Heap) (bs : List Blk) : Prop where
  base : 8 ≤ h.heap_listp ∧ h.heap_listp % 8 = 0
  tags : Tags h.mem h.heap_listp ((8, true) :: bs)
  sizes : Sizes bs
  epilogue : GET h.mem (h.heap_listp + 8 + total bs - 4) = PACK 0 1
  brk : h.mem_brk = h.heap_listp + 8 + total bs
  limit : h.mem_brk ≤ h.mem_max_addr ∧ h.mem_max_addr < UMAX
    ∧ h.mem_max_addr < h.heap_listp + 2147483648
  nofree : NoFreePair bs

/-- Well-formed heap. -/
def WF (h : Heap) : Prop := ∃ bs, Layout h bs

/-- Block pointer of the first free block of size at least `asize` among the
blocks `bs` starting at `p`, or `0`. -/
def firstFit (asize : Nat) : Nat → List Blk → Nat
  | _, [] => 0
  | p, b :: bs => if b.2 = false ∧ asize ≤ b.1 then p else firstFit asize (p + b.1) bs

/-- The blocks before a freed block of size `s`, and the size of the free
block after it has absorbed its predecessor when that one is free. -/
def absorbPrev (pre : List Blk) (s : Nat) : List Blk × Nat :=
  match pre.getLast? with
  | some (sp, false) => (pre.dropLast, sp + s)
  | _ => (pre, s)

/-- The size of a free block after it has absorbed a free successor, and the
blocks after it. -/
def absorbNext : Nat → List Blk → Nat × List Blk
  | s, [] => (s, [])
  | s, b :: bs => if b.2 then (s, b :: bs) else (s + b.1, bs)

/-- Block list after freeing the allocated block of size `s` that stands
between `pre` and `post`. -/
def freedList (pre : List Blk) (s : Nat) (post : List Blk) : List Blk :=
  (absorbPrev pre s).1 ++ ((absorbNext (absorbPrev pre s).2 post).1, false)
    :: (absorbNext (absorbPrev pre s).2 post).2

/-- Block list after placing a request of `asize` bytes in the free block of
size `s` that stands between `pre` and `post`. -/
def placedList (pre : List Blk) (s asize : Nat) (post : List Blk) : List Blk :=
  if 2 * DSIZE ≤ s - asize then pre ++ (asize, true) :: (s - asize, false) :: post
  else pre ++ (s, true) :: post

/-- Only `mm_malloc` and `mm_free` calls. -/
def noRealloc : List Op → Prop
  | [] => True
  | .realloc _ _ :: _ => False
  | _ :: ops => noRealloc ops

/-- Facts about the words around a free block `p` of size `s`: the previous
block `(sp, ap)`, and the header `(sn, an)` that follows. -/
structure Nbhd (m : Mem) (p sp : Nat) (ap : Bool) (s sn : Nat) (an : Bool) : Prop where
  pf : GET m (p - 8) = sp + bit ap
  ph : GET m (p - sp - 4) = sp + bit ap
  ch : GET m (p - 4) = s
  nh : GET m (p + s - 4) = sn + bit an
  nf : an = false → GET m (p + s + sn - 8) = sn
  hsp : sp % 8 = 0 ∧ 8 ≤ sp ∧ sp + 4 ≤ p
  hs : s % 8 = 0 ∧ 8 ≤ s
  hsn : sn % 8 = 0 ∧ (an = false → 8 ≤ sn)
  lt : sp + s + sn < UMAX

/-- Memory after `coalesce` of the free block `p`. -/
def coalesced (m : Mem) (p sp : Nat) (ap : Bool) (s sn : Nat) (an : Bool) : Mem :=
  if ap then
    if an then m else PUT (PUT m (p - 4) (s + sn)) (p + s + sn - 8) (s + sn)
  else
    if an then PUT (PUT m (p + s - 8) (sp + s)) (p - sp - 4) (sp + s)
    else PUT (PUT m (p - sp - 4) (sp + s + sn)) (p + s + sn - 8) (sp + s + sn)

/-- Memory after `mm_free` of the block `p` of size `s`. -/
def freed (m : Mem) (p sp : Nat) (ap : Bool) (s sn : Nat) (an : Bool) : Mem :=
  coalesced (PUT (PUT m (p - 4) s) (p + s - 8) s) p sp ap s sn an

/-- Facts about the words around a block `p` of size `s` and flag `a`: the
previous block `(sp, ap)`, and the header `(sn, an)` that follows. -/
structure Around (m : Mem) (p sp : Nat) (ap : Bool) (s : Nat) (a : Bool) (sn : Nat)
    (an : Bool) : Prop where
  pf : GET m (p - 8) = sp + bit ap
  ph : GET m (p - sp - 4) = sp + bit ap
  ch : GET m (p - 4) = s + bit a
  nh : GET m (p + s - 4) = sn + bit an
  nf : an = false → GET m (p + s + sn - 8) = sn
  hsp : sp % 8 = 0 ∧ 8 ≤ sp ∧ sp + 4 ≤ p
  hs : s % 8 = 0 ∧ 8 ≤ s
  hsn : sn % 8 = 0 ∧ (an = false → 8 ≤ sn)
  lt : sp + s + sn < UMAX

/-- Memory after `place` of `asize` bytes in the free block `p` of size `s`. -/
def placed (m : Mem) (p s asize : Nat) : Mem :=
  if 16 ≤ s - asize then
    PUT (PUT (PUT (PUT m (p - 4) (asize + 1)) (p + asize - 8) (asize + 1))
      (p + asize - 4) (s - asize)) (p + s - 8) (s - asize)
  else PUT (PUT m (p - 4) (s + 1)) (p + s - 8) (s + 1)

/-- Memory after a successful `extend_heap` by `size` bytes at the old break `p`. -/
def extended (m : Mem) (p sp : Nat) (ap : Bool) (size : Nat) : Mem :=
  coalesced (PUT (PUT (PUT m (p - 4) size) (p + size - 8) size) (p + size - 4) 1)
    p sp ap size 0 true

instance decTags (m : Mem) : (p : Nat) → (bs : List Blk) → Decidable (Tags m p bs)
  | _, [] => isTrue trivial
  | p, b :: bs =>
    @instDecidableAnd _ _ _ (@instDecidableAnd _ _ _ (decTags m (p + b.1) bs))

instance decNoFreePair : (bs : List Blk) → Decidable (NoFreePair bs)
  | [] => isTrue trivial
  | [_] => isTrue trivial
  | _ :: b :: rest => @instDecidableAnd _ _ _ (decNoFreePair (b :: rest))

instance decSizes (bs : List Blk) : Decidable (Sizes bs) := by
  unfold Sizes; infer_instance

instance decLayout (h : Heap) (bs : List Blk) : Decidable (Layout h bs) :=
  decidable_of_iff
    ((8 ≤ h.heap_listp ∧ h.heap_listp % 8 = 0) ∧ Tags h.mem h.heap_listp ((8, true) :: bs)
      ∧ Sizes bs ∧ GET h.mem (h.heap_listp + 8 + total bs - 4) = PACK 0 1
      ∧ h.mem_brk = h.heap_listp + 8 + total bs
      ∧ (h.mem_brk ≤ h.mem_max_addr ∧ h.mem_max_addr < UMAX
          ∧ h.mem_max_addr < h.heap_listp + 2147483648)
      ∧ NoFreePair bs)
    ⟨fun ⟨a, b, c, d, e, f, g⟩ => ⟨a, b, c, d, e, f, g⟩,
     fun L => ⟨L.base, L.tags, L.sizes, L.epilogue, L.brk, L.limit, L.nofree⟩⟩

/-- Example state: `mm_init` on an arena that starts at address 4096, may grow
to address 1052672 and holds zero bytes. -/
def heap0 : Heap := (mm_init (fresh (fun _ => 0) 4096 1052672)).2

/-- Example state: `mm_init` on an arena that starts at address 4096, holds zero
bytes, and cannot grow beyond the initial 16 + 4096 bytes. -/
def heapFull : Heap := (mm_init (fresh (fun _ => 0) 4096 8208)).2

/-- State of `mm_init` after the padding word, the prologue and the epilogue
have been written and `heap_listp` has been set. -/
def scaffold (m : Mem) (lo hi : Nat) : Heap :=
  { mem := PUT (PUT (PUT (PUT m lo 0) (lo + 4) 9) (lo + 8) 9) (lo + 12) 1,
    heap_listp := lo + 8, mem_brk := lo + 16, mem_max_addr := hi }

/-- The state reached from `h` by a sequence of calls (`h` itself when the run
does not end). -/
def after (h : Heap) (ops : List Op) : Heap :=
  match run h ops with
  | some r => r.2
  | none => h

/-- Example state: `heap0` after `A = mm_malloc(16)`, `B = mm_malloc(16)` and
`mm_free(A)`; `A = 4112`, `B = 4136`. -/
def heapAB : Heap := after heap0 [.malloc 16, .malloc 16, .free 4112]

/-- Example state: `heap0` after `mm_malloc(100)`, which returns `4112`. -/
def heap100 : Heap := after heap0 [.malloc 100]

/-- Example state: the arena that cannot grow, after `mm_malloc(4088)` has
taken its only block; the call returns `4112`. -/
def heapSaturated : Heap := after heapFull [.malloc 4088]

/-- The chain start and the break are multiples of 8. -/
def Aligned (h : Heap) : Prop := h.heap_listp % 8 = 0 ∧ h.mem_brk % 8 = 0

/-- Example state of the shrink defect: blocks `A = 4112` (96 bytes), `B = 4208`,
`D = 4240`, `E = 4272` (32 bytes each) are allocated, `A` is shrunk to a request
of 56 bytes, then `B` and `D` are freed. -/
def heapShrunk : Heap :=
  after heap0 [.malloc 88, .malloc 24, .malloc 24, .malloc 24, .realloc 4112 56,
    .free 4208, .free 4240]

/-- Example state of the wrap-around defect: `A = 4112` and `B = 4144` are
allocated, `A` is freed, `mm_malloc(2^32 - 15)` returns `A` again, and `A` is
freed. -/
def heapWrapped : Heap :=
  after heap0 [.malloc 24, .malloc 24, .free 4112, .malloc 4294967281, .free 4112]

/-- Memory after `place` with adjusted size 0 in the free block `p` of size `s`,
followed by `mm_free` of `p`. -/
def zeroFreed (m : Mem) (p s : Nat) : Mem :=
  PUT (PUT (PUT (PUT (PUT (PUT (PUT (PUT m (p - 4) 1) (p - 8) 1) (p - 4) s) (p + s - 8) s)
    (p - 4) s) (p + s - 8) s) (p + s - 8) (s + s)) (p - 4) (s + s)

/-- Example state: `heap0` after `A = mm_malloc(16)`, `B = mm_malloc(16)`,
`mm_free(A)` and `mm_free(B)`. -/
def heapMerged : Heap := after heap0 [.malloc 16, .malloc 16, .free 4112, .free 4136]

/-- Example state: `heap0` after `mm_malloc(40)`, which returns the block `4112`
of size 48. -/
def heap40 : Heap := after heap0 [.malloc 40]

/-- State after a successful `mm_init` on the empty arena at `lo`: the free block
of `CHUNKSIZE` bytes and the new epilogue have been written after the prologue. -/
def initial (m : Mem) (lo hi : Nat) : Heap :=
  { mem := PUT (PUT (PUT (scaffold m lo hi).mem (lo + 12) 4096) (lo + 4104) 4096) (lo + 4108) 1,
    heap_listp := lo + 8, mem_brk := lo + 4112, mem_max_addr := hi }

/-- Every size is at least `2*DSIZE`, the smallest adjusted size of `mm_malloc`
and the split threshold of `place`. -/
def Min16 (bs : List Blk) : Prop := ∀ b ∈ bs, 16 ≤ b.1

/-- Heaps reached from a successful `mm_init` (on an 8-aligned arena inside the
32-bit address space) by `mm_malloc` calls for at most `2^32 - 16` bytes and
`mm_free` calls on allocated blocks of the heap. -/
inductive Reach : Heap → Prop
  | init (m : Mem) (lo hi : Nat) (hlo : lo % 8 = 0) (hhi : hi < UMAX)
      (harena : hi < lo + 2147483656) (hinit : (mm_init (fresh m lo hi)).1 = 0) :
      Reach (mm_init (fresh m lo hi)).2
  | malloc (h h1 : Heap) (n r : Nat) (R : Reach h) (hn : n + 15 < UMAX)
      (hm : mm_malloc h n = some (r, h1)) : Reach h1
  | free (h : Heap) (pre post : List Blk) (s : Nat) (R : Reach h)
      (L : Layout h (pre ++ (s, true) :: post)) :
      Reach (mm_free h (h.heap_listp + 8 + total pre))

/-- Example state: `heap0` after `mm_malloc(1)`, which returns `4112`. -/
def heap1 : Heap := after heap0 [.malloc 1]

/-- Source: `mm_free`, lines 225-227: the state in which `coalesce` is called. -/
def mm_free_marked (h : Heap) (ptr : Nat) : Heap :=
  let size := GET_SIZE h.mem (HDRP ptr)
  let m1 := PUT h.mem (HDRP ptr) (PACK size 0)
  let m2 := PUT m1 (FTRP m1 ptr) (PACK size 0)
  { h with mem := m2 }

/-- Example state: `heap0` after `A = mm_malloc(16) = 4112` and
`B = mm_malloc(16) = 4136`. -/
def heapTwo : Heap := after heap0 [.malloc 16, .malloc 16]

/-- Example state: `heapTwo` with the footer word of the allocated block `A`, at
address 4128, holding `(24, free)` instead of `(24, allocated)`. -/
def heapTwoX : Heap := { heapTwo with mem := PUT heapTwo.mem 4128 (PACK 24 0) }

/-- Example state: `heap0` after three calls `mm_malloc(16)`, which return
`4112`, `4136` and `4160`. -/
def heapThree : Heap := after heap0 [.malloc 16, .malloc 16, .malloc 16]

/-- Example state: `heapThree` with the footer word of its first block, at
address 4128, zeroed. -/
def heapThreeX : Heap := { heapThree with mem := PUT heapThree.mem 4128 0 }

/-- Example state: `heap0` after `mm_malloc(4000)`, which returns `4112`. -/
def heap4000 : Heap := after heap0 [.malloc 4000]

/-! # Theorems -/

/-! ## Words, bytes and masks -/

theorem and_mask8 (x : Nat) (hx : x < 4294967296) : x &&& 4294967288 = x - x % 8 := by
  apply Nat.eq_of_testBit_eq
  intro i
  have hm : (4294967288 : Nat) = 2 ^ 32 - (7 + 1) := by norm_num
  have h7 : (7 : Nat) = 2 ^ 3 - 1 := by norm_num
  have hx2 : x - x % 8 = 2 ^ 3 * (x >>> 3) := by
    rw [Nat.shiftRight_eq_div_pow]; norm_num; omega
  rw [Nat.testBit_and, hx2, hm, Nat.testBit_two_pow_sub_succ (by norm_num), h7,
    Nat.testBit_two_pow_sub_one, Nat.testBit_mul_pow_two, Nat.testBit_shiftRight]
  by_cases h3 : i < 3
  · simp [h3]
  · have e : 3 + (i - 3) = i := by omega
    rw [e]
    by_cases h32 : i < 32
    · simp [h3, h32]; omega
    · have : x.testBit i = false := by
        apply Nat.testBit_lt_two_pow
        calc x < 2 ^ 32 := by simpa using hx
          _ ≤ 2 ^ i := Nat.pow_le_pow_right (by norm_num) (by omega)
      simp [this]

theorem or_low (s a : Nat) (hs : s % 8 = 0) (ha : a < 8) : s ||| a = s + a := by
  have := Nat.mul_add_lt_is_or (i := 3) (b := a) (by simpa using ha) (s / 8)
  have e : 2 ^ 3 * (s / 8) = s := by omega
  rw [e] at this
  exact this.symm

theorem bit_le (a : Bool) : bit a ≤ 1 := by
  cases a <;> simp [bit]

theorem bit_true : bit true = 1 := rfl

theorem bit_false : bit false = 0 := rfl

theorem PACK_zero (s : Nat) : PACK s 0 = s := by
  simp [PACK]

theorem PACK_one (s : Nat) (hs : s % 8 = 0) : PACK s 1 = s + 1 := by
  unfold PACK; exact or_low s 1 hs (by norm_num)

theorem tag_eq (b : Blk) (hs : b.1 % 8 = 0) : tag b = b.1 + bit b.2 := by
  unfold tag PACK
  exact or_low _ _ hs (by have := bit_le b.2; omega)

theorem tag_free (s : Nat) : tag (s, false) = s := by
  simp [tag, bit, PACK]

theorem GET_lt (m : Mem) (p : Nat) : GET m p < UMAX := by
  unfold GET UMAX; omega

theorem GET_SIZE_eq (m : Mem) (p : Nat) : GET_SIZE m p = GET m p - GET m p % 8 := by
  unfold GET_SIZE
  exact and_mask8 _ (GET_lt m p)

theorem GET_ALLOC_eq (m : Mem) (p : Nat) : GET_ALLOC m p = GET m p % 2 := by
  unfold GET_ALLOC
  exact Nat.and_one_is_mod _

theorem GET_SIZE_mod (m : Mem) (p : Nat) : GET_SIZE m p % 8 = 0 := by
  rw [GET_SIZE_eq]; omega

theorem GET_SIZE_lt (m : Mem) (p : Nat) : GET_SIZE m p < UMAX := by
  rw [GET_SIZE_eq]; have := GET_lt m p; omega

theorem GET_SIZE_of (m : Mem) (p s : Nat) (a : Bool) (hg : GET m p = s + bit a)
    (hs : s % 8 = 0) : GET_SIZE m p = s := by
  rw [GET_SIZE_eq, hg]; have := bit_le a; omega

theorem GET_ALLOC_of (m : Mem) (p s : Nat) (a : Bool) (hg : GET m p = s + bit a)
    (hs : s % 8 = 0) : GET_ALLOC m p = bit a := by
  rw [GET_ALLOC_eq, hg]; have := bit_le a; omega

theorem ALIGN_eq (n : Nat) : ALIGN n = (n + 7) % UMAX - (n + 7) % UMAX % 8 := by
  unfold ALIGN ALIGNMENT
  exact and_mask8 _ (Nat.mod_lt _ (by unfold UMAX; norm_num))

theorem PUT_byte (m : Mem) (p v a : Nat) (h : a < p ∨ p + 4 ≤ a) : PUT m p v a = m a := by
  unfold PUT
  have h0 : a ≠ p := by omega
  have h1 : a ≠ p + 1 := by omega
  have h2 : a ≠ p + 2 := by omega
  have h3 : a ≠ p + 3 := by omega
  simp [h0, h1, h2, h3]

theorem GET_congr (m m1 : Mem) (p : Nat) (h : ∀ a, p ≤ a → a < p + 4 → m1 a = m a) :
    GET m1 p = GET m p := by
  unfold GET
  rw [h p (by omega) (by omega), h (p + 1) (by omega) (by omega),
    h (p + 2) (by omega) (by omega), h (p + 3) (by omega) (by omega)]

theorem GET_PUT_same (m : Mem) (p v : Nat) : GET (PUT m p v) p = v % UMAX := by
  unfold GET PUT UMAX
  simp
  omega

theorem GET_PUT_ne (m : Mem) (p v q : Nat) (h : q + 4 ≤ p ∨ p + 4 ≤ q) :
    GET (PUT m p v) q = GET m q := by
  apply GET_congr
  intro a h1 h2
  exact PUT_byte m p v a (by omega)

theorem GET_PUT_small (m : Mem) (p v : Nat) (hv : v < UMAX) : GET (PUT m p v) p = v := by
  rw [GET_PUT_same, Nat.mod_eq_of_lt hv]

/-! ## Block lists -/

theorem total_append (xs ys : List Blk) : total (xs ++ ys) = total xs + total ys := by
  induction xs with
  | nil => simp [total]
  | cons b bs ih => simp [total, ih]; omega

theorem total_cons (b : Blk) (bs : List Blk) : total (b :: bs) = b.1 + total bs := rfl

theorem total_nil : total [] = 0 := rfl

theorem Sizes_nil : Sizes [] := by
  intro b hb; cases hb

theorem Sizes_cons (b : Blk) (bs : List Blk) :
    Sizes (b :: bs) ↔ (8 ≤ b.1 ∧ b.1 % 8 = 0) ∧ Sizes bs := by
  unfold Sizes; simp

theorem Sizes_append (xs ys : List Blk) : Sizes (xs ++ ys) ↔ Sizes xs ∧ Sizes ys := by
  unfold Sizes
  constructor
  · intro h
    exact ⟨fun b hb => h b (List.mem_append_left _ hb), fun b hb => h b (List.mem_append_right _ hb)⟩
  · intro h b hb
    rcases List.mem_append.1 hb with hb | hb
    · exact h.1 b hb
    · exact h.2 b hb

theorem total_mod (bs : List Blk) (hs : Sizes bs) : total bs % 8 = 0 := by
  induction bs with
  | nil => rfl
  | cons b bs ih =>
    rw [Sizes_cons] at hs
    have := ih hs.2
    rw [total_cons]; omega

theorem length_le_total (bs : List Blk) (hs : Sizes bs) : 8 * bs.length ≤ total bs := by
  induction bs with
  | nil => simp [total]
  | cons b bs ih =>
    rw [Sizes_cons] at hs
    have := ih hs.2
    rw [total_cons, List.length_cons]; omega

theorem Tags_append (m : Mem) (xs ys : List Blk) (p : Nat) :
    Tags m p (xs ++ ys) ↔ Tags m p xs ∧ Tags m (p + total xs) ys := by
  induction xs generalizing p with
  | nil => simp [Tags, total]
  | cons b bs ih =>
    rw [List.cons_append]
    simp only [Tags, total_cons, ih, Nat.add_assoc, and_assoc]

theorem Hdrs_append (m : Mem) (xs ys : List Blk) (p : Nat) :
    Hdrs m p (xs ++ ys) ↔ Hdrs m p xs ∧ Hdrs m (p + total xs) ys := by
  induction xs generalizing p with
  | nil => simp [Hdrs, total]
  | cons b bs ih =>
    rw [List.cons_append]
    simp only [Hdrs, total_cons, ih, Nat.add_assoc, and_assoc]

theorem Tags_Hdrs (m : Mem) (bs : List Blk) (p : Nat) (h : Tags m p bs) : Hdrs m p bs := by
  induction bs generalizing p with
  | nil => trivial
  | cons b bs ih => exact ⟨h.1, ih _ h.2.2⟩

theorem Tags_frame (m m1 : Mem) (bs : List Blk) (p : Nat) (hs : Sizes bs) (hp : 4 ≤ p)
    (hf : ∀ a, p - 4 ≤ a → a < p + total bs - 4 → m1 a = m a) (h : Tags m p bs) :
    Tags m1 p bs := by
  induction bs generalizing p with
  | nil => trivial
  | cons b bs ih =>
    rw [Sizes_cons] at hs
    rw [total_cons] at hf
    obtain ⟨h1, h2, h3⟩ := h
    refine ⟨?_, ?_, ?_⟩
    · rw [← h1]; apply GET_congr; intro a ha hb; apply hf <;> omega
    · rw [← h2]; apply GET_congr; intro a ha hb; apply hf <;> omega
    · apply ih _ hs.2 (by omega) _ h3
      intro a ha hb; apply hf <;> omega

theorem Hdrs_frame (m m1 : Mem) (bs : List Blk) (p : Nat) (hs : Sizes bs) (hp : 4 ≤ p)
    (hf : ∀ a, p - 4 ≤ a → a < p + total bs - 8 → m1 a = m a) (h : Hdrs m p bs) :
    Hdrs m1 p bs := by
  induction bs generalizing p with
  | nil => trivial
  | cons b bs ih =>
    rw [Sizes_cons] at hs
    rw [total_cons] at hf
    obtain ⟨h1, h3⟩ := h
    refine ⟨?_, ?_⟩
    · rw [← h1]; apply GET_congr; intro a ha hb; apply hf <;> omega
    · apply ih _ hs.2 (by omega) _ h3
      intro a ha hb; apply hf <;> omega

theorem Tags_put (m : Mem) (bs : List Blk) (p x v : Nat) (hs : Sizes bs) (hp : 4 ≤ p)
    (hx : x + 8 ≤ p ∨ p + total bs ≤ x + 4) (h : Tags m p bs) : Tags (PUT m x v) p bs := by
  apply Tags_frame m _ bs p hs hp _ h
  intro a ha hb
  apply PUT_byte; omega

theorem Hdrs_put (m : Mem) (bs : List Blk) (p x v : Nat) (hs : Sizes bs) (hp : 4 ≤ p)
    (hx : x + 8 ≤ p ∨ p + total bs ≤ x + 8) (h : Hdrs m p bs) : Hdrs (PUT m x v) p bs := by
  apply Hdrs_frame m _ bs p hs hp _ h
  intro a ha hb
  apply PUT_byte; omega

theorem NoFreePair_tail (b : Blk) (bs : List Blk) (h : NoFreePair (b :: bs)) :
    NoFreePair bs := by
  cases bs with
  | nil => trivial
  | cons c cs => exact h.2

theorem NoFreePair_cons_true (bs : List Blk) (s : Nat) :
    NoFreePair ((s, true) :: bs) ↔ NoFreePair bs := by
  cases bs with
  | nil => simp [NoFreePair]
  | cons c cs => simp [NoFreePair]

theorem NoFreePair_cons_false (bs : List Blk) (s : Nat) :
    NoFreePair ((s, false) :: bs) ↔ (∀ c ∈ bs.head?, c.2 = true) ∧ NoFreePair bs := by
  cases bs with
  | nil => simp [NoFreePair]
  | cons c cs => simp [NoFreePair]

theorem NoFreePair_append_cons (xs ys : List Blk) (b : Blk) :
    NoFreePair (xs ++ b :: ys) ↔ NoFreePair (xs ++ [b]) ∧ NoFreePair (b :: ys) := by
  induction xs with
  | nil =>
    cases ys <;> simp [NoFreePair]
  | cons a as ih =>
    cases as with
    | nil =>
      cases ys <;> simp [NoFreePair]
    | cons c cs =>
      rw [List.cons_append, List.cons_append] at ih ⊢
      rw [List.cons_append]
      simp only [NoFreePair]
      rw [ih]; tauto

/-! ## The first-fit walk -/

theorem HDRP_eq (p : Nat) : HDRP p = p - 4 := rfl

theorem PACK_epilogue : PACK 0 1 = 1 := by decide

theorem find_fit_loop_firstFit (m : Mem) (asize : Nat) (bs : List Blk) (p fuel : Nat)
    (hh : Hdrs m p bs) (hs : Sizes bs) (he : GET m (p + total bs - 4) = PACK 0 1)
    (hf : bs.length < fuel) :
    find_fit_loop m asize fuel p = some (firstFit asize p bs) := by
  induction bs generalizing p fuel with
  | nil =>
    obtain ⟨k, rfl⟩ : ∃ k, fuel = k + 1 := ⟨fuel - 1, by simp at hf; omega⟩
    simp only [total_nil, Nat.add_zero, PACK_epilogue] at he
    have : GET_SIZE m (HDRP p) = 0 := by rw [HDRP_eq, GET_SIZE_eq, he]
    simp [find_fit_loop, this, firstFit]
  | cons b bs ih =>
    obtain ⟨k, rfl⟩ : ∃ k, fuel = k + 1 := ⟨fuel - 1, by simp at hf; omega⟩
    rw [Sizes_cons] at hs
    obtain ⟨h1, h2⟩ := hh
    rw [tag_eq b hs.1.2] at h1
    have e1 : GET_SIZE m (HDRP p) = b.1 := GET_SIZE_of m _ _ _ h1 hs.1.2
    have e2 : GET_ALLOC m (HDRP p) = bit b.2 := GET_ALLOC_of m _ _ _ h1 hs.1.2
    have e3 : NEXT_BLKP m p = p + b.1 := by
      unfold NEXT_BLKP WSIZE; rw [← HDRP_eq, e1]
    have hlen : bs.length < k := by simp at hf; omega
    have he2 : GET m (p + b.1 + total bs - 4) = PACK 0 1 := by
      rw [total_cons] at he; rw [← he]; congr 1; omega
    have hb : bit b.2 = 0 ↔ b.2 = false := by cases b.2 <;> simp [bit]
    simp only [find_fit_loop, e1, e2, e3, firstFit, hb, ih (p + b.1) k h2 hs.2 he2 hlen]
    have : b.1 > 0 := by omega
    simp only [this, if_true]
    split <;> rfl

theorem firstFit_miss (asize p : Nat) (bs : List Blk)
    (h : ∀ b ∈ bs, ¬(b.2 = false ∧ asize ≤ b.1)) : firstFit asize p bs = 0 := by
  induction bs generalizing p with
  | nil => rfl
  | cons b bs ih =>
    have hb := h b (List.mem_cons_self _ _)
    simp only [firstFit, hb, if_false]
    exact ih _ (fun c hc => h c (List.mem_cons_of_mem _ hc))

theorem firstFit_hit (asize p s : Nat) (pre post : List Blk)
    (h : ∀ b ∈ pre, ¬(b.2 = false ∧ asize ≤ b.1)) (hs : asize ≤ s) :
    firstFit asize p (pre ++ (s, false) :: post) = p + total pre := by
  induction pre generalizing p with
  | nil => simp [firstFit, hs, total]
  | cons b bs ih =>
    have hb := h b (List.mem_cons_self _ _)
    rw [List.cons_append]
    simp only [firstFit, hb, if_false, total_cons]
    rw [ih _ (fun c hc => h c (List.mem_cons_of_mem _ hc))]; omega

theorem firstFit_cases (asize : Nat) (bs : List Blk) :
    (∀ b ∈ bs, ¬(b.2 = false ∧ asize ≤ b.1)) ∨
    ∃ pre s post, bs = pre ++ (s, false) :: post ∧ asize ≤ s ∧
      ∀ b ∈ pre, ¬(b.2 = false ∧ asize ≤ b.1) := by
  induction bs with
  | nil => left; intro b hb; cases hb
  | cons b bs ih =>
    by_cases hb : b.2 = false ∧ asize ≤ b.1
    · right
      refine ⟨[], b.1, bs, ?_, hb.2, ?_⟩
      · have : b = (b.1, false) := by rw [← hb.1]
        rw [List.nil_append]; congr
      · intro c hc; cases hc
    · rcases ih with h | ⟨pre, s, post, e, hs, hp⟩
      · left
        intro c hc
        rcases List.mem_cons.1 hc with rfl | hc
        · exact hb
        · exact h c hc
      · right
        refine ⟨b :: pre, s, post, by rw [e]; rfl, hs, ?_⟩
        intro c hc
        rcases List.mem_cons.1 hc with rfl | hc
        · exact hb
        · exact hp c hc

/-! ## Reading through stores -/

theorem GET_PUT_eq (m : Mem) (p v q : Nat) (h : q = p) (hv : v < UMAX) :
    GET (PUT m p v) q = v := by
  rw [h, GET_PUT_small m p v hv]

theorem coalesce_eq (h : Heap) (p sp : Nat) (ap : Bool) (s sn : Nat) (an : Bool)
    (N : Nbhd h.mem p sp ap s sn an) :
    coalesce h p = (if ap then p else p - sp,
      { h with mem := coalesced h.mem p sp ap s sn an }) := by
  obtain ⟨pf, ph, ch, nh, nf, ⟨hsp1, hsp2, hsp3⟩, ⟨hs1, hs2⟩, ⟨hsn1, hsn2⟩, lt⟩ := N
  have ch0 : GET h.mem (p - 4) = s + bit false := by simpa [bit] using ch
  have e1 : PREV_BLKP h.mem p = p - sp := by
    unfold PREV_BLKP DSIZE; rw [GET_SIZE_of _ _ _ _ pf hsp1]
  have e2 : HDRP (p - sp) = p - sp - 4 := rfl
  have e3 : FTRP h.mem (p - sp) = p - 8 := by
    unfold FTRP DSIZE; rw [e2, GET_SIZE_of _ _ _ _ ph hsp1]; omega
  have e4 : GET_ALLOC h.mem (p - 8) = bit ap := GET_ALLOC_of _ _ _ _ pf hsp1
  have e5 : NEXT_BLKP h.mem p = p + s := by
    unfold NEXT_BLKP WSIZE; rw [GET_SIZE_of _ _ _ _ ch0 hs1]
  have e6 : HDRP (p + s) = p + s - 4 := rfl
  have e7 : GET_ALLOC h.mem (p + s - 4) = bit an := GET_ALLOC_of _ _ _ _ nh hsn1
  have e8 : GET_SIZE h.mem (HDRP p) = s := by
    rw [HDRP_eq]; exact GET_SIZE_of _ _ _ _ ch0 hs1
  have e9 : GET_SIZE h.mem (p + s - 4) = sn := GET_SIZE_of _ _ _ _ nh hsn1
  have e10 : GET_SIZE h.mem (p - sp - 4) = sp := GET_SIZE_of _ _ _ _ ph hsp1
  unfold coalesce
  simp only [e1, e3, e4, e5, e6, e7, e8, e9, e2, e10]
  cases ap <;> cases an
  · -- both free
    have nf := nf rfl
    have hsn2 := hsn2 rfl
    have nf0 : GET h.mem (p + s + sn - 8) = sn + bit false := by simpa [bit] using nf
    have f1 : FTRP h.mem (p + s) = p + s + sn - 8 := by
      unfold FTRP DSIZE; rw [e6, e9]
    have f2 : GET_SIZE h.mem (p + s + sn - 8) = sn := GET_SIZE_of _ _ _ _ nf0 hsn1
    have f3 : (s + (sp + sn) % UMAX) % UMAX = sp + s + sn := by
      unfold UMAX at *; omega
    simp only [f1, f2, f3, PACK_zero, bit_false]
    have g1 : NEXT_BLKP (PUT h.mem (p - sp - 4) (sp + s + sn)) p = p + s := by
      unfold NEXT_BLKP WSIZE
      rw [GET_SIZE_eq, GET_PUT_ne _ _ _ _ (by omega), ← GET_SIZE_eq,
        GET_SIZE_of _ _ _ _ ch0 hs1]
    have g2 : FTRP (PUT h.mem (p - sp - 4) (sp + s + sn)) (p + s) = p + s + sn - 8 := by
      unfold FTRP DSIZE
      rw [e6, GET_SIZE_eq, GET_PUT_ne _ _ _ _ (by omega), ← GET_SIZE_eq, e9]
    have g3 : PREV_BLKP (PUT (PUT h.mem (p - sp - 4) (sp + s + sn)) (p + s + sn - 8)
        (sp + s + sn)) p = p - sp := by
      unfold PREV_BLKP DSIZE
      rw [GET_SIZE_eq, GET_PUT_ne _ _ _ _ (by omega), GET_PUT_ne _ _ _ _ (by omega),
        ← GET_SIZE_eq, GET_SIZE_of _ _ _ _ pf hsp1]
    simp [g1, g2, g3, coalesced]
  · -- previous free, next allocated
    have f3 : (s + sp) % UMAX = sp + s := by
      rw [Nat.mod_eq_of_lt (by omega)]; omega
    have f1 : FTRP h.mem p = p + s - 8 := by
      unfold FTRP DSIZE; rw [e8]
    simp only [f1, f3, PACK_zero, bit_false, bit_true]
    have g1 : PREV_BLKP (PUT h.mem (p + s - 8) (sp + s)) p = p - sp := by
      unfold PREV_BLKP DSIZE
      rw [GET_SIZE_eq, GET_PUT_ne _ _ _ _ (by omega), ← GET_SIZE_eq,
        GET_SIZE_of _ _ _ _ pf hsp1]
    have g3 : PREV_BLKP (PUT (PUT h.mem (p + s - 8) (sp + s)) (p - sp - 4) (sp + s)) p
        = p - sp := by
      unfold PREV_BLKP DSIZE
      rw [GET_SIZE_eq, GET_PUT_ne _ _ _ _ (by omega), GET_PUT_ne _ _ _ _ (by omega),
        ← GET_SIZE_eq, GET_SIZE_of _ _ _ _ pf hsp1]
    simp [g1, g3, e2, coalesced]
  · -- previous allocated, next free
    have hsn2 := hsn2 rfl
    have f3 : (s + sn) % UMAX = s + sn := Nat.mod_eq_of_lt (by omega)
    simp only [f3, PACK_zero, bit_false, bit_true]
    have g1 : FTRP (PUT h.mem (p - 4) (s + sn)) p = p + s + sn - 8 := by
      unfold FTRP DSIZE
      rw [HDRP_eq, GET_SIZE_eq, GET_PUT_small _ _ _ (by omega)]; omega
    simp [g1, HDRP_eq, coalesced]
  · -- both allocated
    simp [bit, coalesced]

/-! ## `mm_free` on the words around a block -/

theorem Around_freed (m : Mem) (p sp : Nat) (ap : Bool) (s : Nat) (a : Bool) (sn : Nat)
    (an : Bool) (A : Around m p sp ap s a sn an) :
    Nbhd (PUT (PUT m (p - 4) s) (p + s - 8) s) p sp ap s sn an := by
  obtain ⟨pf, ph, ch, nh, nf, ⟨hsp1, hsp2, hsp3⟩, ⟨hs1, hs2⟩, ⟨hsn1, hsn2⟩, lt⟩ := A
  refine ⟨?_, ?_, ?_, ?_, ?_, ⟨hsp1, hsp2, hsp3⟩, ⟨hs1, hs2⟩, ⟨hsn1, hsn2⟩, lt⟩
  · rw [GET_PUT_ne _ _ _ _ (by omega), GET_PUT_ne _ _ _ _ (by omega), pf]
  · rw [GET_PUT_ne _ _ _ _ (by omega), GET_PUT_ne _ _ _ _ (by omega), ph]
  · rw [GET_PUT_ne _ _ _ _ (by omega), GET_PUT_small _ _ _ (by omega)]
  · rw [GET_PUT_ne _ _ _ _ (by omega), GET_PUT_ne _ _ _ _ (by omega), nh]
  · intro h
    have := hsn2 h
    rw [GET_PUT_ne _ _ _ _ (by omega), GET_PUT_ne _ _ _ _ (by omega), nf h]

theorem mm_free_eq (h : Heap) (p sp : Nat) (ap : Bool) (s : Nat) (a : Bool) (sn : Nat)
    (an : Bool) (A : Around h.mem p sp ap s a sn an) :
    mm_free h p = { h with mem := freed h.mem p sp ap s sn an } := by
  have N := Around_freed _ _ _ _ _ _ _ _ A
  obtain ⟨pf, ph, ch, nh, nf, ⟨hsp1, hsp2, hsp3⟩, ⟨hs1, hs2⟩, ⟨hsn1, hsn2⟩, lt⟩ := A
  have e1 : GET_SIZE h.mem (p - 4) = s := GET_SIZE_of _ _ _ _ ch hs1
  have e2 : FTRP (PUT h.mem (p - 4) s) p = p + s - 8 := by
    unfold FTRP DSIZE
    rw [HDRP_eq, GET_SIZE_eq, GET_PUT_small _ _ _ (by omega)]; omega
  unfold mm_free
  simp only [HDRP_eq, e1, PACK_zero, e2]
  rw [coalesce_eq _ p sp ap s sn an N]
  rfl

theorem coalesced_byte (m : Mem) (p sp : Nat) (ap : Bool) (s sn : Nat) (an : Bool) (x : Nat)
    (hs : 8 ≤ s) (hsp : sp + 4 ≤ p)
    (hx : x + 4 < p - (if ap then 0 else sp) ∨ p + s + (if an then 0 else sn) ≤ x + 4) :
    coalesced m p sp ap s sn an x = m x := by
  unfold coalesced
  cases ap <;> cases an <;> simp only [if_true, if_false, Bool.false_eq_true] at hx ⊢
  · rw [PUT_byte _ _ _ _ (by omega), PUT_byte _ _ _ _ (by omega)]
  · rw [PUT_byte _ _ _ _ (by omega), PUT_byte _ _ _ _ (by omega)]
  · rw [PUT_byte _ _ _ _ (by omega), PUT_byte _ _ _ _ (by omega)]

theorem freed_byte (m : Mem) (p sp : Nat) (ap : Bool) (s sn : Nat) (an : Bool) (x : Nat)
    (hs : 8 ≤ s) (hsp : sp + 4 ≤ p)
    (hx : x + 4 < p - (if ap then 0 else sp) ∨ p + s + (if an then 0 else sn) ≤ x + 4) :
    freed m p sp ap s sn an x = m x := by
  unfold freed
  rw [coalesced_byte _ _ _ _ _ _ _ _ hs hsp hx]
  have h1 : x + 4 < p ∨ p + s ≤ x + 4 := by
    cases ap <;> cases an <;> simp only [if_true, if_false, Bool.false_eq_true] at hx <;> omega
  rw [PUT_byte _ _ _ _ (by omega), PUT_byte _ _ _ _ (by omega)]

theorem freed_tags (m : Mem) (p sp : Nat) (ap : Bool) (s sn : Nat) (an : Bool)
    (hs : 8 ≤ s) (hsp : 8 ≤ sp ∧ sp + 4 ≤ p) (hsn : an = false → 8 ≤ sn)
    (lt : sp + s + sn < UMAX) :
    Tags (freed m p sp ap s sn an) (p - (if ap then 0 else sp))
      [((if ap then 0 else sp) + s + (if an then 0 else sn), false)] := by
  unfold freed coalesced
  simp only [Tags, tag_free, and_true]
  cases ap <;> cases an <;> simp only [if_true, if_false, Bool.false_eq_true]
  · have := hsn rfl
    constructor
    · rw [GET_PUT_ne _ _ _ _ (by omega), GET_PUT_eq _ _ _ _ (by omega) (by omega)]
    · rw [GET_PUT_eq _ _ _ _ (by omega) (by omega)]
  · constructor
    · rw [GET_PUT_eq _ _ _ _ (by omega) (by omega)]; omega
    · rw [GET_PUT_ne _ _ _ _ (by omega), GET_PUT_eq _ _ _ _ (by omega) (by omega)]; omega
  · have := hsn rfl
    constructor
    · rw [GET_PUT_ne _ _ _ _ (by omega), GET_PUT_eq _ _ _ _ (by omega) (by omega)]; omega
    · rw [GET_PUT_eq _ _ _ _ (by omega) (by omega)]; omega
  · constructor
    · rw [GET_PUT_ne _ _ _ _ (by omega), GET_PUT_eq _ _ _ _ (by omega) (by omega)]; omega
    · rw [GET_PUT_eq _ _ _ _ (by omega) (by omega)]; omega

theorem Tags_rewrite (m m1 : Mem) (q : Nat) (xs mid mid1 ys : List Blk) (hq : 4 ≤ q)
    (hT : Tags m q (xs ++ mid ++ ys)) (hS : Sizes (xs ++ mid ++ ys))
    (hf : ∀ x, x + 4 < q + total xs ∨ q + total xs + total mid ≤ x + 4 → m1 x = m x)
    (hm : Tags m1 (q + total xs) mid1) (ht : total mid1 = total mid) :
    Tags m1 q (xs ++ mid1 ++ ys) := by
  rw [Tags_append, Tags_append] at hT ⊢
  rw [Sizes_append, Sizes_append] at hS
  refine ⟨⟨?_, hm⟩, ?_⟩
  · apply Tags_frame m m1 xs q hS.1.1 hq _ hT.1.1
    intro a ha hb; apply hf; omega
  · rw [total_append, ht, ← total_append]
    apply Tags_frame m m1 ys _ hS.2 (by omega) _ hT.2
    intro a ha hb; apply hf
    rw [total_append] at ha; omega

/-! ## Lists around a block -/

theorem absorbPrev_concat (front : List Blk) (sp : Nat) (ap : Bool) (s : Nat) :
    absorbPrev (front ++ [(sp, ap)]) s
      = if ap then (front ++ [(sp, ap)], s) else (front, sp + s) := by
  unfold absorbPrev
  rw [List.getLast?_append, List.dropLast_concat]
  cases ap <;> simp

theorem absorbPrev_prologue (pre : List Blk) (s : Nat) :
    absorbPrev ((8, true) :: pre) s
      = ((8, true) :: (absorbPrev pre s).1, (absorbPrev pre s).2) := by
  rcases List.eq_nil_or_concat pre with e | ⟨front, ⟨sp, ap⟩, e⟩
  · subst e; simp [absorbPrev]
  · rw [List.concat_eq_append] at e
    subst e
    rw [← List.cons_append, absorbPrev_concat, absorbPrev_concat]
    cases ap <;> simp

theorem NoFreePair_concat_size (front : List Blk) (a b : Nat) (fl : Bool)
    (h : NoFreePair (front ++ [(a, fl)])) : NoFreePair (front ++ [(b, fl)]) := by
  induction front with
  | nil => trivial
  | cons c cs ih =>
    cases cs with
    | nil =>
      rw [List.cons_append, List.nil_append] at *
      simpa [NoFreePair] using h
    | cons d ds =>
      rw [List.cons_append, List.cons_append] at *
      exact ⟨h.1, ih h.2⟩

theorem NoFreePair_left (xs ys : List Blk) (h : NoFreePair (xs ++ ys)) : NoFreePair xs := by
  induction xs with
  | nil => trivial
  | cons c cs ih =>
    cases cs with
    | nil => trivial
    | cons d ds =>
      rw [List.cons_append, List.cons_append] at h
      exact ⟨h.1, ih h.2⟩

theorem NoFreePair_right (xs ys : List Blk) (h : NoFreePair (xs ++ ys)) : NoFreePair ys := by
  induction xs with
  | nil => exact h
  | cons c cs ih =>
    rw [List.cons_append] at h
    exact ih (NoFreePair_tail _ _ h)

theorem Sizes_mem (bs : List Blk) (b : Blk) (hs : Sizes bs) (hb : b ∈ bs) :
    8 ≤ b.1 ∧ b.1 % 8 = 0 := hs b hb

theorem total_le_of_mem (bs : List Blk) (b : Blk) (hb : b ∈ bs) : b.1 ≤ total bs := by
  induction bs with
  | nil => cases hb
  | cons c cs ih =>
    rw [total_cons]
    rcases List.mem_cons.1 hb with rfl | hb
    · omega
    · have := ih hb; omega

/-! ## `mm_free` on a well-formed heap -/

theorem free_core (m : Mem) (q : Nat) (front : List Blk) (sp : Nat) (ap : Bool) (s sn : Nat)
    (an : Bool) (ys : List Blk) (hq : 4 ≤ q)
    (hT : Tags m q (front ++ (sp, ap) :: (s, true) :: ((if an then [] else [(sn, false)]) ++ ys)))
    (hS : Sizes (front ++ (sp, ap) :: (s, true) :: ((if an then [] else [(sn, false)]) ++ ys)))
    (lt : sp + s + sn < UMAX) :
    Tags (freed m (q + total front + sp) sp ap s sn an) q
      ((if ap then front ++ [(sp, true)] else front)
        ++ [((if ap then 0 else sp) + s + (if an then 0 else sn), false)] ++ ys) := by
  have hS0 := hS
  rw [Sizes_append, Sizes_cons, Sizes_cons, Sizes_append] at hS
  obtain ⟨-, ⟨hsp1, hsp2⟩, ⟨hs1, hs2⟩, hS3, -⟩ := hS
  have hsn : an = false → 8 ≤ sn := by
    intro e; subst e
    simp only [Bool.false_eq_true, if_false] at hS3
    exact (hS3 (sn, false) (List.mem_singleton_self _)).1
  have hbyte := fun x hx =>
    freed_byte m (q + total front + sp) sp ap s sn an x hs1 (by omega) hx
  have htag := freed_tags m (q + total front + sp) sp ap s sn an hs1 ⟨hsp1, by omega⟩ hsn lt
  cases ap <;> cases an <;>
    simp only [if_true, if_false, Bool.false_eq_true, List.nil_append, Nat.zero_add,
      Nat.add_zero, Nat.sub_zero] at hT hS0 hbyte htag ⊢
  · -- both neighbours free
    have e : front ++ (sp, false) :: (s, true) :: ([(sn, false)] ++ ys)
        = front ++ [(sp, false), (s, true), (sn, false)] ++ ys := by simp
    rw [e] at hT hS0
    apply Tags_rewrite m _ q front _ _ ys hq hT hS0
    · intro x hx; apply hbyte; simp only [total_cons, total_nil] at hx; omega
    · have : q + total front + sp - sp = q + total front := by omega
      rw [this] at htag; exact htag
    · simp only [total_cons, total_nil]; omega
  · -- previous free, next allocated
    have e : front ++ (sp, false) :: (s, true) :: ys
        = front ++ [(sp, false), (s, true)] ++ ys := by simp
    rw [e] at hT hS0
    apply Tags_rewrite m _ q front _ _ ys hq hT hS0
    · intro x hx; apply hbyte; simp only [total_cons, total_nil] at hx; omega
    · have : q + total front + sp - sp = q + total front := by omega
      rw [this] at htag; exact htag
    · simp only [total_cons, total_nil]; omega
  · -- previous allocated, next free
    have e : front ++ (sp, true) :: (s, true) :: ([(sn, false)] ++ ys)
        = (front ++ [(sp, true)]) ++ [(s, true), (sn, false)] ++ ys := by simp
    rw [e] at hT hS0
    apply Tags_rewrite m _ q (front ++ [(sp, true)]) _ _ ys hq hT hS0
    · intro x hx; apply hbyte
      simp only [total_append, total_cons, total_nil] at hx; omega
    · have : q + total (front ++ [(sp, true)]) = q + total front + sp := by
        simp only [total_append, total_cons, total_nil]; omega
      rw [this]; exact htag
    · simp only [total_cons, total_nil]; omega
  · -- both neighbours allocated
    have e : front ++ (sp, true) :: (s, true) :: ys
        = (front ++ [(sp, true)]) ++ [(s, true)] ++ ys := by simp
    rw [e] at hT hS0
    apply Tags_rewrite m _ q (front ++ [(sp, true)]) _ _ ys hq hT hS0
    · intro x hx; apply hbyte
      simp only [total_append, total_cons, total_nil] at hx; omega
    · have : q + total (front ++ [(sp, true)]) = q + total front + sp := by
        simp only [total_append, total_cons, total_nil]; omega
      rw [this]; exact htag
    · simp only [total_cons, total_nil]

theorem tag_true (s : Nat) (hs : s % 8 = 0) : tag (s, true) = s + 1 := by
  rw [tag_eq _ hs]; rfl

theorem layout_total_lt (h : Heap) (bs : List Blk) (L : Layout h bs) :
    h.heap_listp + 8 + total bs < UMAX ∧ total bs + 8 < 2147483648 := by
  have h1 := L.brk
  have h2 := L.limit
  have h3 := L.base
  constructor <;> omega

theorem layout_around (h : Heap) (pre post : List Blk) (s : Nat) (a : Bool)
    (L : Layout h (pre ++ (s, a) :: post)) :
    ∃ front sp ap sn an ys, (8, true) :: pre = front ++ [(sp, ap)]
      ∧ post = (if an then [] else [(sn, false)]) ++ ys
      ∧ (an = true → ∀ b ∈ ys.head?, b.2 = true)
      ∧ (∀ z, absorbNext z post = (z + (if an then 0 else sn), ys))
      ∧ Around h.mem (h.heap_listp + 8 + total pre) sp ap s a sn an := by
  obtain ⟨hb1, hb2⟩ := L.base
  have hlt := (layout_total_lt h _ L).1
  rw [total_append, total_cons] at hlt
  rcases List.eq_nil_or_concat ((8, true) :: pre) with e | ⟨front, ⟨sp, ap⟩, e⟩
  · cases e
  rw [List.concat_eq_append] at e
  have et : 8 + total pre = total front + sp := by
    have := congrArg total e
    rw [total_cons, total_append, total_cons, total_nil] at this
    simpa using this
  have hT := L.tags
  have e2 : (8, true) :: (pre ++ (s, a) :: post) = front ++ (sp, ap) :: (s, a) :: post := by
    rw [← List.cons_append, e]; simp
  rw [e2, Tags_append] at hT
  obtain ⟨-, ⟨hph, hpf, hch, hcf, hpost⟩⟩ := hT
  have hS := L.sizes
  have hSp : 8 ≤ sp ∧ sp % 8 = 0 := by
    have hmem : (sp, ap) ∈ (8, true) :: pre := by rw [e]; simp
    rcases List.mem_cons.1 hmem with h1 | h1
    · cases h1; exact ⟨le_refl _, rfl⟩
    · exact hS _ (List.mem_append_left _ h1)
  have hSs : 8 ≤ s ∧ s % 8 = 0 := hS (s, a) (by simp)
  have hSpost : Sizes post := fun b hb => hS b (by simp [hb])
  have ep : h.heap_listp + 8 + total pre = h.heap_listp + total front + sp := by omega
  rw [tag_eq _ hSp.2] at hph hpf
  rw [tag_eq _ hSs.2] at hch
  simp only at hph hpf hch hcf hpost
  have pf : GET h.mem (h.heap_listp + 8 + total pre - 8) = sp + bit ap := by
    rw [← hpf]; congr 1; omega
  have ph : GET h.mem (h.heap_listp + 8 + total pre - sp - 4) = sp + bit ap := by
    rw [← hph]; congr 1; omega
  have ch : GET h.mem (h.heap_listp + 8 + total pre - 4) = s + bit a := by
    rw [← hch]; congr 1; omega
  cases post with
  | nil =>
    refine ⟨front, sp, ap, 0, true, [], e, by simp, by simp, by simp [absorbNext], ?_⟩
    refine ⟨pf, ph, ch, ?_, by simp, ⟨hSp.2, hSp.1, by omega⟩, ⟨hSs.2, hSs.1⟩, by simp, ?_⟩
    · have := L.epilogue
      rw [total_append, total_cons, total_nil, PACK_epilogue] at this
      simp only [Nat.add_zero] at this
      rw [bit_true, Nat.zero_add, ← this]; congr 1; omega
    · simp only [total_nil] at hlt; omega
  | cons c cs =>
    obtain ⟨sn, an⟩ := c
    have hSn : 8 ≤ sn ∧ sn % 8 = 0 := hSpost (sn, an) (by simp)
    obtain ⟨hnh, hnf, -⟩ := hpost
    rw [tag_eq _ hSn.2] at hnh hnf
    simp only at hnh hnf
    have nh : GET h.mem (h.heap_listp + 8 + total pre + s - 4) = sn + bit an := by
      rw [← hnh]; congr 1; omega
    have nf : GET h.mem (h.heap_listp + 8 + total pre + s + sn - 8) = sn + bit an := by
      rw [← hnf]; congr 1; omega
    have hlt2 : sp + s + sn < UMAX := by
      rw [total_cons] at hlt; simp only at hlt; omega
    cases an with
    | true =>
      refine ⟨front, sp, ap, sn, true, (sn, true) :: cs, e, by simp, by simp,
        by simp [absorbNext], ?_⟩
      exact ⟨pf, ph, ch, nh, by simp, ⟨hSp.2, hSp.1, by omega⟩, ⟨hSs.2, hSs.1⟩,
        ⟨hSn.2, by simp⟩, hlt2⟩
    | false =>
      refine ⟨front, sp, ap, sn, false, cs, e, by simp, by simp, by simp [absorbNext], ?_⟩
      exact ⟨pf, ph, ch, nh, fun _ => by simpa [bit] using nf, ⟨hSp.2, hSp.1, by omega⟩,
        ⟨hSs.2, hSs.1⟩, ⟨hSn.2, fun _ => hSn.1⟩, hlt2⟩

theorem freedList_shape (pre post front ys : List Blk) (s sp sn : Nat) (ap an : Bool)
    (e : (8, true) :: pre = front ++ [(sp, ap)])
    (habs : ∀ z, absorbNext z post = (z + (if an then 0 else sn), ys)) :
    (8, true) :: freedList pre s post
      = (if ap then front ++ [(sp, true)] else front)
        ++ [((if ap then 0 else sp) + s + (if an then 0 else sn), false)] ++ ys
    ∧ total (absorbPrev pre s).1 + 8 = total front + (if ap then sp else 0)
    ∧ (absorbNext (absorbPrev pre s).2 post).1
        = (if ap then 0 else sp) + s + (if an then 0 else sn) := by
  have hp := absorbPrev_prologue pre s
  rw [e, absorbPrev_concat] at hp
  unfold freedList
  rw [habs]
  cases ap
  · simp only [Bool.false_eq_true, if_false, Prod.mk.injEq] at hp ⊢
    obtain ⟨hp1, hp2⟩ := hp
    rw [← hp2, hp1]
    refine ⟨by simp, ?_, rfl⟩
    simp only [total_cons]; omega
  · simp only [if_true, Prod.mk.injEq] at hp ⊢
    obtain ⟨hp1, hp2⟩ := hp
    rw [← hp2, hp1]
    refine ⟨by simp, ?_, by omega⟩
    have := congrArg total hp1
    simp only [total_cons, total_append, total_nil] at this ⊢
    omega

theorem mm_free_layout (h : Heap) (pre post : List Blk) (s : Nat)
    (L : Layout h (pre ++ (s, true) :: post)) :
    Layout (mm_free h (h.heap_listp + 8 + total pre)) (freedList pre s post)
    ∧ (mm_free h (h.heap_listp + 8 + total pre)).heap_listp = h.heap_listp
    ∧ (mm_free h (h.heap_listp + 8 + total pre)).mem_brk = h.mem_brk
    ∧ (mm_free h (h.heap_listp + 8 + total pre)).mem_max_addr = h.mem_max_addr
    ∧ ∀ x, (x + 4 < h.heap_listp + 8 + total (absorbPrev pre s).1
          ∨ h.heap_listp + 8 + total (absorbPrev pre s).1
              + (absorbNext (absorbPrev pre s).2 post).1 ≤ x + 4) →
        (mm_free h (h.heap_listp + 8 + total pre)).mem x = h.mem x := by
  obtain ⟨front, sp, ap, sn, an, ys, e, epost, hhead, habs, A⟩ := layout_around h pre post s true L
  obtain ⟨hshape, htot1, hsize⟩ := freedList_shape pre post front ys s sp sn ap an e habs
  have hfree := mm_free_eq h _ sp ap s true sn an A
  obtain ⟨hb1, hb2⟩ := L.base
  have et : 8 + total pre = total front + sp := by
    have := congrArg total e
    simpa [total_cons, total_append, total_nil] using this
  have ep : h.heap_listp + 8 + total pre = h.heap_listp + total front + sp := by omega
  have e2 : (8, true) :: (pre ++ (s, true) :: post)
      = front ++ (sp, ap) :: (s, true) :: ((if an then [] else [(sn, false)]) ++ ys) := by
    rw [← List.cons_append, e, ← epost]; simp
  have hT := L.tags
  rw [e2] at hT
  have hS : Sizes ((8, true) :: (pre ++ (s, true) :: post)) := by
    rw [Sizes_cons]; exact ⟨⟨le_refl _, rfl⟩, L.sizes⟩
  rw [e2] at hS
  have hcore := free_core h.mem h.heap_listp front sp ap s sn an ys (by omega) hT hS A.lt
  rw [← ep] at hcore
  have hS2 := hS
  rw [Sizes_append, Sizes_cons, Sizes_cons, Sizes_append] at hS2
  obtain ⟨hSf, ⟨hsp1, hsp2⟩, ⟨hs1, hs2⟩, hSn, hSy⟩ := hS2
  have hsn : an = false → 8 ≤ sn ∧ sn % 8 = 0 := by
    intro e; subst e
    simp only [Bool.false_eq_true, if_false] at hSn
    exact hSn (sn, false) (List.mem_singleton_self _)
  -- total size is unchanged
  have htotal : total (freedList pre s post) = total (pre ++ (s, true) :: post) := by
    have h1 := congrArg total hshape
    have h2 := congrArg total e2
    simp only [total_cons, total_append, total_nil] at h1 h2
    have h3 : total (if ap then front ++ [(sp, true)] else front)
        = total front + (if ap then sp else 0) := by
      cases ap <;> simp [total_append, total_cons, total_nil]
    have h4 : total (if an then [] else [(sn, false)]) = if an then 0 else sn := by
      cases an <;> simp [total_cons, total_nil]
    rw [h3] at h1; rw [h4] at h2
    simp only [total_append, total_cons] at h2 ⊢
    cases ap <;> cases an <;> simp at h1 h2 ⊢ <;> omega
  have hbyte : ∀ x, (x + 4 < h.heap_listp + 8 + total (absorbPrev pre s).1
        ∨ h.heap_listp + 8 + total (absorbPrev pre s).1
            + (absorbNext (absorbPrev pre s).2 post).1 ≤ x + 4) →
      freed h.mem (h.heap_listp + 8 + total pre) sp ap s sn an x = h.mem x := by
    intro x hx
    apply freed_byte _ _ _ _ _ _ _ _ hs1 (by omega)
    rw [hsize] at hx
    cases ap <;> cases an <;> simp only [if_true, if_false, Bool.false_eq_true] at hx htot1 ⊢
      <;> omega
  rw [hfree]
  refine ⟨⟨⟨hb1, hb2⟩, ?_, ?_, ?_, ?_, L.limit, ?_⟩, rfl, rfl, rfl, hbyte⟩
  · -- tags
    show Tags _ h.heap_listp ((8, true) :: freedList pre s post)
    rw [hshape]; exact hcore
  · -- sizes
    have : Sizes ((8, true) :: freedList pre s post) := by
      rw [hshape, Sizes_append, Sizes_append]
      refine ⟨⟨?_, ?_⟩, hSy⟩
      · cases ap
        · exact hSf
        · rw [if_pos rfl, Sizes_append]
          exact ⟨hSf, fun b hb => by rw [List.mem_singleton.1 hb]; exact ⟨hsp1, hsp2⟩⟩
      · intro b hb
        rw [List.mem_singleton.1 hb]
        cases ap <;> cases an <;> simp only [if_true, if_false, Bool.false_eq_true]
          <;> first | (have h9 := hsn rfl; omega) | omega
    rw [Sizes_cons] at this
    exact this.2
  · -- epilogue
    show GET _ (h.heap_listp + 8 + total (freedList pre s post) - 4) = PACK 0 1
    rw [htotal, ← L.epilogue]
    apply GET_congr
    intro a ha hb
    apply hbyte
    right
    rw [hsize]
    have : total (pre ++ (s, true) :: post)
        = total pre + s + (if an then 0 else sn) + total ys := by
      rw [epost]
      cases an <;> simp [total_append, total_cons, total_nil] <;> omega
    cases ap <;> simp only [if_true, if_false, Bool.false_eq_true] at htot1 ⊢ <;> omega
  · -- break
    show h.mem_brk = h.heap_listp + 8 + total (freedList pre s post)
    rw [htotal]; exact L.brk
  · -- no two free neighbours
    have hN : NoFreePair ((8, true) :: (pre ++ (s, true) :: post)) :=
      (NoFreePair_cons_true _ _).2 L.nofree
    rw [e2] at hN
    have : NoFreePair ((8, true) :: freedList pre s post) := by
      rw [hshape, List.append_assoc, List.singleton_append, NoFreePair_append_cons]
      rw [NoFreePair_append_cons] at hN
      constructor
      · cases ap
        · exact NoFreePair_concat_size _ _ _ _ hN.1
        · rw [if_pos rfl, List.append_assoc, List.singleton_append, NoFreePair_append_cons]
          exact ⟨hN.1, by simp [NoFreePair]⟩
      · rw [NoFreePair_cons_false]
        have hN2 := NoFreePair_tail _ _ (NoFreePair_tail _ _ hN.2)
        cases an
        · simp only [Bool.false_eq_true, if_false, List.singleton_append] at hN2
          exact (NoFreePair_cons_false _ _).1 hN2
        · simp only [if_true, List.nil_append] at hN2
          exact ⟨hhead rfl, hN2⟩
    exact (NoFreePair_cons_true _ _).1 this

/-! ## `place` -/

theorem place_eq (h : Heap) (p s asize : Nat) (a : Bool) (hp : 8 ≤ p)
    (hh : GET h.mem (p - 4) = s + bit a) (hs : s % 8 = 0) (hlt : s < UMAX)
    (ha : asize ≤ s) (ham : asize % 8 = 0) :
    place h p asize = { h with mem := placed h.mem p s asize } := by
  have hlt1 : s < 4294967296 := hlt
  have e1 : GET_SIZE h.mem (p - 4) = s := GET_SIZE_of _ _ _ _ hh hs
  have e2 : (s + (UMAX - asize % UMAX)) % UMAX = s - asize := by
    unfold UMAX; omega
  unfold place placed
  simp only [HDRP_eq, e1, e2, DSIZE, PACK_zero, PACK_one _ ham, PACK_one _ hs]
  by_cases hc : 16 ≤ s - asize
  · have f1 : FTRP (PUT h.mem (p - 4) (asize + 1)) p = p + asize - 8 := by
      unfold FTRP DSIZE
      rw [HDRP_eq, GET_SIZE_eq, GET_PUT_small _ _ _ (by unfold UMAX; omega)]
      omega
    have f2 : NEXT_BLKP (PUT (PUT h.mem (p - 4) (asize + 1)) (p + asize - 8) (asize + 1)) p
        = p + asize := by
      unfold NEXT_BLKP WSIZE
      rw [GET_SIZE_eq, GET_PUT_ne _ _ _ _ (by omega),
        GET_PUT_small _ _ _ (by unfold UMAX; omega)]
      omega
    have f3 : FTRP (PUT (PUT (PUT h.mem (p - 4) (asize + 1)) (p + asize - 8) (asize + 1))
        (p + asize - 4) (s - asize)) (p + asize) = p + s - 8 := by
      unfold FTRP DSIZE
      rw [HDRP_eq, GET_SIZE_eq, GET_PUT_small _ _ _ (by unfold UMAX; omega)]
      omega
    simp only [show 2 * 8 ≤ s - asize from hc, if_true, ge_iff_le, f1, f2, f3, hc]
  · have f1 : FTRP (PUT h.mem (p - 4) (s + 1)) p = p + s - 8 := by
      unfold FTRP DSIZE
      rw [HDRP_eq, GET_SIZE_eq, GET_PUT_small _ _ _ (by unfold UMAX; omega)]
      omega
    have hc2 : ¬ 2 * 8 ≤ s - asize := hc
    simp only [hc2, if_false, ge_iff_le, f1, hc]

theorem placed_byte (m : Mem) (p s asize x : Nat) (ha : asize ≤ s) (ham : asize % 8 = 0)
    (hs : 8 ≤ s)
    (hx : x + 4 < p - (if asize = 0 ∧ 16 ≤ s then 4 else 0) ∨ p + s ≤ x + 4) :
    placed m p s asize x = m x := by
  unfold placed
  by_cases h0 : asize = 0 ∧ 16 ≤ s
  · rw [if_pos h0] at hx
    split
    · rw [PUT_byte _ _ _ _ (by omega), PUT_byte _ _ _ _ (by omega),
        PUT_byte _ _ _ _ (by omega), PUT_byte _ _ _ _ (by omega)]
    · rw [PUT_byte _ _ _ _ (by omega), PUT_byte _ _ _ _ (by omega)]
  · rw [if_neg h0] at hx
    split
    · rw [PUT_byte _ _ _ _ (by omega), PUT_byte _ _ _ _ (by omega),
        PUT_byte _ _ _ _ (by omega), PUT_byte _ _ _ _ (by omega)]
    · rw [PUT_byte _ _ _ _ (by omega), PUT_byte _ _ _ _ (by omega)]

theorem placed_tags (m : Mem) (p s asize : Nat) (hp : 8 ≤ p) (ha : asize ≤ s)
    (ham : asize % 8 = 0) (hs : s % 8 = 0 ∧ 8 ≤ s) (hlt : s < UMAX)
    (h8 : 8 ≤ asize ∨ s - asize < 16) :
    Tags (placed m p s asize) p
      (if 2 * DSIZE ≤ s - asize then [(asize, true), (s - asize, false)] else [(s, true)]) := by
  have hlt1 : s < 4294967296 := hlt
  have hU : UMAX = 4294967296 := rfl
  unfold placed DSIZE
  by_cases hc : 16 ≤ s - asize
  · have h8 : 8 ≤ asize := by omega
    simp only [show 2 * 8 ≤ s - asize from hc, hc, if_true, Tags, tag_free, and_true]
    rw [tag_true _ ham]
    refine ⟨?_, ?_, ?_, ?_⟩
    · rw [GET_PUT_ne _ _ _ _ (by omega), GET_PUT_ne _ _ _ _ (by omega),
        GET_PUT_ne _ _ _ _ (by omega), GET_PUT_eq _ _ _ _ (by omega) (by omega)]
    · rw [GET_PUT_ne _ _ _ _ (by omega), GET_PUT_ne _ _ _ _ (by omega),
        GET_PUT_eq _ _ _ _ (by omega) (by omega)]
    · rw [GET_PUT_ne _ _ _ _ (by omega), GET_PUT_eq _ _ _ _ (by omega) (by omega)]
    · rw [GET_PUT_eq _ _ _ _ (by omega) (by omega)]
  · have hc2 : ¬ 2 * 8 ≤ s - asize := hc
    simp only [hc2, hc, if_false, Tags, and_true]
    rw [tag_true _ hs.1]
    refine ⟨?_, ?_⟩
    · rw [GET_PUT_ne _ _ _ _ (by omega), GET_PUT_eq _ _ _ _ (by omega) (by omega)]
    · rw [GET_PUT_eq _ _ _ _ (by omega) (by omega)]

theorem NoFreePair_concat_true (xs : List Blk) (z : Nat) (h : NoFreePair xs) :
    NoFreePair (xs ++ [(z, true)]) := by
  induction xs with
  | nil => trivial
  | cons c cs ih =>
    cases cs with
    | nil => simp [NoFreePair]
    | cons d ds =>
      rw [List.cons_append, List.cons_append] at *
      exact ⟨h.1, ih h.2⟩

theorem place_layout (h : Heap) (pre post : List Blk) (s asize : Nat)
    (L : Layout h (pre ++ (s, false) :: post)) (ha : asize ≤ s) (ham : asize % 8 = 0)
    (h8 : 8 ≤ asize ∨ s - asize < 16) :
    Layout (place h (h.heap_listp + 8 + total pre) asize) (placedList pre s asize post)
    ∧ (place h (h.heap_listp + 8 + total pre) asize).heap_listp = h.heap_listp
    ∧ (place h (h.heap_listp + 8 + total pre) asize).mem_brk = h.mem_brk
    ∧ (place h (h.heap_listp + 8 + total pre) asize).mem_max_addr = h.mem_max_addr
    ∧ ∀ x, (x + 4 < h.heap_listp + 8 + total pre ∨ h.heap_listp + 8 + total pre + s ≤ x + 4) →
        (place h (h.heap_listp + 8 + total pre) asize).mem x = h.mem x := by
  obtain ⟨hb1, hb2⟩ := L.base
  have hlt := (layout_total_lt h _ L).1
  rw [total_append, total_cons] at hlt
  simp only at hlt
  have hS := L.sizes
  have hSs : 8 ≤ s ∧ s % 8 = 0 := hS (s, false) (by simp)
  have hT := L.tags
  have e2 : (8, true) :: (pre ++ (s, false) :: post)
      = ((8, true) :: pre) ++ [(s, false)] ++ post := by simp
  have hS1 : Sizes ((8, true) :: (pre ++ (s, false) :: post)) := by
    rw [Sizes_cons]; exact ⟨⟨le_refl _, rfl⟩, hS⟩
  rw [e2] at hT hS1
  have hT2 := hT
  rw [Tags_append, Tags_append] at hT2
  obtain ⟨⟨-, hch, -⟩, -⟩ := hT2
  rw [total_cons, tag_free] at hch
  simp only at hch
  have ep : h.heap_listp + (8 + total pre) = h.heap_listp + 8 + total pre := by omega
  rw [ep] at hch
  have hch0 : GET h.mem (h.heap_listp + 8 + total pre - 4) = s + bit false := by
    simpa [bit] using hch
  have heq := place_eq h _ s asize false (by omega) hch0 hSs.2 (by omega) ha ham
  have hbyte : ∀ x, (x + 4 < h.heap_listp + 8 + total pre
      ∨ h.heap_listp + 8 + total pre + s ≤ x + 4) →
      placed h.mem (h.heap_listp + 8 + total pre) s asize x = h.mem x := by
    intro x hx
    apply placed_byte _ _ _ _ _ ha ham hSs.1
    have : ¬(asize = 0 ∧ 16 ≤ s) := by omega
    simp only [this, if_false]; omega
  have htag := placed_tags h.mem (h.heap_listp + 8 + total pre) s asize (by omega) ha ham
    ⟨hSs.2, hSs.1⟩ (by omega) h8
  have hshape : (8, true) :: placedList pre s asize post
      = ((8, true) :: pre)
        ++ (if 2 * DSIZE ≤ s - asize then [(asize, true), (s - asize, false)] else [(s, true)])
        ++ post := by
    unfold placedList; split <;> simp
  have htotal : total (placedList pre s asize post) = total (pre ++ (s, false) :: post) := by
    unfold placedList DSIZE
    split
    · simp only [total_append, total_cons]; omega
    · simp only [total_append, total_cons]
  rw [heq]
  refine ⟨⟨⟨hb1, hb2⟩, ?_, ?_, ?_, ?_, L.limit, ?_⟩, rfl, rfl, rfl, hbyte⟩
  · show Tags _ h.heap_listp ((8, true) :: placedList pre s asize post)
    rw [hshape]
    apply Tags_rewrite h.mem _ h.heap_listp _ [(s, false)] _ post (by omega) hT hS1
    · intro x hx; apply hbyte
      simp only [total_cons, total_nil] at hx; omega
    · rw [total_cons, ep]; exact htag
    · unfold DSIZE
      split
      · simp only [total_cons, total_nil]; omega
      · simp only [total_cons, total_nil]
  · have hSpre : Sizes pre := fun b hb => hS b (by simp [hb])
    have hSpost : Sizes post := fun b hb => hS b (by simp [hb])
    unfold placedList DSIZE
    split
    · rw [Sizes_append, Sizes_cons, Sizes_cons]
      exact ⟨hSpre, ⟨by omega, ham⟩, ⟨by omega, by omega⟩, hSpost⟩
    · rw [Sizes_append, Sizes_cons]
      exact ⟨hSpre, ⟨hSs.1, hSs.2⟩, hSpost⟩
  · show GET _ (h.heap_listp + 8 + total (placedList pre s asize post) - 4) = PACK 0 1
    rw [htotal, ← L.epilogue]
    apply GET_congr
    intro a ha1 hb
    apply hbyte
    rw [total_append, total_cons] at ha1
    simp only at ha1
    omega
  · show h.mem_brk = h.heap_listp + 8 + total (placedList pre s asize post)
    rw [htotal]; exact L.brk
  · have hN := L.nofree
    rw [NoFreePair_append_cons] at hN
    have hN1 := NoFreePair_left _ _ hN.1
    unfold placedList
    split
    · rw [NoFreePair_append_cons]
      refine ⟨NoFreePair_concat_true _ _ hN1, ?_⟩
      rw [NoFreePair_cons_true]
      rw [NoFreePair_cons_false] at hN ⊢
      exact hN.2
    · rw [NoFreePair_append_cons]
      refine ⟨NoFreePair_concat_true _ _ hN1, ?_⟩
      rw [NoFreePair_cons_true]
      exact NoFreePair_tail _ _ hN.2

/-! ## `extend_heap` -/

theorem Tags_rewrite_end (m m1 : Mem) (q : Nat) (xs mid mid1 : List Blk) (hq : 4 ≤ q)
    (hT : Tags m q (xs ++ mid)) (hS : Sizes xs)
    (hf : ∀ x, x + 4 < q + total xs → m1 x = m x)
    (hm : Tags m1 (q + total xs) mid1) :
    Tags m1 q (xs ++ mid1) := by
  rw [Tags_append] at hT ⊢
  refine ⟨?_, hm⟩
  apply Tags_frame m m1 xs q hS hq _ hT.1
  intro a ha hb; apply hf; omega

theorem extend_heap_fail (h : Heap) (words : Nat)
    (hf : mem_sbrk h (if words % 2 ≠ 0 then ((words + 1) * WSIZE) % UMAX
      else (words * WSIZE) % UMAX) = none) :
    extend_heap h words = (0, h) := by
  unfold extend_heap
  simp only [hf]

theorem ext_Nbhd (m : Mem) (p sp : Nat) (ap : Bool) (size : Nat)
    (hpf : GET m (p - 8) = sp + bit ap) (hph : GET m (p - sp - 4) = sp + bit ap)
    (hsp : 8 ≤ sp ∧ sp % 8 = 0) (hp : sp + 4 ≤ p) (h8 : 8 ≤ size) (hm8 : size % 8 = 0)
    (hlt : sp + size < 4294967296) :
    Nbhd (PUT (PUT (PUT m (p - 4) size) (p + size - 8) size) (p + size - 4) 1)
      p sp ap size 0 true := by
  have hU : UMAX = 4294967296 := rfl
  refine ⟨?_, ?_, ?_, ?_, ?_, ⟨hsp.2, hsp.1, hp⟩, ⟨hm8, h8⟩, ?_, ?_⟩
  · rw [GET_PUT_ne _ _ _ _ (by omega), GET_PUT_ne _ _ _ _ (by omega),
      GET_PUT_ne _ _ _ _ (by omega), hpf]
  · rw [GET_PUT_ne _ _ _ _ (by omega), GET_PUT_ne _ _ _ _ (by omega),
      GET_PUT_ne _ _ _ _ (by omega), hph]
  · rw [GET_PUT_ne _ _ _ _ (by omega), GET_PUT_ne _ _ _ _ (by omega),
      GET_PUT_small _ _ _ (by rw [hU]; omega)]
  · rw [GET_PUT_small _ _ _ (by rw [hU]; omega)]; rfl
  · intro h; cases h
  · exact ⟨rfl, fun h => by cases h⟩
  · rw [hU]; omega

theorem extend_heap_eq (h : Heap) (words sp : Nat) (ap : Bool) (size : Nat)
    (hsz : (if words % 2 ≠ 0 then ((words + 1) * WSIZE) % UMAX else (words * WSIZE) % UMAX)
      = size)
    (hfit : h.mem_brk + size ≤ h.mem_max_addr)
    (N : Nbhd (PUT (PUT (PUT h.mem (h.mem_brk - 4) size) (h.mem_brk + size - 8) size)
      (h.mem_brk + size - 4) 1) h.mem_brk sp ap size 0 true) :
    extend_heap h words = (if ap then h.mem_brk else h.mem_brk - sp,
      { h with mem_brk := h.mem_brk + size,
               mem := extended h.mem h.mem_brk sp ap size }) := by
  have hlt := N.lt
  have hsp := N.hsp
  have h8 := N.hs.2
  have hm8 := N.hs.1
  have hU : UMAX = 4294967296 := rfl
  have hs : mem_sbrk h size
      = some (h.mem_brk, { h with mem_brk := h.mem_brk + size }) := by
    unfold mem_sbrk; rw [if_pos hfit]
  have f1 : FTRP (PUT h.mem (h.mem_brk - 4) size) h.mem_brk = h.mem_brk + size - 8 := by
    unfold FTRP DSIZE
    rw [HDRP_eq, GET_SIZE_eq, GET_PUT_small _ _ _ (by rw [hU]; omega)]
    omega
  have f2 : NEXT_BLKP (PUT (PUT h.mem (h.mem_brk - 4) size) (h.mem_brk + size - 8) size)
      h.mem_brk = h.mem_brk + size := by
    unfold NEXT_BLKP WSIZE
    rw [GET_SIZE_eq, GET_PUT_ne _ _ _ _ (by omega), GET_PUT_small _ _ _ (by rw [hU]; omega)]
    omega
  unfold extend_heap extended
  simp only [hsz, hs, HDRP_eq, PACK_zero, f1, f2, PACK_epilogue]
  rw [coalesce_eq _ h.mem_brk sp ap size 0 true N]

theorem extended_byte (m : Mem) (p sp : Nat) (ap : Bool) (size x : Nat) (h8 : 8 ≤ size)
    (hsp : sp + 4 ≤ p) (hx : x + 4 < p - (if ap then 0 else sp)) :
    extended m p sp ap size x = m x := by
  unfold extended
  rw [coalesced_byte _ _ _ _ _ _ _ _ h8 hsp (Or.inl hx)]
  have : x + 4 < p := by
    cases ap
    · rw [if_neg (by simp)] at hx; omega
    · rw [if_pos rfl] at hx; omega
  rw [PUT_byte _ _ _ _ (by omega), PUT_byte _ _ _ _ (by omega), PUT_byte _ _ _ _ (by omega)]

theorem extended_tags (m : Mem) (p sp : Nat) (ap : Bool) (size : Nat) (h8 : 8 ≤ size)
    (hsp : 8 ≤ sp ∧ sp + 4 ≤ p) (hlt : sp + size < 4294967296) :
    Tags (extended m p sp ap size) (p - (if ap then 0 else sp))
      [((if ap then 0 else sp) + size, false)]
    ∧ GET (extended m p sp ap size) (p + size - 4) = 1 := by
  have hU : UMAX = 4294967296 := rfl
  unfold extended coalesced
  simp only [Tags, tag_free, and_true]
  cases ap <;> simp only [if_true, if_false, Bool.false_eq_true, Nat.zero_add, Nat.sub_zero]
  · refine ⟨⟨?_, ?_⟩, ?_⟩
    · rw [GET_PUT_eq _ _ _ _ (by omega) (by rw [hU]; omega)]
    · rw [GET_PUT_ne _ _ _ _ (by omega), GET_PUT_eq _ _ _ _ (by omega) (by rw [hU]; omega)]
    · rw [GET_PUT_ne _ _ _ _ (by omega), GET_PUT_ne _ _ _ _ (by omega),
        GET_PUT_eq _ _ _ _ (by omega) (by rw [hU]; omega)]
  · refine ⟨⟨?_, ?_⟩, ?_⟩
    · rw [GET_PUT_ne _ _ _ _ (by omega), GET_PUT_ne _ _ _ _ (by omega),
        GET_PUT_eq _ _ _ _ (by omega) (by rw [hU]; omega)]
    · rw [GET_PUT_ne _ _ _ _ (by omega), GET_PUT_eq _ _ _ _ (by omega) (by rw [hU]; omega)]
    · rw [GET_PUT_eq _ _ _ _ (by omega) (by rw [hU]; omega)]

theorem layout_last (h : Heap) (bs : List Blk) (L : Layout h bs) :
    ∃ front sp ap, (8, true) :: bs = front ++ [(sp, ap)]
      ∧ GET h.mem (h.mem_brk - 8) = sp + bit ap
      ∧ GET h.mem (h.mem_brk - sp - 4) = sp + bit ap
      ∧ (8 ≤ sp ∧ sp % 8 = 0) ∧ sp + 4 ≤ h.mem_brk
      ∧ h.heap_listp + total front + sp = h.mem_brk
      ∧ Sizes front ∧ Tags h.mem h.heap_listp (front ++ [(sp, ap)])
      ∧ NoFreePair (front ++ [(sp, ap)]) := by
  obtain ⟨hb1, hb2⟩ := L.base
  have hbrk := L.brk
  rcases List.eq_nil_or_concat ((8, true) :: bs) with e | ⟨front, ⟨sp, ap⟩, e⟩
  · cases e
  rw [List.concat_eq_append] at e
  have et : 8 + total bs = total front + sp := by
    have := congrArg total e
    simpa [total_cons, total_append, total_nil] using this
  have hT := L.tags
  rw [e] at hT
  have hS : Sizes ((8, true) :: bs) := by
    rw [Sizes_cons]; exact ⟨⟨le_refl _, rfl⟩, L.sizes⟩
  rw [e, Sizes_append] at hS
  obtain ⟨hSf, hSp⟩ := hS
  have hsp : 8 ≤ sp ∧ sp % 8 = 0 := hSp (sp, ap) (List.mem_singleton_self _)
  have hT2 := hT
  rw [Tags_append] at hT2
  obtain ⟨-, hph, hpf, -⟩ := hT2
  rw [tag_eq _ hsp.2] at hph hpf
  simp only at hph hpf
  have hN : NoFreePair ((8, true) :: bs) := (NoFreePair_cons_true _ _).2 L.nofree
  rw [e] at hN
  refine ⟨front, sp, ap, e, ?_, ?_, hsp, by omega, by omega, hSf, hT, hN⟩
  · rw [← hpf]; congr 1; omega
  · rw [← hph]; congr 1; omega

theorem extend_heap_layout (h : Heap) (bs : List Blk) (words size : Nat) (L : Layout h bs)
    (hsz : (if words % 2 ≠ 0 then ((words + 1) * WSIZE) % UMAX else (words * WSIZE) % UMAX)
      = size)
    (h8 : 8 ≤ size) (hm8 : size % 8 = 0) (hfit : h.mem_brk + size ≤ h.mem_max_addr) :
    (extend_heap h words).1 = h.heap_listp + 8 + total (absorbPrev bs size).1
    ∧ Layout (extend_heap h words).2 (freedList bs size [])
    ∧ (extend_heap h words).2.heap_listp = h.heap_listp
    ∧ (extend_heap h words).2.mem_max_addr = h.mem_max_addr
    ∧ ∀ x, x + 4 < h.heap_listp + 8 + total (absorbPrev bs size).1 →
        (extend_heap h words).2.mem x = h.mem x := by
  obtain ⟨front, sp, ap, e, hpf, hph, hsp, hp4, hend, hSf, hT, hN⟩ := layout_last h bs L
  obtain ⟨hb1, hb2⟩ := L.base
  obtain ⟨-, hl2, hl3⟩ := L.limit
  have hl2a : h.mem_max_addr < 4294967296 := hl2
  have hlt : sp + size < 4294967296 := by omega
  have N := ext_Nbhd h.mem h.mem_brk sp ap size hpf hph hsp hp4 h8 hm8 hlt
  have hext := extend_heap_eq h words sp ap size hsz hfit N
  clear hsz N
  obtain ⟨hshape, htot1, -⟩ := freedList_shape bs [] front [] size sp 0 ap true e
    (by intro z; simp [absorbNext])
  simp only [if_true, Nat.add_zero, List.append_nil] at hshape
  obtain ⟨htag, hepi⟩ := extended_tags h.mem h.mem_brk sp ap size h8 ⟨hsp.1, hp4⟩ hlt
  have hbyte0 := fun x => extended_byte h.mem h.mem_brk sp ap size x h8 hp4
  have hSp : Sizes [(sp, ap)] := by
    intro b hb; rw [List.mem_singleton.1 hb]; exact hsp
  rw [hext]
  clear hext
  cases ap
  · -- the last block is free: the new block is merged into it
    simp only [Bool.false_eq_true, if_false, Nat.add_zero] at hshape htot1 htag hbyte0 ⊢
    have hlo : h.heap_listp + 8 + total (absorbPrev bs size).1 = h.mem_brk - sp := by omega
    have htotal : total (freedList bs size []) + 8 = total front + (sp + size) := by
      have h1 := congrArg total hshape
      simp only [total_cons, total_append, total_nil] at h1
      omega
    refine ⟨hlo.symm, ⟨⟨hb1, hb2⟩, ?_, ?_, ?_, ?_, ⟨hfit, hl2, hl3⟩, ?_⟩, trivial, trivial, ?_⟩
    · show Tags _ h.heap_listp ((8, true) :: freedList bs size [])
      rw [hshape]
      apply Tags_rewrite_end h.mem _ h.heap_listp front [(sp, false)] _ (by omega) hT hSf
      · intro x hx; apply hbyte0; omega
      · have : h.heap_listp + total front = h.mem_brk - sp := by omega
        rw [this]; exact htag
    · have : Sizes ((8, true) :: freedList bs size []) := by
        rw [hshape, Sizes_append]
        refine ⟨hSf, ?_⟩
        intro b hb
        rw [List.mem_singleton.1 hb]
        exact ⟨by omega, by omega⟩
      rw [Sizes_cons] at this
      exact this.2
    · show GET _ (h.heap_listp + 8 + total (freedList bs size []) - 4) = PACK 0 1
      rw [PACK_epilogue, ← hepi]; congr 1; omega
    · show h.mem_brk + size = h.heap_listp + 8 + total (freedList bs size [])
      omega
    · have : NoFreePair ((8, true) :: freedList bs size []) := by
        rw [hshape]
        exact NoFreePair_concat_size _ _ _ _ hN
      exact (NoFreePair_cons_true _ _).1 this
    · intro x hx; apply hbyte0; omega
  · -- the last block is allocated: the new block stands alone
    simp only [if_true, Nat.zero_add, Nat.sub_zero] at hshape htot1 htag hbyte0 ⊢
    have hlo : h.heap_listp + 8 + total (absorbPrev bs size).1 = h.mem_brk := by omega
    have htotal : total (freedList bs size []) + 8 = total front + sp + size := by
      have h1 := congrArg total hshape
      simp only [total_cons, total_append, total_nil] at h1
      omega
    refine ⟨hlo.symm, ⟨⟨hb1, hb2⟩, ?_, ?_, ?_, ?_, ⟨hfit, hl2, hl3⟩, ?_⟩, trivial, trivial, ?_⟩
    · show Tags _ h.heap_listp ((8, true) :: freedList bs size [])
      rw [hshape]
      have hS2 : Sizes (front ++ [(sp, true)]) := by
        rw [Sizes_append]; exact ⟨hSf, hSp⟩
      have hT3 : Tags h.mem h.heap_listp ((front ++ [(sp, true)]) ++ []) := by
        rw [List.append_nil]; exact hT
      apply Tags_rewrite_end h.mem _ h.heap_listp (front ++ [(sp, true)]) [] _ (by omega)
        hT3 hS2
      · intro x hx; apply hbyte0
        simp only [total_append, total_cons, total_nil] at hx; omega
      · have : h.heap_listp + total (front ++ [(sp, true)]) = h.mem_brk := by
          simp only [total_append, total_cons, total_nil]; omega
        rw [this]; exact htag
    · have : Sizes ((8, true) :: freedList bs size []) := by
        rw [hshape, Sizes_append, Sizes_append]
        refine ⟨⟨hSf, hSp⟩, ?_⟩
        intro b hb
        rw [List.mem_singleton.1 hb]
        exact ⟨h8, hm8⟩
      rw [Sizes_cons] at this
      exact this.2
    · show GET _ (h.heap_listp + 8 + total (freedList bs size []) - 4) = PACK 0 1
      rw [PACK_epilogue, ← hepi]; congr 1; omega
    · show h.mem_brk + size = h.heap_listp + 8 + total (freedList bs size [])
      omega
    · have : NoFreePair ((8, true) :: freedList bs size []) := by
        rw [hshape, List.append_assoc, List.singleton_append, NoFreePair_append_cons]
        exact ⟨hN, by simp [NoFreePair]⟩
      exact (NoFreePair_cons_true _ _).1 this
    · intro x hx; apply hbyte0; omega

/-! ## `find_fit` and `mm_malloc` on a well-formed heap -/

theorem find_fit_layout (h : Heap) (bs : List Blk) (asize : Nat) (L : Layout h bs) :
    find_fit h asize = some (firstFit asize (h.heap_listp + 8) bs) := by
  obtain ⟨hb1, hb2⟩ := L.base
  have hS : Sizes ((8, true) :: bs) := by
    rw [Sizes_cons]; exact ⟨⟨le_refl _, rfl⟩, L.sizes⟩
  have hlen := length_le_total _ L.sizes
  have hbrk := L.brk
  unfold find_fit
  rw [find_fit_loop_firstFit h.mem asize ((8, true) :: bs) h.heap_listp h.mem_brk
    (Tags_Hdrs _ _ _ L.tags) hS
    (by rw [total_cons, ← L.epilogue]; congr 1; simp only; omega)
    (by rw [List.length_cons]; omega)]
  simp [firstFit]

theorem adjust_mod (n : Nat) : adjust n % 8 = 0 := by
  unfold adjust DSIZE UMAX
  split <;> omega

theorem adjust_lt (n : Nat) : adjust n < UMAX := by
  unfold adjust DSIZE UMAX
  split <;> omega

theorem adjust_ge (n : Nat) (hn : n + 15 < UMAX) : 16 ≤ adjust n ∧ n + 8 ≤ adjust n := by
  unfold UMAX at hn
  unfold adjust DSIZE UMAX
  split <;> omega

theorem adjust_small (n : Nat) (hn : n < UMAX) (h : adjust n < 16) :
    UMAX ≤ n + 15 ∧ (adjust n = 0 ∨ adjust n = 8) := by
  unfold UMAX at hn
  revert h
  unfold adjust DSIZE UMAX
  split <;> omega

theorem extend_words (asize : Nat) (hm : asize % 8 = 0) (hlt : asize < UMAX) :
    (if (max asize CHUNKSIZE / WSIZE) % 2 ≠ 0
      then ((max asize CHUNKSIZE / WSIZE + 1) * WSIZE) % UMAX
      else (max asize CHUNKSIZE / WSIZE * WSIZE) % UMAX) = max asize CHUNKSIZE := by
  unfold UMAX at hlt
  unfold CHUNKSIZE WSIZE UMAX
  rcases Nat.le_total asize 4096 with h | h
  · rw [Nat.max_eq_right h]; decide
  · rw [Nat.max_eq_left h]
    have : ¬ (asize / 4 % 2 ≠ 0) := by omega
    rw [if_neg this]; omega

theorem blockptr_pos (h : Heap) (bs : List Blk) (k : Nat) (L : Layout h bs) :
    h.heap_listp + 8 + k ≠ 0 := by
  have := L.base.1; omega

theorem mm_malloc_hit (h : Heap) (pre post : List Blk) (s n : Nat)
    (L : Layout h (pre ++ (s, false) :: post)) (hn : 0 < n)
    (hpre : ∀ b ∈ pre, ¬(b.2 = false ∧ adjust n ≤ b.1)) (hs : adjust n ≤ s) :
    mm_malloc h n = some (h.heap_listp + 8 + total pre,
      place h (h.heap_listp + 8 + total pre) (adjust n)) := by
  unfold mm_malloc
  rw [if_neg (by omega)]
  simp only [find_fit_layout h _ (adjust n) L, firstFit_hit _ _ _ _ _ hpre hs]
  rw [if_pos (blockptr_pos h _ _ L)]

theorem mm_malloc_miss_fail (h : Heap) (bs : List Blk) (n : Nat) (L : Layout h bs) (hn : 0 < n)
    (hmiss : ∀ b ∈ bs, ¬(b.2 = false ∧ adjust n ≤ b.1))
    (hfail : mem_sbrk h (max (adjust n) CHUNKSIZE) = none) :
    mm_malloc h n = some (0, h) := by
  unfold mm_malloc
  rw [if_neg (by omega)]
  simp only [find_fit_layout h _ (adjust n) L, firstFit_miss _ _ _ hmiss]
  have hw := extend_words (adjust n) (adjust_mod n) (adjust_lt n)
  rw [extend_heap_fail h _ (by rw [hw]; exact hfail)]
  simp

theorem mm_malloc_miss_grow (h : Heap) (bs : List Blk) (n : Nat) (L : Layout h bs) (hn : 0 < n)
    (hmiss : ∀ b ∈ bs, ¬(b.2 = false ∧ adjust n ≤ b.1))
    (hfit : h.mem_brk + max (adjust n) CHUNKSIZE ≤ h.mem_max_addr) :
    mm_malloc h n = some ((extend_heap h (max (adjust n) CHUNKSIZE / WSIZE)).1,
      place (extend_heap h (max (adjust n) CHUNKSIZE / WSIZE)).2
        (extend_heap h (max (adjust n) CHUNKSIZE / WSIZE)).1 (adjust n))
    ∧ (extend_heap h (max (adjust n) CHUNKSIZE / WSIZE)).1
        = h.heap_listp + 8 + total (absorbPrev bs (max (adjust n) CHUNKSIZE)).1
    ∧ Layout (extend_heap h (max (adjust n) CHUNKSIZE / WSIZE)).2
        (freedList bs (max (adjust n) CHUNKSIZE) [])
    ∧ (extend_heap h (max (adjust n) CHUNKSIZE / WSIZE)).2.heap_listp = h.heap_listp := by
  have hw := extend_words (adjust n) (adjust_mod n) (adjust_lt n)
  have h8 : 8 ≤ max (adjust n) CHUNKSIZE := by
    have : CHUNKSIZE ≤ max (adjust n) CHUNKSIZE := Nat.le_max_right _ _
    unfold CHUNKSIZE at this ⊢; omega
  have hm8 : max (adjust n) CHUNKSIZE % 8 = 0 := by
    have := adjust_mod n
    rcases Nat.le_total (adjust n) CHUNKSIZE with h1 | h1
    · rw [Nat.max_eq_right h1]; rfl
    · rw [Nat.max_eq_left h1]; exact this
  obtain ⟨e1, e2, e3, -, -⟩ := extend_heap_layout h bs _ _ L hw h8 hm8 hfit
  refine ⟨?_, e1, e2, e3⟩
  unfold mm_malloc
  rw [if_neg (by omega)]
  simp only [find_fit_layout h _ (adjust n) L, firstFit_miss _ _ _ hmiss]
  have hne : (extend_heap h (max (adjust n) CHUNKSIZE / WSIZE)).1 ≠ 0 := by
    rw [e1]; exact blockptr_pos h _ _ L
  simp [hne]

/-! ## `mm_init` -/

theorem mm_init_eq (m : Mem) (lo hi : Nat) (hfit : lo + 16 ≤ hi) :
    mm_init (fresh m lo hi) =
      (if (extend_heap (scaffold m lo hi) (CHUNKSIZE / WSIZE)).1 = 0
        then (-1, (extend_heap (scaffold m lo hi) (CHUNKSIZE / WSIZE)).2)
        else (0, (extend_heap (scaffold m lo hi) (CHUNKSIZE / WSIZE)).2)) := by
  have hs : mem_sbrk (fresh m lo hi) (4 * WSIZE)
      = some (lo, { mem := m, heap_listp := 0, mem_brk := lo + 16, mem_max_addr := hi }) := by
    unfold mem_sbrk fresh WSIZE
    simp only
    rw [if_pos (by omega)]
  unfold mm_init
  simp only [hs]
  rfl

theorem scaffold_layout (m : Mem) (lo hi : Nat) (hlo : lo % 8 = 0)
    (hfit : lo + 16 ≤ hi) (hhi : hi < UMAX) (harena : hi < lo + 2147483656) :
    Layout (scaffold m lo hi) [] := by
  have hU : UMAX = 4294967296 := rfl
  rw [hU] at hhi
  unfold scaffold
  refine ⟨⟨by simp, by simp only; omega⟩, ⟨?_, ?_, trivial⟩, Sizes_nil, ?_, ?_,
    ⟨by simp only; omega, by rw [hU]; exact hhi, by simp only; omega⟩, trivial⟩
  · show GET _ (lo + 8 - 4) = tag (8, true)
    rw [GET_PUT_ne _ _ _ _ (by omega), GET_PUT_ne _ _ _ _ (by omega),
      GET_PUT_eq _ _ _ _ (by omega) (by rw [hU]; omega)]
    rfl
  · show GET _ (lo + 8 + 8 - 8) = tag (8, true)
    rw [GET_PUT_ne _ _ _ _ (by omega), GET_PUT_eq _ _ _ _ (by omega) (by rw [hU]; omega)]
    rfl
  · show GET _ (lo + 8 + 8 + total [] - 4) = PACK 0 1
    rw [GET_PUT_eq _ _ _ _ (by simp only [total_nil]; omega) (by rw [hU]; omega)]
    rfl
  · show lo + 16 = lo + 8 + 8 + total []
    simp only [total_nil]

theorem mm_init_layout (m : Mem) (lo hi : Nat) (hlo : lo % 8 = 0)
    (hfit : lo + 16 + 4096 ≤ hi) (hhi : hi < UMAX) (harena : hi < lo + 2147483656) :
    (mm_init (fresh m lo hi)).1 = 0 ∧ Layout (mm_init (fresh m lo hi)).2 [(4096, false)]
    ∧ (mm_init (fresh m lo hi)).2.heap_listp = lo + 8 := by
  have L0 := scaffold_layout m lo hi hlo (by omega) hhi harena
  have hw : (if CHUNKSIZE / WSIZE % 2 ≠ 0 then ((CHUNKSIZE / WSIZE + 1) * WSIZE) % UMAX
      else (CHUNKSIZE / WSIZE * WSIZE) % UMAX) = 4096 := by decide
  obtain ⟨e1, e2, e3, -, -⟩ := extend_heap_layout _ [] (CHUNKSIZE / WSIZE) 4096 L0 hw
    (by omega) (by omega) (by show lo + 16 + 4096 ≤ hi; omega)
  have e4 : freedList [] 4096 [] = [(4096, false)] := by decide
  rw [e4] at e2
  rw [mm_init_eq m lo hi (by omega), if_neg (by rw [e1]; simp)]
  exact ⟨rfl, e2, e3⟩

theorem layout_block (h : Heap) (xs ys : List Blk) (b : Blk) (L : Layout h (xs ++ b :: ys)) :
    GET h.mem (h.heap_listp + 8 + total xs - 4) = tag b
    ∧ GET h.mem (h.heap_listp + 8 + total xs + b.1 - 8) = tag b := by
  have hT := L.tags
  have e : (8, true) :: (xs ++ b :: ys) = ((8, true) :: xs) ++ b :: ys := rfl
  rw [e, Tags_append] at hT
  obtain ⟨-, h1, h2, -⟩ := hT
  rw [total_cons] at h1 h2
  simp only at h1 h2
  constructor
  · rw [← h1]; congr 1; omega
  · rw [← h2]; congr 1; omega

/-! ## Claims about exhaustion, freeing and resizing to the same size -/

/-- C10: on a well-formed heap with no free block of the adjusted size, when the
growth primitive refuses the extension request, `mm_malloc n` returns `NULL` and
the state (every byte of the arena and its extent) is exactly as before. -/
theorem mm_malloc_exhausted (h : Heap) (bs : List Blk) (n : Nat) (L : Layout h bs)
    (hn : 0 < n) (hmiss : ∀ b ∈ bs, ¬(b.2 = false ∧ adjust n ≤ b.1))
    (hfail : mem_sbrk h (max (adjust n) CHUNKSIZE) = none) :
    mm_malloc h n = some (0, h) :=
  mm_malloc_miss_fail h bs n L hn hmiss hfail

/-- Witness for C10: the saturated arena refuses `mm_malloc(1)`. -/
theorem mm_malloc_exhausted_witness :
    Layout heapSaturated [(4096, true)]
    ∧ mm_malloc heapSaturated 1 = some (0, heapSaturated) :=
  ⟨by decide,
   mm_malloc_exhausted heapSaturated [(4096, true)] 1 (by decide) (by decide) (by decide) rfl⟩

/-- C6: on a well-formed heap, `mm_free` of the allocated block of size `s`
standing between the blocks `pre` and `post` leaves a well-formed heap whose
block list is `freedList pre s post`: one free block replaces the freed block
together with its predecessor (when free) and its successor (when free), its
size is the sum of the merged sizes, it starts where the predecessor started when
that one was free, its header and footer hold the same word, and every byte
outside its extent is unchanged. -/
theorem mm_free_coalesces (h : Heap) (pre post : List Blk) (s : Nat)
    (L : Layout h (pre ++ (s, true) :: post)) :
    Layout (mm_free h (h.heap_listp + 8 + total pre)) (freedList pre s post)
    ∧ GET (mm_free h (h.heap_listp + 8 + total pre)).mem
        (h.heap_listp + 8 + total (absorbPrev pre s).1 - 4)
        = PACK (absorbNext (absorbPrev pre s).2 post).1 0
    ∧ GET (mm_free h (h.heap_listp + 8 + total pre)).mem
        (h.heap_listp + 8 + total (absorbPrev pre s).1
          + (absorbNext (absorbPrev pre s).2 post).1 - 8)
        = PACK (absorbNext (absorbPrev pre s).2 post).1 0
    ∧ ∀ x, (x + 4 < h.heap_listp + 8 + total (absorbPrev pre s).1
          ∨ h.heap_listp + 8 + total (absorbPrev pre s).1
              + (absorbNext (absorbPrev pre s).2 post).1 ≤ x + 4) →
        (mm_free h (h.heap_listp + 8 + total pre)).mem x = h.mem x := by
  obtain ⟨L1, e1, -, -, hbyte⟩ := mm_free_layout h pre post s L
  have hb := layout_block _ _ _ _ (show Layout _ ((absorbPrev pre s).1
    ++ ((absorbNext (absorbPrev pre s).2 post).1, false)
      :: (absorbNext (absorbPrev pre s).2 post).2) from L1)
  rw [e1, tag_free] at hb
  rw [PACK_zero]
  exact ⟨L1, hb.1, hb.2, hbyte⟩

/-- Witness for C6: after `A = mm_malloc(16)`, `B = mm_malloc(16)`, `mm_free(A)`,
freeing `B` merges `A`, `B` and the free remainder into one block of 4096 bytes. -/
theorem mm_free_coalesces_witness :
    Layout heapAB [(24, false), (24, true), (4048, false)]
    ∧ Layout (mm_free heapAB 4136) [(4096, false)] :=
  ⟨by decide, (mm_free_coalesces heapAB [(24, false)] [(4048, false)] 24 (by decide)).1⟩

/-- C8, counterexample: for a request of one byte `mm_malloc` computes the block
size 16 and `mm_realloc` the target 24; `mm_realloc(mm_malloc(1), 1)` relocates
the block from 4112 to 4128. -/
theorem realloc_formula_differs :
    adjust 1 = 16 ∧ realloc_asize 1 = 24
    ∧ (run heap0 [.malloc 1]).map (fun r => (r.1, GET_SIZE r.2.mem (HDRP 4112)))
        = some ([4112], 16)
    ∧ (run heap0 [.malloc 1, .realloc 4112 1]).map (fun r => r.1) = some [4112, 4128] := by
  decide

/-- C8, amended: for `8 < s ≤ 2^32 - 16` the target size of `mm_realloc` equals
the adjusted size of `mm_malloc`, and on a block whose recorded size is that
value `mm_realloc p s` returns `p` and leaves the state unchanged. -/
theorem mm_realloc_same_size (h : Heap) (p s : Nat) (hs : 8 < s) (hlt : s + 15 < UMAX)
    (hsz : GET_SIZE h.mem (HDRP p) = adjust s) :
    realloc_asize s = adjust s ∧ mm_realloc h p s = some (p, h) := by
  have e : realloc_asize s = adjust s := by
    unfold UMAX at hlt
    unfold realloc_asize adjust
    rw [ALIGN_eq]
    unfold DSIZE MIN_BLOCK_SIZE UMAX
    rw [if_neg (by omega), Nat.max_def]
    split <;> omega
  refine ⟨e, ?_⟩
  unfold mm_realloc
  rw [if_neg (by omega)]
  simp only [e, hsz, if_true]

/-- Witness for C8 (amended): `mm_realloc(mm_malloc(100), 100)` returns the same
block, the state unchanged. -/
theorem mm_realloc_same_size_witness :
    realloc_asize 100 = adjust 100 ∧ mm_realloc heap100 4112 100 = some (4112, heap100) :=
  mm_realloc_same_size heap100 4112 100 (by decide) (by decide) (by decide)

/-! ## Alignment of returned addresses -/

theorem find_fit_loop_mod (m : Mem) (asize fuel p r : Nat) (hp : p % 8 = 0)
    (h : find_fit_loop m asize fuel p = some r) : r % 8 = 0 := by
  induction fuel generalizing p with
  | zero => simp [find_fit_loop] at h
  | succ k ih =>
    unfold find_fit_loop at h
    split at h
    · split at h
      · cases h; exact hp
      · apply ih _ _ h
        unfold NEXT_BLKP
        have := GET_SIZE_mod m (p - WSIZE)
        omega
    · cases h; rfl

theorem coalesce_fields (h : Heap) (p : Nat) :
    (coalesce h p).2.heap_listp = h.heap_listp ∧ (coalesce h p).2.mem_brk = h.mem_brk
    ∧ (coalesce h p).2.mem_max_addr = h.mem_max_addr := by
  unfold coalesce
  simp only
  split
  · exact ⟨rfl, rfl, rfl⟩
  · split
    · exact ⟨rfl, rfl, rfl⟩
    · split <;> exact ⟨rfl, rfl, rfl⟩

theorem PREV_BLKP_mod (m : Mem) (p : Nat) (hp : p % 8 = 0) : PREV_BLKP m p % 8 = 0 := by
  unfold PREV_BLKP
  have := GET_SIZE_mod m (p - DSIZE)
  omega

theorem coalesce_fst_mod (h : Heap) (p : Nat) (hp : p % 8 = 0) : (coalesce h p).1 % 8 = 0 := by
  unfold coalesce
  simp only
  split
  · exact hp
  · split
    · exact hp
    · split <;> exact PREV_BLKP_mod _ _ hp

theorem extend_heap_cases (h : Heap) (words : Nat) :
    extend_heap h words = (0, h) ∨ ∃ m1 size, size % 8 = 0 ∧
      extend_heap h words = coalesce { mem := m1, heap_listp := h.heap_listp,
                                       mem_brk := h.mem_brk + size,
                                       mem_max_addr := h.mem_max_addr } h.mem_brk := by
  have hsz : (if words % 2 ≠ 0 then ((words + 1) * WSIZE) % UMAX
      else (words * WSIZE) % UMAX) % 8 = 0 := by
    unfold WSIZE UMAX; split <;> omega
  by_cases hc : h.mem_brk + (if words % 2 ≠ 0 then ((words + 1) * WSIZE) % UMAX
      else (words * WSIZE) % UMAX) ≤ h.mem_max_addr
  · right
    have hs : mem_sbrk h (if words % 2 ≠ 0 then ((words + 1) * WSIZE) % UMAX
        else (words * WSIZE) % UMAX) = some (h.mem_brk, { h with mem_brk := h.mem_brk +
          (if words % 2 ≠ 0 then ((words + 1) * WSIZE) % UMAX
            else (words * WSIZE) % UMAX) }) := by
      unfold mem_sbrk; rw [if_pos hc]
    unfold extend_heap
    simp only [hs]
    exact ⟨_, _, hsz, rfl⟩
  · left
    have hs : mem_sbrk h (if words % 2 ≠ 0 then ((words + 1) * WSIZE) % UMAX
        else (words * WSIZE) % UMAX) = none := by
      unfold mem_sbrk; rw [if_neg hc]
    exact extend_heap_fail h words hs

theorem extend_heap_aligned (h : Heap) (words : Nat) (ha : Aligned h) :
    (extend_heap h words).1 % 8 = 0 ∧ Aligned (extend_heap h words).2 := by
  rcases extend_heap_cases h words with e | ⟨m1, size, hsz, e⟩
  · rw [e]; exact ⟨rfl, ha⟩
  · rw [e]
    obtain ⟨f1, f2, -⟩ := coalesce_fields { mem := m1, heap_listp := h.heap_listp,
                                            mem_brk := h.mem_brk + size,
                                            mem_max_addr := h.mem_max_addr } h.mem_brk
    refine ⟨coalesce_fst_mod _ _ ha.2, ?_, ?_⟩
    · rw [f1]; exact ha.1
    · rw [f2]; have := ha.2; simp only; omega

theorem place_fields (h : Heap) (p asize : Nat) :
    (place h p asize).heap_listp = h.heap_listp ∧ (place h p asize).mem_brk = h.mem_brk
    ∧ (place h p asize).mem_max_addr = h.mem_max_addr := by
  unfold place
  simp only
  split <;> exact ⟨rfl, rfl, rfl⟩

theorem mm_free_fields (h : Heap) (p : Nat) :
    (mm_free h p).heap_listp = h.heap_listp ∧ (mm_free h p).mem_brk = h.mem_brk
    ∧ (mm_free h p).mem_max_addr = h.mem_max_addr := by
  unfold mm_free
  exact coalesce_fields _ _

theorem place_aligned (h : Heap) (p asize : Nat) (ha : Aligned h) :
    Aligned (place h p asize) := by
  obtain ⟨f1, f2, -⟩ := place_fields h p asize
  unfold Aligned; rw [f1, f2]; exact ha

theorem mm_free_aligned (h : Heap) (p : Nat) (ha : Aligned h) : Aligned (mm_free h p) := by
  obtain ⟨f1, f2, -⟩ := mm_free_fields h p
  unfold Aligned; rw [f1, f2]; exact ha

theorem malloc_step_aligned (h h1 : Heap) (n r : Nat) (ha : Aligned h)
    (hm : mm_malloc h n = some (r, h1)) : r % 8 = 0 ∧ Aligned h1 := by
  unfold mm_malloc at hm
  split at hm
  · cases hm; exact ⟨rfl, ha⟩
  · dsimp only at hm
    split at hm
    · cases hm
    · rename_i ptr hfit
      have hptr := find_fit_loop_mod _ _ _ _ _ ha.1 hfit
      split at hm
      · cases hm; exact ⟨hptr, place_aligned _ _ _ ha⟩
      · obtain ⟨g1, g2⟩ := extend_heap_aligned h (max (adjust n) CHUNKSIZE / WSIZE) ha
        split at hm
        · cases hm; exact ⟨rfl, g2⟩
        · cases hm; exact ⟨g1, place_aligned _ _ _ g2⟩

theorem run_aligned (h h1 : Heap) (ops : List Op) (rs : List Nat) (ha : Aligned h)
    (hops : noRealloc ops) (hrun : run h ops = some (rs, h1)) : ∀ r ∈ rs, r % 8 = 0 := by
  induction ops generalizing h rs with
  | nil =>
    simp only [run, Option.some.injEq, Prod.mk.injEq] at hrun
    intro r hr; rw [← hrun.1] at hr; cases hr
  | cons op ops ih =>
    unfold run at hrun
    split at hrun
    · cases hrun
    · rename_i r0 h0 hstep
      split at hrun
      · cases hrun
      · rename_i rs0 h2 hrest
        cases hrun
        cases op with
        | malloc n =>
          obtain ⟨g1, g2⟩ := malloc_step_aligned h h0 n r0 ha hstep
          intro r hr
          rcases List.mem_cons.1 hr with e | hr
          · rw [e]; exact g1
          · exact ih h0 rs0 g2 hops hrest r hr
        | free p =>
          simp only [step, Option.some.injEq, Prod.mk.injEq] at hstep
          obtain ⟨e1, e2⟩ := hstep
          intro r hr
          rcases List.mem_cons.1 hr with e | hr
          · rw [e, ← e1]
          · exact ih h0 rs0 (by rw [← e2]; exact mm_free_aligned _ _ ha) hops hrest r hr
        | realloc p n => exact absurd hops (by simp [noRealloc])

theorem mm_init_aligned (m : Mem) (lo hi : Nat) (hlo : lo % 8 = 0)
    (hinit : (mm_init (fresh m lo hi)).1 = 0) : Aligned (mm_init (fresh m lo hi)).2 := by
  by_cases hfit : lo + 16 ≤ hi
  · rw [mm_init_eq m lo hi hfit]
    have ha : Aligned (scaffold m lo hi) := by
      unfold Aligned scaffold; simp only; omega
    have := (extend_heap_aligned _ (CHUNKSIZE / WSIZE) ha).2
    split <;> exact this
  · have hs : mem_sbrk (fresh m lo hi) (4 * WSIZE) = none := by
      unfold mem_sbrk fresh WSIZE
      simp only
      rw [if_neg (by omega)]
    unfold mm_init at hinit
    simp [hs] at hinit

/-- C4: when the arena starts at a multiple of 8, after a successful `mm_init`
every address returned by any sequence of `mm_malloc` and `mm_free` calls
(`mm_free` contributes the value 0) is a multiple of 8; in particular every
non-null result of `mm_malloc` is 8-byte aligned. -/
theorem mm_malloc_aligned (m : Mem) (lo hi : Nat) (ops : List Op) (rs : List Nat) (h1 : Heap)
    (hlo : lo % 8 = 0) (hinit : (mm_init (fresh m lo hi)).1 = 0) (hops : noRealloc ops)
    (hrun : run (mm_init (fresh m lo hi)).2 ops = some (rs, h1)) :
    ∀ r ∈ rs, r % 8 = 0 :=
  run_aligned _ h1 ops rs (mm_init_aligned m lo hi hlo hinit) hops hrun

theorem run_after (h : Heap) (ops : List Op) (rs : List Nat)
    (hr : (run h ops).map (fun r => r.1) = some rs) : run h ops = some (rs, after h ops) := by
  unfold after
  cases hrun : run h ops with
  | none => rw [hrun] at hr; cases hr
  | some v =>
    rw [hrun] at hr
    simp only [Option.map_some', Option.some.injEq] at hr
    simp only [Option.some.injEq]
    exact Prod.ext hr rfl

/-- Witness for C4: `init; mm_malloc(100); mm_malloc(1); mm_free; mm_malloc(5000)`
returns 4112, 4224 and 4240. -/
theorem mm_malloc_aligned_witness :
    (run heap0 [.malloc 100, .malloc 1, .free 4112, .malloc 5000]).map (fun r => r.1)
      = some [4112, 4224, 0, 4240]
    ∧ ∀ r ∈ [4112, 4224, 0, 4240], r % 8 = 0 :=
  ⟨by decide,
   mm_malloc_aligned (fun _ => 0) 4096 1052672
     [.malloc 100, .malloc 1, .free 4112, .malloc 5000] [4112, 4224, 0, 4240]
     (after heap0 [.malloc 100, .malloc 1, .free 4112, .malloc 5000])
     (by decide) (by decide) trivial (run_after _ _ _ (by decide))⟩

/-! ## Evaluations at the failing inputs -/

/-- C1, failing input: after `A = mm_malloc(88)`, `B, D, E = mm_malloc(24)`,
`mm_realloc(A, 56)`, `mm_free(B)`, `mm_free(D)` the block chain walked from
`heap_listp` visits `A = 4112`, then the block at 4176, then the block at 4240,
and the last two are both free.  The shrink path of `mm_realloc` wrote the
header of the remainder with the new size of `A` (64) instead of the leftover
(32), so the remainder swallowed the live block `B`. -/
theorem realloc_shrink_adjacent_free :
    (run heap0 [.malloc 88, .malloc 24, .malloc 24, .malloc 24, .realloc 4112 56,
        .free 4208, .free 4240]).map (fun r => r.1)
      = some [4112, 4208, 4240, 4272, 4112, 0, 0]
    ∧ NEXT_BLKP heapShrunk.mem heapShrunk.heap_listp = 4112
    ∧ NEXT_BLKP heapShrunk.mem 4112 = 4176
    ∧ GET_ALLOC heapShrunk.mem (HDRP 4176) = 0
    ∧ NEXT_BLKP heapShrunk.mem 4176 = 4240
    ∧ GET_ALLOC heapShrunk.mem (HDRP 4240) = 0 := by
  decide

/-- C2, failing input: after `A = mm_malloc(24)`, `B = mm_malloc(24)`,
`mm_free(A)`, `mm_malloc(2^32 - 15)` (which returns `A`), `mm_free(A)` the free
block `A` has header `(64, free)` and footer word `(32, allocated)`, it covers
the live block `B`, and the block that follows it in the chain is free too. -/
theorem malloc_wrap_breaks_heap :
    adjust 4294967281 = 0
    ∧ (run heap0 [.malloc 24, .malloc 24, .free 4112, .malloc 4294967281, .free 4112]).map
        (fun r => r.1) = some [4112, 4144, 0, 4112, 0]
    ∧ GET heapWrapped.mem (HDRP 4112) = PACK 64 0
    ∧ GET heapWrapped.mem (FTRP heapWrapped.mem 4112) = PACK 32 1
    ∧ NEXT_BLKP heapWrapped.mem 4112 = 4176
    ∧ GET_ALLOC heapWrapped.mem (HDRP 4176) = 0
    ∧ GET heapWrapped.mem (HDRP 4144) = PACK 32 1 := by
  decide

/-- C3, failing input: right after `mm_init`, `mm_malloc(2^32 - 15)` returns the
non-null address 4112 of a block that is still marked free and has size 4096,
and `mm_malloc(2^32 - 7)` returns the address of an allocated block of size 8,
which has no payload byte at all. -/
theorem malloc_wrap_capacity :
    (mm_malloc heap0 4294967281).map
        (fun r => (r.1, GET_ALLOC r.2.mem (HDRP r.1), GET_SIZE r.2.mem (HDRP r.1)))
      = some (4112, 0, 4096)
    ∧ (mm_malloc heap0 4294967289).map
        (fun r => (r.1, GET_ALLOC r.2.mem (HDRP r.1), GET_SIZE r.2.mem (HDRP r.1)))
      = some (4112, 1, 8) := by
  decide

/-- C7, failing input: `A = mm_malloc(2^32 - 7)` is a block of size 8;
`mm_realloc(A, 2^32 - 6)` takes the relocating path (target 24 > 8) and returns
`B = 4120`, but copies only 8 bytes: byte 4080 of the region at `B` is 240 while
byte 4080 of the region at `A` was 0.  The copy also overwrote the header of the
free block after `B` with the word `(8, allocated)`, while its footer still
holds `(4080, free)`. -/
theorem realloc_wrap_copy :
    (run heap0 [.malloc 4294967289, .realloc 4112 4294967290]).map (fun r => r.1)
      = some [4112, 4120]
    ∧ GET_SIZE (after heap0 [.malloc 4294967289]).mem (HDRP 4112) = 8
    ∧ realloc_asize 4294967290 = 24
    ∧ (after heap0 [.malloc 4294967289]).mem (4112 + 4080) = 0
    ∧ (after heap0 [.malloc 4294967289, .realloc 4112 4294967290]).mem (4120 + 4080) = 240
    ∧ GET (after heap0 [.malloc 4294967289, .realloc 4112 4294967290]).mem (HDRP 4128)
        = PACK 8 1
    ∧ GET (after heap0 [.malloc 4294967289, .realloc 4112 4294967290]).mem (4128 + 4080 - 8)
        = PACK 4080 0 := by
  decide

theorem memcpy_some (m : Mem) (dst src n : Nat) (hd : dst ≠ 0) :
    memcpy m dst src n = some (copy_bytes m dst src n) := by
  unfold memcpy
  rw [if_neg (fun hc => hd hc.1)]

/-- On the relocating path, when the inner `mm_malloc` returns `NULL` and the
old block has a positive size, `mm_realloc` copies to `NULL` and does not
return. -/
theorem mm_realloc_null_faults (h h1 : Heap) (p size : Nat) (hn : 0 < size)
    (hc : 0 < GET_SIZE h.mem (HDRP p)) (hgrow : GET_SIZE h.mem (HDRP p) < realloc_asize size)
    (hm : mm_malloc h size = some (0, h1)) : mm_realloc h p size = none := by
  have hn0 : size ≠ 0 := by omega
  have hne1 : realloc_asize size ≠ GET_SIZE h.mem (HDRP p) := by omega
  have hne2 : ¬ realloc_asize size ≤ GET_SIZE h.mem (HDRP p) := by omega
  have hcp : memcpy h1.mem 0 p
      (if size < GET_SIZE h.mem (HDRP p) then size else GET_SIZE h.mem (HDRP p)) = none := by
    unfold memcpy
    rw [if_pos ⟨rfl, by split <;> omega⟩]
  unfold mm_realloc
  simp only [hn0, hne1, hne2, hm, hcp, if_false]

/-- C9, failing input: in the arena that cannot grow, the allocated block `4112`
of size 4096 fills the heap.  `mm_realloc(4112, 5000)` has target size 5008 and
takes the relocating path; the inner `mm_malloc(5000)` returns `NULL`; line 318
then copies 4096 bytes to `NULL`, a store through the null pointer.  The call
faults there: it returns neither `NULL` nor any other pointer. -/
theorem realloc_failure_faults :
    GET heapSaturated.mem (HDRP 4112) = PACK 4096 1
    ∧ realloc_asize 5000 = 5008
    ∧ (mm_malloc heapSaturated 5000).map (fun r => r.1) = some 0
    ∧ (memcpy heapSaturated.mem 0 4112 4096).isSome = false
    ∧ (mm_realloc heapSaturated 4112 5000).isSome = false := by
  decide

/-! ## Allocation followed by release -/

theorem absorbPrev_mem (bs : List Blk) (s : Nat) (b : Blk) (hb : b ∈ (absorbPrev bs s).1) :
    b ∈ bs := by
  rcases List.eq_nil_or_concat bs with e | ⟨front, ⟨sp, ap⟩, e⟩
  · subst e; simp [absorbPrev] at hb
  · rw [List.concat_eq_append] at e
    subst e
    rw [absorbPrev_concat] at hb
    cases ap
    · simp only [Bool.false_eq_true, if_false] at hb
      exact List.mem_append_left _ hb
    · simpa using hb

theorem absorbPrev_ge (bs : List Blk) (s : Nat) : s ≤ (absorbPrev bs s).2 := by
  rcases List.eq_nil_or_concat bs with e | ⟨front, ⟨sp, ap⟩, e⟩
  · subst e; simp [absorbPrev]
  · rw [List.concat_eq_append] at e
    subst e
    rw [absorbPrev_concat]
    cases ap <;> simp

theorem absorbPrev_keep (pre post : List Blk) (z s : Nat)
    (h : NoFreePair (pre ++ (z, false) :: post)) : absorbPrev pre s = (pre, s) := by
  rcases List.eq_nil_or_concat pre with e | ⟨front, ⟨sp, ap⟩, e⟩
  · subst e; simp [absorbPrev]
  · rw [List.concat_eq_append] at e
    subst e
    rw [absorbPrev_concat]
    cases ap
    · exfalso
      rw [List.append_assoc, List.singleton_append, NoFreePair_append_cons] at h
      have := h.2.1
      simp at this
    · simp

theorem absorbNext_keep (post : List Blk) (z s : Nat) (h : NoFreePair ((z, false) :: post)) :
    absorbNext s post = (s, post) := by
  cases post with
  | nil => rfl
  | cons b bs =>
    have := h.1
    simp only [Bool.false_eq_true, false_or] at this
    simp [absorbNext, this]

theorem freedList_nil (bs : List Blk) (s : Nat) :
    freedList bs s [] = (absorbPrev bs s).1 ++ [((absorbPrev bs s).2, false)] := by
  simp [freedList, absorbNext]

theorem mm_malloc_shape (h h1 : Heap) (bs : List Blk) (n A : Nat) (L : Layout h bs)
    (hn : 0 < n) (hm : mm_malloc h n = some (A, h1)) (hA : A ≠ 0) :
    ∃ hX pre s post, Layout hX (pre ++ (s, false) :: post)
      ∧ (∀ b ∈ pre, ¬(b.2 = false ∧ adjust n ≤ b.1)) ∧ adjust n ≤ s
      ∧ A = hX.heap_listp + 8 + total pre ∧ h1 = place hX A (adjust n) := by
  rcases firstFit_cases (adjust n) bs with hmiss | ⟨pre, s, post, e, hs, hpre⟩
  · by_cases hfit : h.mem_brk + max (adjust n) CHUNKSIZE ≤ h.mem_max_addr
    · obtain ⟨e1, e2, e3, e4⟩ := mm_malloc_miss_grow h bs n L hn hmiss hfit
      rw [e1] at hm
      simp only [Option.some.injEq, Prod.mk.injEq] at hm
      rw [freedList_nil] at e3
      refine ⟨_, _, _, [], e3, ?_, ?_, ?_, ?_⟩
      · intro b hb
        exact hmiss b (absorbPrev_mem _ _ _ hb)
      · exact le_trans (Nat.le_max_left _ _) (absorbPrev_ge _ _)
      · rw [← hm.1, e2, e4]
      · rw [← hm.2, hm.1]
    · have hfail : mem_sbrk h (max (adjust n) CHUNKSIZE) = none := by
        unfold mem_sbrk; rw [if_neg hfit]
      rw [mm_malloc_miss_fail h bs n L hn hmiss hfail] at hm
      simp only [Option.some.injEq, Prod.mk.injEq] at hm
      exact absurd hm.1.symm hA
  · subst e
    rw [mm_malloc_hit h pre post s n L hn hpre hs] at hm
    simp only [Option.some.injEq, Prod.mk.injEq] at hm
    exact ⟨h, pre, s, post, L, hpre, hs, hm.1.symm, by rw [← hm.2, hm.1]⟩

theorem place_free_layout (h : Heap) (pre post : List Blk) (s asize : Nat)
    (L : Layout h (pre ++ (s, false) :: post)) (ha : asize ≤ s) (ham : asize % 8 = 0)
    (h8 : 8 ≤ asize ∨ s - asize < 16) :
    Layout (mm_free (place h (h.heap_listp + 8 + total pre) asize)
      (h.heap_listp + 8 + total pre)) (pre ++ (s, false) :: post)
    ∧ (mm_free (place h (h.heap_listp + 8 + total pre) asize)
      (h.heap_listp + 8 + total pre)).heap_listp = h.heap_listp := by
  obtain ⟨L1, f1, -, -, -⟩ := place_layout h pre post s asize L ha ham h8
  have hN := L.nofree
  have hN2 : NoFreePair ((s, false) :: post) := NoFreePair_right _ _ hN
  unfold placedList DSIZE at L1
  split at L1
  · obtain ⟨L2, g1, -, -, -⟩ := mm_free_layout _ pre ((s - asize, false) :: post) asize L1
    rw [f1] at L2 g1
    refine ⟨?_, by rw [g1]⟩
    have e : freedList pre asize ((s - asize, false) :: post) = pre ++ (s, false) :: post := by
      unfold freedList
      rw [absorbPrev_keep pre post s asize hN]
      simp only [absorbNext, Bool.false_eq_true, if_false]
      have : asize + (s - asize) = s := by omega
      rw [this]
    rw [e] at L2
    exact L2
  · obtain ⟨L2, g1, -, -, -⟩ := mm_free_layout _ pre post s L1
    rw [f1] at L2 g1
    refine ⟨?_, by rw [g1]⟩
    have e : freedList pre s post = pre ++ (s, false) :: post := by
      unfold freedList
      rw [absorbPrev_keep pre post s s hN]
      simp only [absorbNext_keep post s s hN2]
    rw [e] at L2
    exact L2

theorem reuse_normal (h : Heap) (pre post : List Blk) (s n : Nat)
    (L : Layout h (pre ++ (s, false) :: post)) (hn : 0 < n)
    (hpre : ∀ b ∈ pre, ¬(b.2 = false ∧ adjust n ≤ b.1)) (hs : adjust n ≤ s)
    (h8 : 8 ≤ adjust n ∨ s - adjust n < 16) :
    ∃ h3, mm_malloc (mm_free (place h (h.heap_listp + 8 + total pre) (adjust n))
      (h.heap_listp + 8 + total pre)) n = some (h.heap_listp + 8 + total pre, h3) := by
  obtain ⟨L2, g1⟩ := place_free_layout h pre post s (adjust n) L hs (adjust_mod n) h8
  have := mm_malloc_hit _ pre post s n L2 hn hpre hs
  rw [g1] at this
  exact ⟨_, this⟩

theorem mm_malloc_wf (h h1 : Heap) (n r : Nat) (hw : WF h) (hn : adjust n ≠ 0)
    (hm : mm_malloc h n = some (r, h1)) : WF h1 := by
  obtain ⟨bs, L⟩ := hw
  by_cases h0 : n = 0
  · subst h0
    simp only [mm_malloc, if_true, Option.some.injEq, Prod.mk.injEq] at hm
    rw [← hm.2]; exact ⟨bs, L⟩
  by_cases hr : r = 0
  · subst hr
    rcases firstFit_cases (adjust n) bs with hmiss | ⟨pre, s, post, e, hs, hpre⟩
    · by_cases hfit : h.mem_brk + max (adjust n) CHUNKSIZE ≤ h.mem_max_addr
      · obtain ⟨e1, e2, e3, e4⟩ := mm_malloc_miss_grow h bs n L (by omega) hmiss hfit
        rw [e1] at hm
        simp only [Option.some.injEq, Prod.mk.injEq] at hm
        exact absurd (e2.symm.trans hm.1) (blockptr_pos h bs _ L)
      · have hfail : mem_sbrk h (max (adjust n) CHUNKSIZE) = none := by
          unfold mem_sbrk; rw [if_neg hfit]
        rw [mm_malloc_miss_fail h bs n L (by omega) hmiss hfail] at hm
        simp only [Option.some.injEq, Prod.mk.injEq] at hm
        rw [← hm.2]; exact ⟨bs, L⟩
    · subst e
      rw [mm_malloc_hit h pre post s n L (by omega) hpre hs] at hm
      simp only [Option.some.injEq, Prod.mk.injEq] at hm
      exact absurd hm.1 (blockptr_pos h _ _ L)
  · obtain ⟨hX, pre, s, post, LX, -, hs, eA, e1⟩ := mm_malloc_shape h h1 bs n r L (by omega) hm hr
    have h8 : 8 ≤ adjust n := by have := adjust_mod n; omega
    obtain ⟨L1, -⟩ := place_layout hX pre post s (adjust n) LX hs (adjust_mod n) (Or.inl h8)
    rw [e1, eA]
    exact ⟨_, L1⟩

theorem mm_free_wf (h : Heap) (pre post : List Blk) (s : Nat)
    (L : Layout h (pre ++ (s, true) :: post)) : WF (mm_free h (h.heap_listp + 8 + total pre)) :=
  ⟨_, (mm_free_layout h pre post s L).1⟩

/-! ## Release after a request whose adjusted size wrapped to zero -/

theorem find_fit_loop_skip (m : Mem) (asize : Nat) (pre : List Blk) (p fuel : Nat)
    (hh : Hdrs m p pre) (hs : Sizes pre)
    (hn : ∀ b ∈ pre, ¬(b.2 = false ∧ asize ≤ b.1)) (hf : pre.length ≤ fuel) :
    find_fit_loop m asize fuel p
      = find_fit_loop m asize (fuel - pre.length) (p + total pre) := by
  induction pre generalizing p fuel with
  | nil => simp [total]
  | cons b bs ih =>
    obtain ⟨k, rfl⟩ : ∃ k, fuel = k + 1 := ⟨fuel - 1, by simp at hf; omega⟩
    rw [Sizes_cons] at hs
    obtain ⟨h1, h2⟩ := hh
    rw [tag_eq b hs.1.2] at h1
    have e1 : GET_SIZE m (HDRP p) = b.1 := GET_SIZE_of m _ _ _ h1 hs.1.2
    have e2 : GET_ALLOC m (HDRP p) = bit b.2 := GET_ALLOC_of m _ _ _ h1 hs.1.2
    have e3 : NEXT_BLKP m p = p + b.1 := by
      unfold NEXT_BLKP WSIZE; rw [← HDRP_eq, e1]
    have hb : bit b.2 = 0 ↔ b.2 = false := by cases b.2 <;> simp [bit]
    have hnb := hn b (List.mem_cons_self _ _)
    have hpos : b.1 > 0 := by omega
    have hlen : bs.length ≤ k := by simp at hf; omega
    simp only [find_fit_loop, e1, e2, e3, hb, hpos, if_true, hnb, if_false]
    rw [ih (p + b.1) k h2 hs.2 (fun c hc => hn c (List.mem_cons_of_mem _ hc)) hlen]
    rw [total_cons, List.length_cons]
    congr 1 <;> omega

theorem find_fit_loop_here (m : Mem) (asize p z fuel : Nat) (hg : GET m (p - 4) = z)
    (hz : z % 8 = 0) (hz0 : 0 < z) (ha : asize ≤ z) (hf : 0 < fuel) :
    find_fit_loop m asize fuel p = some p := by
  obtain ⟨k, rfl⟩ : ∃ k, fuel = k + 1 := ⟨fuel - 1, by omega⟩
  have hg0 : GET m (p - 4) = z + bit false := by simpa [bit] using hg
  have e1 : GET_SIZE m (HDRP p) = z := GET_SIZE_of m _ _ _ hg0 hz
  have e2 : GET_ALLOC m (HDRP p) = 0 := GET_ALLOC_of m _ _ _ hg0 hz
  simp [find_fit_loop, e1, e2, hz0, ha]

theorem placed_zero (m : Mem) (p s : Nat) (h16 : 16 ≤ s) :
    placed m p s 0 = PUT (PUT (PUT (PUT m (p - 4) 1) (p - 8) 1) (p - 4) s) (p + s - 8) s := by
  unfold placed
  simp [h16]

theorem free_zero_placed (h : Heap) (p s sn : Nat) (hp : 8 ≤ p) (hs : s % 8 = 0)
    (h16 : 16 ≤ s) (hlt : s + s < 4294967296) (hnh : GET h.mem (p + s - 4) = sn + 1)
    (hsn : sn % 8 = 0) :
    mm_free { h with mem := placed h.mem p s 0 } p = { h with mem := zeroFreed h.mem p s } := by
  have hU : UMAX = 4294967296 := rfl
  rw [placed_zero _ _ _ h16]
  -- the words read by `mm_free` and `coalesce`
  have a1 : GET_SIZE (PUT (PUT (PUT (PUT h.mem (p - 4) 1) (p - 8) 1) (p - 4) s) (p + s - 8) s)
      (p - 4) = s := by
    rw [GET_SIZE_eq, GET_PUT_ne _ _ _ _ (by omega), GET_PUT_small _ _ _ (by rw [hU]; omega)]
    omega
  have a2 : FTRP (PUT (PUT (PUT (PUT (PUT h.mem (p - 4) 1) (p - 8) 1) (p - 4) s) (p + s - 8) s)
      (p - 4) s) p = p + s - 8 := by
    unfold FTRP DSIZE
    rw [HDRP_eq, GET_SIZE_eq, GET_PUT_small _ _ _ (by rw [hU]; omega)]
    omega
  unfold mm_free
  simp only [HDRP_eq, a1, PACK_zero, a2]
  generalize hm6 : PUT (PUT (PUT (PUT (PUT (PUT h.mem (p - 4) 1) (p - 8) 1) (p - 4) s)
    (p + s - 8) s) (p - 4) s) (p + s - 8) s = m6
  have b0 : GET m6 (p - 8) = 1 := by
    rw [← hm6, GET_PUT_ne _ _ _ _ (by omega), GET_PUT_ne _ _ _ _ (by omega),
      GET_PUT_ne _ _ _ _ (by omega), GET_PUT_ne _ _ _ _ (by omega),
      GET_PUT_small _ _ _ (by rw [hU]; omega)]
  have b1 : GET m6 (p - 4) = s := by
    rw [← hm6, GET_PUT_ne _ _ _ _ (by omega), GET_PUT_small _ _ _ (by rw [hU]; omega)]
  have b2 : GET m6 (p + s - 8) = s := by
    rw [← hm6, GET_PUT_small _ _ _ (by rw [hU]; omega)]
  have b3 : GET m6 (p + s - 4) = sn + 1 := by
    rw [← hm6, GET_PUT_ne _ _ _ _ (by omega), GET_PUT_ne _ _ _ _ (by omega),
      GET_PUT_ne _ _ _ _ (by omega), GET_PUT_ne _ _ _ _ (by omega),
      GET_PUT_ne _ _ _ _ (by omega), GET_PUT_ne _ _ _ _ (by omega), hnh]
  have c1 : PREV_BLKP m6 p = p := by
    unfold PREV_BLKP DSIZE; rw [GET_SIZE_eq, b0]; omega
  have c2 : FTRP m6 p = p + s - 8 := by
    unfold FTRP DSIZE; rw [HDRP_eq, GET_SIZE_eq, b1]; omega
  have c3 : GET_ALLOC m6 (p + s - 8) = 0 := by
    rw [GET_ALLOC_eq, b2]; omega
  have c4 : NEXT_BLKP m6 p = p + s := by
    unfold NEXT_BLKP WSIZE; rw [GET_SIZE_eq, b1]; omega
  have c5 : GET_ALLOC m6 (p + s - 4) = 1 := by
    rw [GET_ALLOC_eq, b3]; omega
  have c6 : GET_SIZE m6 (p - 4) = s := by
    rw [GET_SIZE_eq, b1]; omega
  have c7 : (s + s) % UMAX = s + s := Nat.mod_eq_of_lt (by rw [hU]; exact hlt)
  have c8 : PREV_BLKP (PUT m6 (p + s - 8) (s + s)) p = p := by
    unfold PREV_BLKP DSIZE
    rw [GET_SIZE_eq, GET_PUT_ne _ _ _ _ (by omega), b0]; omega
  have c9 : PREV_BLKP (PUT (PUT m6 (p + s - 8) (s + s)) (p - 4) (s + s)) p = p := by
    unfold PREV_BLKP DSIZE
    rw [GET_SIZE_eq, GET_PUT_ne _ _ _ _ (by omega), GET_PUT_ne _ _ _ _ (by omega), b0]; omega
  unfold coalesce zeroFreed
  simp only [c1, c2, c3, c4, HDRP_eq, c5, c6, c7, PACK_zero, c8, c9, hm6]
  simp

theorem zeroFreed_Hdrs (m : Mem) (q p s : Nat) (xs : List Blk) (hh : Hdrs m q xs)
    (hS : Sizes xs) (hq : 4 ≤ q) (hp : p = q + total xs) (h8 : 8 ≤ s) :
    Hdrs (zeroFreed m p s) q xs := by
  unfold zeroFreed
  apply Hdrs_put _ _ _ _ _ hS hq (by omega)
  apply Hdrs_put _ _ _ _ _ hS hq (by omega)
  apply Hdrs_put _ _ _ _ _ hS hq (by omega)
  apply Hdrs_put _ _ _ _ _ hS hq (by omega)
  apply Hdrs_put _ _ _ _ _ hS hq (by omega)
  apply Hdrs_put _ _ _ _ _ hS hq (by omega)
  apply Hdrs_put _ _ _ _ _ hS hq (by omega)
  exact Hdrs_put _ _ _ _ _ hS hq (by omega) hh

theorem zeroFreed_hdr (m : Mem) (p s : Nat) (hlt : s + s < 4294967296) :
    GET (zeroFreed m p s) (p - 4) = s + s := by
  unfold zeroFreed
  rw [GET_PUT_small _ _ _ (by unfold UMAX; exact hlt)]

theorem reuse_zero (h : Heap) (pre post : List Blk) (s n : Nat)
    (L : Layout h (pre ++ (s, false) :: post)) (hn : 0 < n)
    (hpre : ∀ b ∈ pre, ¬(b.2 = false ∧ adjust n ≤ b.1)) (h0 : adjust n = 0) (h16 : 16 ≤ s) :
    ∃ h3, mm_malloc (mm_free (place h (h.heap_listp + 8 + total pre) (adjust n))
      (h.heap_listp + 8 + total pre)) n = some (h.heap_listp + 8 + total pre, h3) := by
  obtain ⟨front, sp, ap, sn, an, ys, -, epost, -, -, A⟩ := layout_around h pre post s false L
  obtain ⟨hb1, hb2⟩ := L.base
  have hbrk := L.brk
  have hlt := (layout_total_lt h _ L).2
  rw [total_append, total_cons] at hlt hbrk
  simp only at hlt hbrk
  have han : an = true := by
    cases an
    · exfalso
      have hN := NoFreePair_right _ _ L.nofree
      rw [epost] at hN
      simp [NoFreePair] at hN
    · rfl
  subst han
  have hch := A.ch
  have hnh := A.nh
  have hs := A.hs
  have hsn := A.hsn.1
  rw [bit_true] at hnh
  have hS : Sizes ((8, true) :: pre) := by
    rw [Sizes_cons]
    exact ⟨⟨le_refl _, rfl⟩, fun b hb => L.sizes b (List.mem_append_left _ hb)⟩
  have hH : Hdrs h.mem h.heap_listp ((8, true) :: pre) := by
    have hT := L.tags
    have e : (8, true) :: (pre ++ (s, false) :: post) = ((8, true) :: pre) ++ (s, false) :: post :=
      rfl
    rw [e, Tags_append] at hT
    exact Tags_Hdrs _ _ _ hT.1
  have hlen := length_le_total _ hS
  rw [total_cons] at hlen
  simp only at hlen
  clear A epost
  rw [h0, place_eq h _ s 0 false (by omega) hch hs.1 (by unfold UMAX; omega) (by omega) rfl,
    free_zero_placed h _ s sn (by omega) hs.1 h16 (by omega) hnh hsn]
  refine ⟨place { h with mem := zeroFreed h.mem (h.heap_listp + 8 + total pre) s }
    (h.heap_listp + 8 + total pre) 0, ?_⟩
  unfold mm_malloc
  rw [if_neg (by omega)]
  simp only [h0]
  have hfit : find_fit { h with mem := zeroFreed h.mem (h.heap_listp + 8 + total pre) s } 0
      = some (h.heap_listp + 8 + total pre) := by
    unfold find_fit
    simp only
    rw [find_fit_loop_skip _ 0 ((8, true) :: pre) h.heap_listp h.mem_brk
      (zeroFreed_Hdrs _ _ _ _ _ hH hS (by omega) (by rw [total_cons]; simp only; omega)
        (by omega)) hS
      (by
        intro b hb
        rcases List.mem_cons.1 hb with e | hb
        · rw [e]; simp
        · have := hpre b hb
          rw [h0] at this
          exact this)
      (by rw [List.length_cons] at hlen ⊢; omega)]
    have e : h.heap_listp + total ((8, true) :: pre) = h.heap_listp + 8 + total pre := by
      rw [total_cons]; simp only; omega
    rw [e]
    exact find_fit_loop_here _ 0 _ (s + s)
      _ (zeroFreed_hdr _ _ _ (by omega)) (by omega) (by omega) (by omega)
      (by rw [List.length_cons] at hlen ⊢; omega)
  rw [hfit]
  simp only
  rw [if_pos (by omega)]

theorem mm_malloc_after (h : Heap) (n A : Nat)
    (hr : (mm_malloc h n).map (fun r => r.1) = some A) :
    mm_malloc h n = some (A, after h [.malloc n]) := by
  unfold after run step
  cases hm : mm_malloc h n with
  | none => rw [hm] at hr; cases hr
  | some v =>
    rw [hm] at hr
    simp only [Option.map_some', Option.some.injEq] at hr
    simp only [run, Option.some.injEq, hm]
    exact Prod.ext hr rfl

/-- C5: on a well-formed heap, if `mm_malloc n` with `n > 0` returns a non-null
address `A`, then `mm_free A` followed at once by `mm_malloc n` returns `A`
again (and does return). -/
theorem first_fit_reuse (h h1 : Heap) (bs : List Blk) (n A : Nat) (L : Layout h bs)
    (hn : 0 < n) (hm : mm_malloc h n = some (A, h1)) (hA : A ≠ 0) :
    ∃ h3, mm_malloc (mm_free h1 A) n = some (A, h3) := by
  obtain ⟨hX, pre, s, post, LX, hpre, hs, eA, e1⟩ := mm_malloc_shape h h1 bs n A L hn hm hA
  rw [e1, eA]
  by_cases h8 : 8 ≤ adjust n ∨ s - adjust n < 16
  · exact reuse_normal hX pre post s n LX hn hpre hs h8
  · have hmod := adjust_mod n
    exact reuse_zero hX pre post s n LX hn hpre (by omega) (by omega)

/-- Witness for C5: `init; A = mm_malloc(100); mm_free(A); mm_malloc(100)` returns
`A = 4112` both times. -/
theorem first_fit_reuse_witness :
    (run heap0 [.malloc 100, .free 4112, .malloc 100]).map (fun r => r.1)
      = some [4112, 0, 4112]
    ∧ ∃ h3, mm_malloc (mm_free heap100 4112) 100 = some (4112, h3) :=
  ⟨by decide,
   first_fit_reuse heap0 heap100 [(4096, false)] 100 4112 (by decide) (by decide)
     (mm_malloc_after heap0 100 4112 (by decide)) (by decide)⟩

/-! ## Capacity of an allocated block when the size adjustment does not wrap -/

theorem mm_malloc_capacity (h h1 : Heap) (bs : List Blk) (n A : Nat) (L : Layout h bs)
    (hn : 0 < n) (hlt : n + 15 < UMAX) (hm : mm_malloc h n = some (A, h1)) (hA : A ≠ 0) :
    ∃ pre s post, Layout h1 (pre ++ (s, true) :: post)
      ∧ A = h1.heap_listp + 8 + total pre ∧ n + 8 ≤ s := by
  obtain ⟨hX, pre, s, post, LX, -, hs, eA, e1⟩ := mm_malloc_shape h h1 bs n A L hn hm hA
  obtain ⟨g1, g2⟩ := adjust_ge n hlt
  obtain ⟨L1, f1, -⟩ := place_layout hX pre post s (adjust n) LX hs (adjust_mod n)
    (Or.inl (by omega))
  rw [← eA, ← e1] at L1 f1
  unfold placedList at L1
  split at L1
  · exact ⟨pre, adjust n, (s - adjust n, false) :: post, L1, by rw [f1]; exact eA, g2⟩
  · exact ⟨pre, s, post, L1, by rw [f1]; exact eA, by omega⟩

/-! ## The consistency checker -/

theorem FTRP_lt_next (m : Mem) (p : Nat) (hp : 8 ≤ p + GET_SIZE m (HDRP p)) :
    FTRP m p < HDRP (NEXT_BLKP m p) := by
  unfold FTRP NEXT_BLKP HDRP DSIZE WSIZE at *
  omega

theorem mm_check_loop_none (h : Heap) (hl : h.heap_listp ≠ 0) (fuel : Nat) :
    ∀ p, 8 ≤ p → mm_check_loop h fuel p = none := by
  induction fuel with
  | zero => intro p _; rfl
  | succ k ih =>
    intro p hp
    have h1 : ¬ (FTRP h.mem p ≥ HDRP (NEXT_BLKP h.mem p)) := by
      have h2 := FTRP_lt_next h.mem p (by omega)
      omega
    have h3 : 8 ≤ NEXT_BLKP h.mem p := by unfold NEXT_BLKP; omega
    simp only [mm_check_loop, hl, ne_eq, not_false_eq_true, if_true, h1, if_false]
    exact ih _ h3

/-- C12, failing input: on the heap right after `mm_init`, and on the heap after
`A = mm_malloc(16)`, `B = mm_malloc(16)`, `mm_free(A)`, `mm_free(B)`, the loop of
`mm_check` is still running after any number of iterations: its condition tests
`heap_listp`, which never changes, and its body never returns. -/
theorem mm_check_diverges (fuel : Nat) :
    mm_check fuel heap0 = none ∧ mm_check fuel heapMerged = none :=
  ⟨mm_check_loop_none heap0 (by decide) fuel _ (by decide),
   mm_check_loop_none heapMerged (by decide) fuel _ (by decide)⟩

/-- C19: on every heap whose chain start is a proper address (at least 8, so
that the address arithmetic stays above 0), whatever the memory holds, the footer
address of every block lies below the header address of the next block, and
`mm_check` never returns 0. -/
theorem mm_check_never_zero (h : Heap) (fuel : Nat) (hp : 8 ≤ h.heap_listp) :
    (∀ p, 8 ≤ p → FTRP h.mem p < HDRP (NEXT_BLKP h.mem p))
      ∧ mm_check fuel h ≠ some 0 := by
  refine ⟨fun p h8 => FTRP_lt_next h.mem p (by omega), ?_⟩
  unfold mm_check
  rw [mm_check_loop_none h (by omega) fuel _ hp]
  exact fun e => Option.noConfusion e

/-- Witness for C19: the heap right after `mm_init`. -/
theorem mm_check_never_zero_witness :
    8 ≤ heap0.heap_listp
      ∧ ((∀ p, 8 ≤ p → FTRP heap0.mem p < HDRP (NEXT_BLKP heap0.mem p))
          ∧ mm_check 1000 heap0 ≠ some 0) :=
  ⟨by decide, mm_check_never_zero heap0 1000 (by decide)⟩

/-! ## The in-place paths of `mm_realloc` -/

/-- C18: when the target size is below the block size by at most 24 bytes,
`mm_realloc` returns the block and changes nothing. -/
theorem mm_realloc_slack_noop (h : Heap) (p size : Nat) (hn : 0 < size)
    (hlt : realloc_asize size < GET_SIZE h.mem (HDRP p))
    (hle : GET_SIZE h.mem (HDRP p) - realloc_asize size ≤ 24) :
    mm_realloc h p size = some (p, h) := by
  unfold mm_realloc
  have h0 : size ≠ 0 := by omega
  have h1 : realloc_asize size ≠ GET_SIZE h.mem (HDRP p) := by omega
  have h2 : realloc_asize size ≤ GET_SIZE h.mem (HDRP p) := by omega
  simp only [h0, h1, h2, MIN_BLOCK_SIZE, hle, if_true, if_false]

/-- Witness for C18: the block `4112` of size 48 and a request of 16 bytes, whose
target size is 24. -/
theorem mm_realloc_slack_noop_witness :
    GET_SIZE heap40.mem (HDRP 4112) = 48 ∧ realloc_asize 16 = 24
      ∧ mm_realloc heap40 4112 16 = some (4112, heap40) :=
  ⟨by decide, by decide,
   mm_realloc_slack_noop heap40 4112 16 (by decide) (by decide) (by decide)⟩

/-- C11, failing input: `A = 4112` has size 96 and is followed by the live block
`B = 4208` of size 32.  `mm_realloc(A, 56)` has target size 64 and leftover 32;
it returns `A` with size 64, but the block at `A + 64 = 4176` becomes a free block
of size 4032 instead of 32: it covers `B`, whose header still reads
`(32, allocated)`, and the next `mm_malloc(100)` returns `4176`, a payload that
contains that of `B`. -/
theorem realloc_shrink_swallows_next :
    realloc_asize 56 = 64
    ∧ (run heap0 [.malloc 88, .malloc 24]).map
        (fun r => (r.1, GET r.2.mem (HDRP 4112), GET r.2.mem (HDRP 4208)))
        = some ([4112, 4208], PACK 96 1, PACK 32 1)
    ∧ (run heap0 [.malloc 88, .malloc 24, .realloc 4112 56]).map
        (fun r => (r.1, GET r.2.mem (HDRP 4112), GET r.2.mem (HDRP 4176),
          GET r.2.mem (HDRP 4208)))
        = some ([4112, 4208, 4112], PACK 64 1, PACK 4032 0, PACK 32 1)
    ∧ (run heap0 [.malloc 88, .malloc 24, .realloc 4112 56, .malloc 100]).map (fun r => r.1)
        = some [4112, 4208, 4112, 4176] := by
  decide

/-- C20, failing input: `A = mm_malloc(1) = 4112` is a block of size 16;
`mm_realloc(A, 2^32 - 1)` has target size 24 and takes the relocating path.  The
inner `mm_malloc(2^32 - 1)` returns `B = 4128`, a block of size 8 with no
payload byte, followed by the free block `4136` of size 4072.  The copy of
`min(2^32 - 1, 16) = 16` bytes overwrites the footer of `B` and the header of
`4136`, which reads 0 afterwards. -/
theorem realloc_copy_overruns :
    realloc_asize 4294967295 = 24 ∧ adjust 4294967295 = 8
    ∧ GET_SIZE (after heap0 [.malloc 1]).mem (HDRP 4112) = 16
    ∧ (mm_malloc (after heap0 [.malloc 1]) 4294967295).map
        (fun r => (r.1, GET r.2.mem (HDRP 4128), GET r.2.mem 4128, GET r.2.mem (HDRP 4136)))
        = some (4128, PACK 8 1, PACK 8 1, PACK 4072 0)
    ∧ (run heap0 [.malloc 1, .realloc 4112 4294967295]).map
        (fun r => (r.1, GET r.2.mem (HDRP 4128), GET r.2.mem 4128, GET r.2.mem (HDRP 4136)))
        = some ([4112, 4128], PACK 8 1, 0, 0) := by
  decide

/-! ## The result and the layout of `mm_init` -/

theorem mem_sbrk_some (h h1 : Heap) (n p : Nat) (hs : mem_sbrk h n = some (p, h1)) :
    p = h.mem_brk ∧ h1 = { h with mem_brk := h.mem_brk + n }
      ∧ h.mem_brk + n ≤ h.mem_max_addr := by
  unfold mem_sbrk at hs
  split at hs
  · simp only [Option.some.injEq, Prod.mk.injEq] at hs
    exact ⟨hs.1.symm, hs.2.symm, by assumption⟩
  · exact Option.noConfusion hs

theorem mem_sbrk_none (h : Heap) (n : Nat) :
    mem_sbrk h n = none ↔ ¬ h.mem_brk + n ≤ h.mem_max_addr := by
  unfold mem_sbrk
  split
  · simp only [reduceCtorEq, false_iff, not_not]; assumption
  · simp only [true_iff]; assumption

theorem mm_init_fresh (h : Heap) :
    mm_init h = mm_init (fresh h.mem h.mem_brk h.mem_max_addr) := by
  unfold mm_init mem_sbrk fresh
  simp only
  by_cases hc : h.mem_brk + 4 * WSIZE ≤ h.mem_max_addr
  · rw [if_pos hc, if_pos hc]
  · rw [if_neg hc, if_neg hc]

theorem mm_init_none (m : Mem) (lo hi : Nat) (hfit : ¬ lo + 16 ≤ hi) :
    (mm_init (fresh m lo hi)).1 = -1 := by
  have hs : mem_sbrk (fresh m lo hi) (4 * WSIZE) = none := by
    unfold mem_sbrk fresh WSIZE
    simp only
    rw [if_neg (by omega)]
  unfold mm_init
  simp only [hs]

theorem mm_init_short (m : Mem) (lo hi : Nat) (hfit : lo + 16 ≤ hi)
    (hshort : ¬ lo + 16 + 4096 ≤ hi) :
    mm_init (fresh m lo hi) = (-1, scaffold m lo hi) := by
  have hf : extend_heap (scaffold m lo hi) (CHUNKSIZE / WSIZE) = (0, scaffold m lo hi) := by
    apply extend_heap_fail
    have e : (if CHUNKSIZE / WSIZE % 2 ≠ 0 then ((CHUNKSIZE / WSIZE + 1) * WSIZE) % UMAX
        else (CHUNKSIZE / WSIZE * WSIZE) % UMAX) = 4096 := rfl
    rw [mem_sbrk_none, e]
    unfold scaffold
    simp only
    omega
  rw [mm_init_eq m lo hi hfit, hf]
  rfl

theorem mm_init_grow (m : Mem) (lo hi : Nat) (hfit : lo + 16 + 4096 ≤ hi) :
    mm_init (fresh m lo hi) = (0, initial m lo hi) := by
  have hU : UMAX = 4294967296 := rfl
  have g1 : GET (scaffold m lo hi).mem (lo + 16 - 8) = 8 + bit true := by
    unfold scaffold
    simp only
    rw [GET_PUT_ne _ _ _ _ (by omega), GET_PUT_eq _ _ _ _ (by omega) (by rw [hU]; omega)]
    rfl
  have g2 : GET (scaffold m lo hi).mem (lo + 16 - 8 - 4) = 8 + bit true := by
    unfold scaffold
    simp only
    rw [GET_PUT_ne _ _ _ _ (by omega), GET_PUT_ne _ _ _ _ (by omega),
      GET_PUT_eq _ _ _ _ (by omega) (by rw [hU]; omega)]
    rfl
  have N := ext_Nbhd (scaffold m lo hi).mem (lo + 16) 8 true 4096 g1 g2 (by omega) (by omega)
    (by omega) (by omega) (by omega)
  have he := extend_heap_eq (scaffold m lo hi) (CHUNKSIZE / WSIZE) 8 true 4096 rfl
    (by unfold scaffold; simp only; omega) N
  have hne : lo + 16 ≠ 0 := by omega
  rw [mm_init_eq m lo hi (by omega), he]
  simp only [if_true, hne, if_false]
  rfl

/-- C13, counterexample: on an arena that can hold the initial four words but not
the first chunk of 4096 bytes, the four-word request succeeds and `mm_init`
returns -1. -/
theorem mm_init_fails_on_chunk :
    (mem_sbrk (fresh (fun _ => 0) 4096 5000) (4 * WSIZE)).map (fun r => r.1) = some 4096
      ∧ (mm_init (fresh (fun _ => 0) 4096 5000)).1 = -1 := by
  decide

/-- C13 (amended): `mm_init` returns 0 or -1, and it returns -1 exactly when one
of its two growth requests fails: the initial four words, or the chunk of
`CHUNKSIZE` bytes requested by `extend_heap` once the four words are there. -/
theorem mm_init_result (h : Heap) :
    ((mm_init h).1 = 0 ∨ (mm_init h).1 = -1)
      ∧ ((mm_init h).1 = -1 ↔
          (mem_sbrk h (4 * WSIZE) = none
            ∨ mem_sbrk { h with mem_brk := h.mem_brk + 4 * WSIZE } CHUNKSIZE = none)) := by
  rw [mm_init_fresh h, mem_sbrk_none, mem_sbrk_none]
  simp only [WSIZE, CHUNKSIZE]
  by_cases h1 : h.mem_brk + 16 ≤ h.mem_max_addr
  · by_cases h2 : h.mem_brk + 16 + 4096 ≤ h.mem_max_addr
    · rw [mm_init_grow _ _ _ h2]
      simp only [true_or, true_and]
      constructor
      · intro e; exact absurd e (by decide)
      · intro e; omega
    · rw [mm_init_short _ _ _ h1 h2]
      simp only [or_true, true_and, true_iff]
      omega
  · rw [mm_init_none _ _ _ h1]
    simp only [or_true, true_and, true_iff]
    omega

theorem initial_words (m : Mem) (lo hi : Nat) :
    GET (initial m lo hi).mem lo = 0
      ∧ GET (initial m lo hi).mem (lo + 4) = 9
      ∧ GET (initial m lo hi).mem (lo + 8) = 9
      ∧ GET (initial m lo hi).mem (lo + 12) = 4096
      ∧ GET (initial m lo hi).mem (lo + 4104) = 4096
      ∧ GET (initial m lo hi).mem (lo + 4108) = 1 := by
  have hU : UMAX = 4294967296 := rfl
  unfold initial scaffold
  simp only
  refine ⟨?_, ?_, ?_, ?_, ?_, ?_⟩
  · rw [GET_PUT_ne _ _ _ _ (by omega), GET_PUT_ne _ _ _ _ (by omega),
      GET_PUT_ne _ _ _ _ (by omega), GET_PUT_ne _ _ _ _ (by omega),
      GET_PUT_ne _ _ _ _ (by omega), GET_PUT_ne _ _ _ _ (by omega),
      GET_PUT_eq _ _ _ _ rfl (by rw [hU]; omega)]
  · rw [GET_PUT_ne _ _ _ _ (by omega), GET_PUT_ne _ _ _ _ (by omega),
      GET_PUT_ne _ _ _ _ (by omega), GET_PUT_ne _ _ _ _ (by omega),
      GET_PUT_ne _ _ _ _ (by omega), GET_PUT_eq _ _ _ _ rfl (by rw [hU]; omega)]
  · rw [GET_PUT_ne _ _ _ _ (by omega), GET_PUT_ne _ _ _ _ (by omega),
      GET_PUT_ne _ _ _ _ (by omega), GET_PUT_ne _ _ _ _ (by omega),
      GET_PUT_eq _ _ _ _ rfl (by rw [hU]; omega)]
  · rw [GET_PUT_ne _ _ _ _ (by omega), GET_PUT_ne _ _ _ _ (by omega),
      GET_PUT_eq _ _ _ _ rfl (by rw [hU]; omega)]
  · rw [GET_PUT_ne _ _ _ _ (by omega), GET_PUT_eq _ _ _ _ rfl (by rw [hU]; omega)]
  · rw [GET_PUT_eq _ _ _ _ rfl (by rw [hU]; omega)]

theorem initial_byte (m : Mem) (lo hi a : Nat) (ha : a < lo ∨ lo + 4112 ≤ a) :
    (initial m lo hi).mem a = m a := by
  unfold initial scaffold
  simp only
  rw [PUT_byte _ _ _ _ (by omega), PUT_byte _ _ _ _ (by omega), PUT_byte _ _ _ _ (by omega),
    PUT_byte _ _ _ _ (by omega), PUT_byte _ _ _ _ (by omega), PUT_byte _ _ _ _ (by omega),
    PUT_byte _ _ _ _ (by omega)]

/-- C14: when both growth requests succeed, the first at address `p`, `mm_init`
returns 0 and leaves an arena of exactly 16 + 4096 bytes from `p`: a zero padding
word, the prologue header and footer `(8, allocated)`, one free block whose header
and footer are `(4096, free)`, and the epilogue header `(0, allocated)` in the
last word.  The chain start is the prologue, whose successor is the free block,
whose successor is the epilogue at the end of the arena.  No byte outside the
arena is written. -/
theorem mm_init_arena (h h1 h2 : Heap) (p q : Nat)
    (hs1 : mem_sbrk h (4 * WSIZE) = some (p, h1))
    (hs2 : mem_sbrk h1 CHUNKSIZE = some (q, h2)) :
    (mm_init h).1 = 0
      ∧ (mm_init h).2.mem_brk = p + 16 + 4096
      ∧ (mm_init h).2.mem_max_addr = h.mem_max_addr
      ∧ GET (mm_init h).2.mem p = 0
      ∧ GET (mm_init h).2.mem (p + 4) = PACK 8 1
      ∧ GET (mm_init h).2.mem (p + 8) = PACK 8 1
      ∧ GET (mm_init h).2.mem (p + 12) = PACK 4096 0
      ∧ GET (mm_init h).2.mem (p + 16 + 4096 - 8) = PACK 4096 0
      ∧ GET (mm_init h).2.mem ((mm_init h).2.mem_brk - 4) = PACK 0 1
      ∧ (mm_init h).2.heap_listp = p + 8
      ∧ HDRP (mm_init h).2.heap_listp = p + 4
      ∧ NEXT_BLKP (mm_init h).2.mem (mm_init h).2.heap_listp = p + 16
      ∧ HDRP (p + 16) = p + 12
      ∧ FTRP (mm_init h).2.mem (p + 16) = p + 16 + 4096 - 8
      ∧ NEXT_BLKP (mm_init h).2.mem (p + 16) = (mm_init h).2.mem_brk
      ∧ ∀ a, (a < p ∨ p + 16 + 4096 ≤ a) → (mm_init h).2.mem a = h.mem a := by
  obtain ⟨e1, e2, f1⟩ := mem_sbrk_some h h1 _ p hs1
  obtain ⟨-, -, f2⟩ := mem_sbrk_some h1 h2 _ q hs2
  rw [e2] at f2
  simp only [WSIZE, CHUNKSIZE] at f1 f2
  rw [mm_init_fresh h, mm_init_grow _ _ _ (by omega), e1]
  obtain ⟨w0, w1, w2, w3, w4, w5⟩ := initial_words h.mem h.mem_brk h.mem_max_addr
  have s1 : GET_SIZE (initial h.mem h.mem_brk h.mem_max_addr).mem (h.mem_brk + 4) = 8 :=
    GET_SIZE_of _ _ 8 true w1 rfl
  have s2 : GET_SIZE (initial h.mem h.mem_brk h.mem_max_addr).mem (h.mem_brk + 12) = 4096 :=
    GET_SIZE_of _ _ 4096 false w3 rfl
  have a1 : h.mem_brk + 8 - 4 = h.mem_brk + 4 := by omega
  have a2 : h.mem_brk + 16 - 4 = h.mem_brk + 12 := by omega
  have a3 : h.mem_brk + 16 + 4096 - 8 = h.mem_brk + 4104 := by omega
  have a4 : h.mem_brk + 4112 - 4 = h.mem_brk + 4108 := by omega
  have i1 : (initial h.mem h.mem_brk h.mem_max_addr).heap_listp = h.mem_brk + 8 := rfl
  have i2 : (initial h.mem h.mem_brk h.mem_max_addr).mem_brk = h.mem_brk + 4112 := rfl
  have i3 : (initial h.mem h.mem_brk h.mem_max_addr).mem_max_addr = h.mem_max_addr := rfl
  simp only [i1, i2, i3, HDRP, NEXT_BLKP, FTRP, WSIZE, DSIZE, a1, a2, a3, a4, s1, s2, w0, w1,
    w2, w3, w4, w5, true_and]
  refine ⟨rfl, rfl, rfl, rfl, rfl, ?_⟩
  intro a ha
  exact initial_byte _ _ _ a (by omega)

/-- Witness for C14: the zero-filled arena at 4096 with room for 1 MiB. -/
theorem mm_init_arena_witness :
    (mm_init (fresh (fun _ => 0) 4096 1052672)).1 = 0
      ∧ (mm_init (fresh (fun _ => 0) 4096 1052672)).2.mem_brk = 8208
      ∧ GET (mm_init (fresh (fun _ => 0) 4096 1052672)).2.mem 4108 = PACK 4096 0
      ∧ GET (mm_init (fresh (fun _ => 0) 4096 1052672)).2.mem 8200 = PACK 4096 0
      ∧ GET (mm_init (fresh (fun _ => 0) 4096 1052672)).2.mem 8204 = PACK 0 1
      ∧ (mm_init (fresh (fun _ => 0) 4096 1052672)).2.heap_listp = 4104 := by
  have w := mm_init_arena (fresh (fun _ => 0) 4096 1052672)
    { mem := fun _ => 0, heap_listp := 0, mem_brk := 4112, mem_max_addr := 1052672 }
    { mem := fun _ => 0, heap_listp := 0, mem_brk := 8208, mem_max_addr := 1052672 }
    4096 4112 rfl rfl
  exact ⟨w.1, w.2.1, w.2.2.2.2.2.2.1, w.2.2.2.2.2.2.2.1, w.2.2.2.2.2.2.2.2.1,
    w.2.2.2.2.2.2.2.2.2.1⟩

/-! ## First-fit search -/

/-- C16: on a well-formed heap with blocks `bs`, `find_fit` returns within its
iteration bound.  It returns `NULL` exactly when no block is free with size at
least `asize`; otherwise it returns the first such block: a block of the chain
that is free, of size at least `asize`, with no fitting free block before it.
The result is neither the prologue nor the epilogue. -/
theorem find_fit_first_fit (h : Heap) (bs : List Blk) (asize : Nat) (L : Layout h bs) :
    ∃ r, find_fit h asize = some r
      ∧ (r = 0 ↔ ∀ b ∈ bs, ¬(b.2 = false ∧ asize ≤ b.1))
      ∧ (r ≠ 0 → ∃ pre s post, bs = pre ++ (s, false) :: post
          ∧ r = h.heap_listp + 8 + total pre ∧ asize ≤ s
          ∧ (∀ b ∈ pre, ¬(b.2 = false ∧ asize ≤ b.1))
          ∧ GET_ALLOC h.mem (HDRP r) = 0 ∧ GET_SIZE h.mem (HDRP r) = s)
      ∧ r ≠ h.heap_listp ∧ r ≠ h.mem_brk := by
  refine ⟨_, find_fit_layout h bs asize L, ?_⟩
  have hb := L.base
  have hbrk := L.brk
  rcases firstFit_cases asize bs with hmiss | ⟨pre, s, post, e, hs, hpre⟩
  · rw [firstFit_miss asize _ bs hmiss]
    refine ⟨⟨fun _ => hmiss, fun _ => rfl⟩, fun hne => absurd rfl hne, by omega, by omega⟩
  · subst e
    rw [firstFit_hit asize _ s pre post hpre hs]
    obtain ⟨g, -⟩ := layout_block h pre post (s, false) L
    rw [tag_free] at g
    have hsz := (Sizes_append pre _).1 L.sizes
    have hs8 := ((Sizes_cons _ _).1 hsz.2).1
    simp only [total_append, total_cons] at hbrk
    refine ⟨⟨fun e0 => by omega, fun hall => ?_⟩, fun _ => ⟨pre, s, post, rfl, rfl, hs, hpre, ?_, ?_⟩,
      by omega, by omega⟩
    · exact absurd ⟨rfl, hs⟩ (hall (s, false) (by simp))
    · rw [HDRP_eq, GET_ALLOC_of _ _ s false (by rw [g]; rfl) hs8.2]; rfl
    · rw [HDRP_eq, GET_SIZE_of _ _ s false (by rw [g]; rfl) hs8.2]

/-- Witness for C16: in the heap with blocks `(24, free)`, `(24, allocated)`,
`(4048, free)`, a search for 32 bytes. -/
theorem find_fit_first_fit_witness :
    Layout heapAB [(24, false), (24, true), (4048, false)]
      ∧ ∃ r, find_fit heapAB 32 = some r
        ∧ (r = 0 ↔ ∀ b ∈ [((24 : Nat), false), (24, true), (4048, false)],
            ¬(b.2 = false ∧ 32 ≤ b.1))
        ∧ (r ≠ 0 → ∃ pre s post, [((24 : Nat), false), (24, true), (4048, false)]
              = pre ++ (s, false) :: post
            ∧ r = heapAB.heap_listp + 8 + total pre ∧ 32 ≤ s
            ∧ (∀ b ∈ pre, ¬(b.2 = false ∧ 32 ≤ b.1))
            ∧ GET_ALLOC heapAB.mem (HDRP r) = 0 ∧ GET_SIZE heapAB.mem (HDRP r) = s)
        ∧ r ≠ heapAB.heap_listp ∧ r ≠ heapAB.mem_brk :=
  ⟨by decide, find_fit_first_fit heapAB _ 32 (by decide)⟩

/-! ## The smallest block -/

theorem tag_inj (a b : Blk) (ha : a.1 % 8 = 0) (hb : b.1 % 8 = 0) (e : tag a = tag b) :
    a = b := by
  rw [tag_eq a ha, tag_eq b hb] at e
  obtain ⟨s, x⟩ := a
  obtain ⟨t, y⟩ := b
  simp only at ha hb e
  cases x <;> cases y <;> simp only [bit, if_true, if_false, Bool.false_eq_true] at e
  · simp only [Prod.mk.injEq, and_true]; omega
  · omega
  · omega
  · simp only [Prod.mk.injEq, and_true]; omega

theorem Hdrs_unique (m : Mem) (bs : List Blk) :
    ∀ (bs1 : List Blk) (p : Nat), Sizes bs → Sizes bs1 → Hdrs m p bs → Hdrs m p bs1 →
      total bs = total bs1 → bs = bs1 := by
  induction bs with
  | nil =>
    intro bs1 p _ hs1 _ _ ht
    cases bs1 with
    | nil => rfl
    | cons b rest =>
      have := ((Sizes_cons b rest).1 hs1).1
      simp only [total_nil, total_cons] at ht
      omega
  | cons a as ih =>
    intro bs1 p hs hs1 hh hh1 ht
    cases bs1 with
    | nil =>
      have := ((Sizes_cons a as).1 hs).1
      simp only [total_nil, total_cons] at ht
      omega
    | cons b rest =>
      have sa := (Sizes_cons a as).1 hs
      have sb := (Sizes_cons b rest).1 hs1
      have e : a = b := tag_inj a b sa.1.2 sb.1.2 (hh.1.symm.trans hh1.1)
      subst e
      simp only [total_cons] at ht
      rw [ih rest (p + a.1) sa.2 sb.2 hh.2 hh1.2 (by omega)]

theorem Layout_unique (h : Heap) (bs bs1 : List Blk) (L : Layout h bs) (L1 : Layout h bs1) :
    bs = bs1 := by
  have h1 := L.brk
  have h2 := L1.brk
  have t1 := Tags_Hdrs _ _ _ L.tags
  have t2 := Tags_Hdrs _ _ _ L1.tags
  exact Hdrs_unique h.mem bs bs1 (h.heap_listp + 8) L.sizes L1.sizes t1.2 t2.2 (by omega)

theorem absorbNext_mem (post : List Blk) (z : Nat) (b : Blk)
    (hb : b ∈ (absorbNext z post).2) : b ∈ post := by
  cases post with
  | nil => exact hb
  | cons c cs =>
    simp only [absorbNext] at hb
    cases hc : c.2
    · rw [hc] at hb
      exact List.mem_cons_of_mem _ hb
    · rw [hc] at hb
      exact hb

theorem absorbNext_ge (post : List Blk) (z : Nat) : z ≤ (absorbNext z post).1 := by
  cases post with
  | nil => exact le_refl _
  | cons c cs =>
    simp only [absorbNext]
    cases hc : c.2
    · exact Nat.le_add_right _ _
    · exact le_refl _

theorem Min16_freedList (pre post : List Blk) (s : Nat) (h16 : 16 ≤ s) (hp : Min16 pre)
    (hq : Min16 post) : Min16 (freedList pre s post) := by
  intro b hb
  unfold freedList at hb
  rcases List.mem_append.1 hb with h1 | h1
  · exact hp b (absorbPrev_mem _ _ _ h1)
  · rcases List.mem_cons.1 h1 with h2 | h2
    · rw [h2]
      have := absorbPrev_ge pre s
      have := absorbNext_ge post (absorbPrev pre s).2
      show 16 ≤ (absorbNext (absorbPrev pre s).2 post).1
      omega
    · exact hq b (absorbNext_mem _ _ _ h2)

theorem Min16_placedList (pre post : List Blk) (s asize : Nat) (ha : 16 ≤ asize)
    (hp : Min16 (pre ++ (s, false) :: post)) : Min16 (placedList pre s asize post) := by
  have h1 : Min16 pre := fun b hb => hp b (List.mem_append_left _ hb)
  have h2 : Min16 post :=
    fun b hb => hp b (List.mem_append_right _ (List.mem_cons_of_mem _ hb))
  have h3 : 16 ≤ s := hp (s, false) (List.mem_append_right _ (List.mem_cons_self _ _))
  intro b hb
  unfold placedList DSIZE at hb
  split at hb
  · rcases List.mem_append.1 hb with h4 | h4
    · exact h1 b h4
    · rcases List.mem_cons.1 h4 with h5 | h5
      · rw [h5]; exact ha
      · rcases List.mem_cons.1 h5 with h6 | h6
        · rw [h6]; show 16 ≤ s - asize; omega
        · exact h2 b h6
  · rcases List.mem_append.1 hb with h4 | h4
    · exact h1 b h4
    · rcases List.mem_cons.1 h4 with h5 | h5
      · rw [h5]; exact h3
      · exact h2 b h5

theorem mm_malloc_blocks (h h1 : Heap) (bs : List Blk) (n r : Nat) (L : Layout h bs)
    (hM : Min16 bs) (hlt : n + 15 < UMAX) (hm : mm_malloc h n = some (r, h1)) :
    ∃ bs1, Layout h1 bs1 ∧ Min16 bs1 := by
  by_cases h0 : n = 0
  · subst h0
    simp only [mm_malloc, if_true, Option.some.injEq, Prod.mk.injEq] at hm
    rw [← hm.2]; exact ⟨bs, L, hM⟩
  have hn : 0 < n := by omega
  obtain ⟨g16, -⟩ := adjust_ge n hlt
  rcases firstFit_cases (adjust n) bs with hmiss | ⟨pre, s, post, e, hs, hpre⟩
  · by_cases hfit : h.mem_brk + max (adjust n) CHUNKSIZE ≤ h.mem_max_addr
    · obtain ⟨e1, e2, e3, e4⟩ := mm_malloc_miss_grow h bs n L hn hmiss hfit
      rw [e1] at hm
      simp only [Option.some.injEq, Prod.mk.injEq] at hm
      have hM1 := Min16_freedList bs [] (max (adjust n) CHUNKSIZE)
        (le_trans g16 (Nat.le_max_left _ _)) hM (fun b hb => absurd hb (List.not_mem_nil b))
      rw [freedList_nil] at e3 hM1
      have hs : adjust n ≤ (absorbPrev bs (max (adjust n) CHUNKSIZE)).2 :=
        le_trans (Nat.le_max_left _ _) (absorbPrev_ge _ _)
      obtain ⟨L1, -⟩ := place_layout _ _ [] _ (adjust n) e3 hs (adjust_mod n)
        (Or.inl (by omega))
      rw [e4, ← e2, hm.2] at L1
      exact ⟨_, L1, Min16_placedList _ _ _ _ g16 hM1⟩
    · have hfail : mem_sbrk h (max (adjust n) CHUNKSIZE) = none := by
        unfold mem_sbrk; rw [if_neg hfit]
      rw [mm_malloc_miss_fail h bs n L hn hmiss hfail] at hm
      simp only [Option.some.injEq, Prod.mk.injEq] at hm
      rw [← hm.2]; exact ⟨bs, L, hM⟩
  · subst e
    rw [mm_malloc_hit h pre post s n L hn hpre hs] at hm
    simp only [Option.some.injEq, Prod.mk.injEq] at hm
    obtain ⟨L1, -⟩ := place_layout h pre post s (adjust n) L hs (adjust_mod n)
      (Or.inl (by omega))
    rw [hm.2] at L1
    exact ⟨_, L1, Min16_placedList _ _ _ _ g16 hM⟩

/-- C15, counterexample: `mm_malloc(1)` creates an allocated block of 16 bytes,
and `mm_malloc(4072)`, whose adjusted size is 4080, makes `place` split the free
block of 4096 bytes and leave a free block of 16 bytes. -/
theorem blocks_below_24 :
    adjust 1 = 16 ∧ Layout (after heap0 [.malloc 1]) [(16, true), (4080, false)]
      ∧ adjust 4072 = 4080 ∧ Layout (after heap0 [.malloc 4072]) [(4080, true), (16, false)] := by
  decide

/-- C15 (amended): on an arena that starts at a multiple of 8, ends below `2^32`
and spans less than `2^31` bytes, after a successful `mm_init` and any sequence
of `mm_malloc` calls for at most `2^32 - 16` bytes and `mm_free` calls on
allocated blocks (`Reach`), the heap is well-formed and every block between the
prologue and the epilogue has a size that is a multiple of 8 and at least 16. -/
theorem blocks_at_least_16 (h : Heap) (R : Reach h) :
    ∃ bs, Layout h bs ∧ ∀ b ∈ bs, 16 ≤ b.1 ∧ b.1 % 8 = 0 := by
  have key : ∃ bs, Layout h bs ∧ Min16 bs := by
    induction R with
    | init m lo hi hlo hhi harena hinit =>
      have hfit : lo + 16 + 4096 ≤ hi := by
        by_contra hc
        by_cases h1 : lo + 16 ≤ hi
        · rw [mm_init_short m lo hi h1 hc] at hinit
          have h2 : (-1 : Int) = 0 := hinit
          omega
        · rw [mm_init_none m lo hi h1] at hinit
          omega
      obtain ⟨-, L, -⟩ := mm_init_layout m lo hi hlo hfit hhi harena
      refine ⟨_, L, ?_⟩
      intro b hb
      rw [List.mem_singleton.1 hb]
      show 16 ≤ 4096
      omega
    | malloc h h1 n r _ hn hm ih =>
      obtain ⟨bs, L, hM⟩ := ih
      exact mm_malloc_blocks h h1 bs n r L hM hn hm
    | free h pre post s _ L ih =>
      obtain ⟨bs, L0, hM⟩ := ih
      have e := Layout_unique h _ _ L0 L
      subst e
      refine ⟨_, (mm_free_layout h pre post s L).1, ?_⟩
      exact Min16_freedList pre post s
        (hM (s, true) (List.mem_append_right _ (List.mem_cons_self _ _)))
        (fun b hb => hM b (List.mem_append_left _ hb))
        (fun b hb => hM b (List.mem_append_right _ (List.mem_cons_of_mem _ hb)))
  obtain ⟨bs, L, hM⟩ := key
  exact ⟨bs, L, fun b hb => ⟨hM b hb, (Sizes_mem bs b L.sizes hb).2⟩⟩

/-- Witness for C15 (amended): the heap after `mm_init` and `mm_malloc(1)`, whose
blocks are `(16, allocated)` and `(4080, free)`. -/
theorem blocks_at_least_16_witness :
    Layout heap1 [(16, true), (4080, false)]
      ∧ ∃ bs, Layout heap1 bs ∧ ∀ b ∈ bs, 16 ≤ b.1 ∧ b.1 % 8 = 0 :=
  ⟨by decide,
   blocks_at_least_16 heap1
    (Reach.malloc heap0 heap1 1 4112
      (Reach.init (fun _ => 0) 4096 1052672 (by decide) (by decide) (by decide) (by decide))
      (by decide) (mm_malloc_after heap0 1 4112 (by decide)))⟩

/-! ## Which footers `mm_free` reads -/

theorem mm_free_coalesce (h : Heap) (p : Nat) :
    mm_free h p = (coalesce (mm_free_marked h p) p).2 := rfl

theorem mm_free_marked_eq (h : Heap) (p sp : Nat) (ap : Bool) (s : Nat) (a : Bool) (sn : Nat)
    (an : Bool) (A : Around h.mem p sp ap s a sn an) :
    mm_free_marked h p = { h with mem := PUT (PUT h.mem (p - 4) s) (p + s - 8) s } := by
  obtain ⟨pf, ph, ch, nh, nf, ⟨hsp1, hsp2, hsp3⟩, ⟨hs1, hs2⟩, ⟨hsn1, hsn2⟩, lt⟩ := A
  have e1 : GET_SIZE h.mem (p - 4) = s := GET_SIZE_of _ _ _ _ ch hs1
  have e2 : FTRP (PUT h.mem (p - 4) s) p = p + s - 8 := by
    unfold FTRP DSIZE
    rw [HDRP_eq, GET_SIZE_eq, GET_PUT_small _ _ _ (by omega)]; omega
  unfold mm_free_marked
  simp only [HDRP_eq, e1, PACK_zero, e2]

theorem PUT_congr (m m1 : Mem) (q v x : Nat) (h : m1 x = m x) :
    PUT m1 q v x = PUT m q v x := by
  unfold PUT
  rw [h]

theorem freed_congr (m m1 : Mem) (p sp : Nat) (ap : Bool) (s sn : Nat) (an : Bool) (x : Nat)
    (h : m1 x = m x) : freed m1 p sp ap s sn an x = freed m p sp ap s sn an x := by
  unfold freed coalesced
  cases ap <;> cases an <;> simp only [if_true, if_false, Bool.false_eq_true]
  · exact PUT_congr _ _ _ _ _ (PUT_congr _ _ _ _ _ (PUT_congr _ _ _ _ _ (PUT_congr _ _ _ _ _ h)))
  · exact PUT_congr _ _ _ _ _ (PUT_congr _ _ _ _ _ (PUT_congr _ _ _ _ _ (PUT_congr _ _ _ _ _ h)))
  · exact PUT_congr _ _ _ _ _ (PUT_congr _ _ _ _ _ (PUT_congr _ _ _ _ _ (PUT_congr _ _ _ _ _ h)))
  · exact PUT_congr _ _ _ _ _ (PUT_congr _ _ _ _ _ h)

theorem Around_congr (m m1 : Mem) (p sp : Nat) (ap : Bool) (s : Nat) (a : Bool) (sn : Nat)
    (an : Bool) (f : Nat) (A : Around m p sp ap s a sn an)
    (hm : ∀ x, (x < f ∨ f + 4 ≤ x) → m1 x = m x)
    (d1 : p - 8 + 4 ≤ f ∨ f + 4 ≤ p - 8) (d2 : p - sp - 4 + 4 ≤ f ∨ f + 4 ≤ p - sp - 4)
    (d3 : p - 4 + 4 ≤ f ∨ f + 4 ≤ p - 4) (d4 : p + s - 4 + 4 ≤ f ∨ f + 4 ≤ p + s - 4)
    (d5 : an = false → p + s + sn - 8 + 4 ≤ f ∨ f + 4 ≤ p + s + sn - 8) :
    Around m1 p sp ap s a sn an := by
  obtain ⟨pf, ph, ch, nh, nf, hsp, hs, hsn, lt⟩ := A
  refine ⟨?_, ?_, ?_, ?_, ?_, hsp, hs, hsn, lt⟩
  · rw [GET_congr m m1 _ (fun x h1 h2 => hm x (by omega)), pf]
  · rw [GET_congr m m1 _ (fun x h1 h2 => hm x (by omega)), ph]
  · rw [GET_congr m m1 _ (fun x h1 h2 => hm x (by omega)), ch]
  · rw [GET_congr m m1 _ (fun x h1 h2 => hm x (by omega)), nh]
  · intro e
    have d := d5 e
    rw [GET_congr m m1 _ (fun x h1 h2 => hm x (by omega)), nf e]

theorem footer_apart (pre post xs ys front ys1 : List Blk) (s t sp sn : Nat) (ap an : Bool)
    (eX : pre ++ (s, true) :: post = xs ++ (t, true) :: ys)
    (e1 : (8, true) :: pre = front ++ [(sp, ap)])
    (e2 : post = (if an then [] else [(sn, false)]) ++ ys1)
    (hne : total xs + t ≠ total pre) :
    total xs + t + sp ≤ total pre ∨ (total xs = total pre ∧ t = s)
      ∨ total pre + s + (if an then 0 else sn) ≤ total xs := by
  rcases List.append_eq_append_iff.1 eX with ⟨a1, ha, hb⟩ | ⟨c1, ha, hb⟩
  · cases a1 with
    | nil =>
      simp only [List.append_nil, List.nil_append, List.cons.injEq, Prod.mk.injEq] at ha hb
      right; left
      rw [ha]; exact ⟨rfl, hb.1.1.symm⟩
    | cons c mid =>
      simp only [List.cons_append, List.cons.injEq] at hb
      obtain ⟨hc, hpost⟩ := hb
      right; right
      rw [ha, total_append, total_cons, ← hc]
      cases an with
      | true => simp only [if_true]; omega
      | false =>
        simp only [Bool.false_eq_true, if_false] at e2 ⊢
        rw [e2] at hpost
        cases mid with
        | nil =>
          simp only [List.singleton_append, List.nil_append, List.cons.injEq,
            Prod.mk.injEq] at hpost
          exact absurd hpost.1.2 (by decide)
        | cons d rest =>
          simp only [List.singleton_append, List.cons_append, List.cons.injEq] at hpost
          rw [total_cons, ← hpost.1]
          show total pre + s + sn ≤ total pre + (s + (sn + total rest))
          omega
  · cases c1 with
    | nil =>
      simp only [List.append_nil, List.nil_append, List.cons.injEq, Prod.mk.injEq] at ha hb
      right; left
      rw [ha]; exact ⟨rfl, hb.1.1⟩
    | cons c mid =>
      simp only [List.cons_append, List.cons.injEq] at hb
      obtain ⟨hc, -⟩ := hb
      left
      have ht : total pre = total xs + t + total mid := by
        rw [ha, total_append, total_cons, ← hc]; omega
      rcases List.eq_nil_or_concat mid with em | ⟨mid1, l, em⟩
      · rw [em, total_nil] at ht; omega
      · rw [List.concat_eq_append] at em
        rw [ha, em, ← List.cons_append, ← List.cons_append, ← List.append_assoc] at e1
        have hl := (List.append_inj' e1 rfl).2
        simp only [List.cons.injEq, and_true] at hl
        rw [em, total_append, total_cons, total_nil, hl] at ht
        simp only at ht
        omega

/-- C17, counterexample: `heapTwo` and `heapTwoX` differ only in the footer word
of the allocated block `A = 4112`, at address 4128.  `mm_free` of the following
block `B = 4136` merges `B` with the free block after it in `heapTwo`, where
`coalesce` returns `B` and `A` stays `(24, allocated)`; in `heapTwoX` it merges
`A` as well: `coalesce` returns `A`, whose header becomes `(4096, free)`. -/
theorem coalesce_reads_allocated_footer :
    GET heapTwo.mem (HDRP 4112) = PACK 24 1 ∧ FTRP heapTwo.mem 4112 = 4128
      ∧ NEXT_BLKP heapTwo.mem 4112 = 4136
      ∧ GET heapTwo.mem 4128 = PACK 24 1 ∧ GET heapTwoX.mem 4128 = PACK 24 0
      ∧ (coalesce (mm_free_marked heapTwo 4136) 4136).1 = 4136
      ∧ (coalesce (mm_free_marked heapTwoX 4136) 4136).1 = 4112
      ∧ GET (mm_free heapTwo 4136).mem (HDRP 4112) = PACK 24 1
      ∧ GET (mm_free heapTwoX 4136).mem (HDRP 4112) = PACK 4096 0 := by
  decide

/-- C17 (amended): `coalesce` reads the footer word of the block before the one
it is called on, allocated or not; the footer word of any other allocated block
is not relied upon.  Let `h` be a well-formed heap, `p` an allocated block, `X`
another allocated block or `p` itself, but not the block before `p`, and let `h1`
be identical to `h` except for the footer word of `X`.  Then `mm_free(p)` makes
`coalesce` return the same block in both heaps and produces the same heap apart
from that footer word. -/
theorem mm_free_foreign_footer (h h1 : Heap) (pre post xs ys : List Blk) (s t : Nat)
    (L : Layout h (pre ++ (s, true) :: post))
    (eX : pre ++ (s, true) :: post = xs ++ (t, true) :: ys)
    (hne : total xs + t ≠ total pre)
    (hfld : h1.heap_listp = h.heap_listp ∧ h1.mem_brk = h.mem_brk
      ∧ h1.mem_max_addr = h.mem_max_addr)
    (hmem : ∀ a, (a < h.heap_listp + 8 + total xs + t - 8
        ∨ h.heap_listp + 8 + total xs + t - 8 + 4 ≤ a) → h1.mem a = h.mem a) :
    (coalesce (mm_free_marked h1 (h.heap_listp + 8 + total pre))
        (h.heap_listp + 8 + total pre)).1
      = (coalesce (mm_free_marked h (h.heap_listp + 8 + total pre))
        (h.heap_listp + 8 + total pre)).1
    ∧ (mm_free h1 (h.heap_listp + 8 + total pre)).heap_listp
      = (mm_free h (h.heap_listp + 8 + total pre)).heap_listp
    ∧ (mm_free h1 (h.heap_listp + 8 + total pre)).mem_brk
      = (mm_free h (h.heap_listp + 8 + total pre)).mem_brk
    ∧ (mm_free h1 (h.heap_listp + 8 + total pre)).mem_max_addr
      = (mm_free h (h.heap_listp + 8 + total pre)).mem_max_addr
    ∧ ∀ a, (a < h.heap_listp + 8 + total xs + t - 8
        ∨ h.heap_listp + 8 + total xs + t - 8 + 4 ≤ a) →
      (mm_free h1 (h.heap_listp + 8 + total pre)).mem a
        = (mm_free h (h.heap_listp + 8 + total pre)).mem a := by
  obtain ⟨front, sp, ap, sn, an, ys1, e1, e2, -, -, A⟩ := layout_around h pre post s true L
  have hb := L.base
  have ht : 8 ≤ t := by
    have hmem : (t, true) ∈ pre ++ (s, true) :: post := by rw [eX]; simp
    exact (L.sizes _ hmem).1
  have hap := footer_apart pre post xs ys front ys1 s t sp sn ap an eX e1 e2 hne
  have hsp := A.hsp
  have hs := A.hs
  have hsn := A.hsn
  have et : 8 + total pre = total front + sp := by
    have := congrArg total e1
    rw [total_cons, total_append, total_cons, total_nil] at this
    simpa using this
  have A1 : Around h1.mem (h.heap_listp + 8 + total pre) sp ap s true sn an := by
    refine Around_congr h.mem h1.mem _ sp ap s true sn an _ A hmem ?_ ?_ ?_ ?_ ?_
    · rcases hap with c | c | c <;> omega
    · rcases hap with c | c | c <;> omega
    · rcases hap with c | c | c <;> omega
    · rcases hap with c | c | c
      · omega
      · omega
      · cases an <;> simp only [if_true, if_false, Bool.false_eq_true] at c <;> omega
    · intro e
      subst e
      have := hsn.2 rfl
      simp only [Bool.false_eq_true, if_false] at hap
      rcases hap with c | c | c <;> omega
  have N := Around_freed _ _ _ _ _ _ _ _ A
  have N1 := Around_freed _ _ _ _ _ _ _ _ A1
  have c0 : coalesce (mm_free_marked h (h.heap_listp + 8 + total pre))
      (h.heap_listp + 8 + total pre)
      = (if ap then h.heap_listp + 8 + total pre else h.heap_listp + 8 + total pre - sp,
        { h with mem := freed h.mem (h.heap_listp + 8 + total pre) sp ap s sn an }) := by
    rw [mm_free_marked_eq h _ sp ap s true sn an A, coalesce_eq _ _ sp ap s sn an N]
    rfl
  have c1 : coalesce (mm_free_marked h1 (h.heap_listp + 8 + total pre))
      (h.heap_listp + 8 + total pre)
      = (if ap then h.heap_listp + 8 + total pre else h.heap_listp + 8 + total pre - sp,
        { h1 with mem := freed h1.mem (h.heap_listp + 8 + total pre) sp ap s sn an }) := by
    rw [mm_free_marked_eq h1 _ sp ap s true sn an A1, coalesce_eq _ _ sp ap s sn an N1]
    rfl
  rw [mm_free_coalesce h, mm_free_coalesce h1, c0, c1]
  refine ⟨rfl, hfld.1, hfld.2.1, hfld.2.2, ?_⟩
  intro a ha
  exact freed_congr _ _ _ _ _ _ _ _ a (hmem a ha)

/-- Witness for C17 (amended): in `heapThree` the blocks `4112`, `4136`, `4160`
are allocated; the footer of the first, at 4128, is zeroed in `heapThreeX`, and
the third block is freed. -/
theorem mm_free_foreign_footer_witness :
    Layout heapThree [(24, true), (24, true), (24, true), (4024, false)]
      ∧ GET heapThree.mem 4128 = PACK 24 1 ∧ GET heapThreeX.mem 4128 = 0
      ∧ (coalesce (mm_free_marked heapThreeX 4160) 4160).1
          = (coalesce (mm_free_marked heapThree 4160) 4160).1
      ∧ ∀ a, (a < 4128 ∨ 4128 + 4 ≤ a) →
          (mm_free heapThreeX 4160).mem a = (mm_free heapThree 4160).mem a := by
  have w := mm_free_foreign_footer heapThree heapThreeX [(24, true), (24, true)]
    [(4024, false)] [] [(24, true), (24, true), (4024, false)] 24 24 (by decide) rfl
    (by decide) ⟨rfl, rfl, rfl⟩ (fun a ha => PUT_byte _ _ _ a ha)
  exact ⟨by decide, by decide, by decide, w.1, w.2.2.2.2⟩

theorem mm_init_listp (h : Heap) : 8 ≤ (mm_init h).2.heap_listp := by
  rw [mm_init_fresh h]
  by_cases h1 : h.mem_brk + 16 ≤ h.mem_max_addr
  · by_cases h2 : h.mem_brk + 16 + 4096 ≤ h.mem_max_addr
    · rw [mm_init_grow _ _ _ h2]
      show 8 ≤ h.mem_brk + 8
      omega
    · rw [mm_init_short _ _ _ h1 h2]
      show 8 ≤ h.mem_brk + 8
      omega
  · have hs : mem_sbrk (fresh h.mem h.mem_brk h.mem_max_addr) (4 * WSIZE) = none := by
      rw [mem_sbrk_none]
      unfold fresh WSIZE
      simp only
      omega
    unfold mm_init
    simp only [hs]
    decide

/-! ## Two blocks of one chain -/

theorem split_two (xs ys us vs : List Blk) (a b : Blk)
    (e : xs ++ a :: ys = us ++ b :: vs) (hne : a ≠ b ∨ total xs ≠ total us) :
    (∃ mid, us = xs ++ a :: mid ∧ ys = mid ++ b :: vs)
      ∨ (∃ mid, xs = us ++ b :: mid ∧ vs = mid ++ a :: ys) := by
  rcases List.append_eq_append_iff.1 e with ⟨a1, ha, hb⟩ | ⟨c1, ha, hb⟩
  · cases a1 with
    | nil =>
      simp only [List.append_nil, List.nil_append, List.cons.injEq] at ha hb
      rcases hne with h1 | h1
      · exact absurd hb.1 h1
      · exact absurd (by rw [ha]) h1
    | cons c mid =>
      simp only [List.cons_append, List.cons.injEq] at hb
      left
      exact ⟨mid, by rw [ha, hb.1], hb.2⟩
  · cases c1 with
    | nil =>
      simp only [List.append_nil, List.nil_append, List.cons.injEq] at ha hb
      rcases hne with h1 | h1
      · exact absurd hb.1.symm h1
      · exact absurd (by rw [ha]) h1
    | cons c mid =>
      simp only [List.cons_append, List.cons.injEq] at hb
      right
      exact ⟨mid, by rw [ha, hb.1], hb.2⟩

theorem absorbPrev_append_cons (xs ys : List Blk) (c s : Nat) :
    absorbPrev (xs ++ (c, true) :: ys) s
      = (xs ++ (c, true) :: (absorbPrev ys s).1, (absorbPrev ys s).2) := by
  rcases List.eq_nil_or_concat ys with e | ⟨front, ⟨sp, ap⟩, e⟩
  · subst e
    have h1 : absorbPrev ([] : List Blk) s = ([], s) := rfl
    rw [h1]
    have h2 := absorbPrev_concat xs c true s
    simpa using h2
  · rw [List.concat_eq_append] at e
    subst e
    have h2 := absorbPrev_concat (xs ++ (c, true) :: front) sp ap s
    rw [List.append_assoc, List.cons_append] at h2
    rw [h2, absorbPrev_concat]
    cases ap <;> simp

theorem absorbPrev_total (pre : List Blk) (s : Nat) :
    total (absorbPrev pre s).1 + (absorbPrev pre s).2 = total pre + s := by
  rcases List.eq_nil_or_concat pre with e | ⟨front, ⟨sp, ap⟩, e⟩
  · subst e; rfl
  · rw [List.concat_eq_append] at e
    subst e
    rw [absorbPrev_concat]
    cases ap
    · simp only [Bool.false_eq_true, if_false, total_append, total_cons, total_nil]; omega
    · simp only [if_true]

theorem absorbNext_le (mid rest : List Blk) (z s : Nat) :
    (absorbNext z (mid ++ (s, true) :: rest)).1 ≤ z + total mid := by
  cases mid with
  | nil => simp [absorbNext]
  | cons d ds =>
    simp only [List.cons_append, absorbNext, total_cons]
    cases hd : d.2
    · simp only [Bool.false_eq_true, if_false]; omega
    · simp only [if_true]; omega

/-- An allocated block other than the freed one lies outside the free block that
`mm_free` leaves. -/
theorem freed_region_apart (pre1 post1 preA postA : List Blk) (s1 c : Nat)
    (e : pre1 ++ (s1, true) :: post1 = preA ++ (c, true) :: postA)
    (hne : total pre1 ≠ total preA) :
    total pre1 + s1 ≤ total (absorbPrev preA c).1
      ∨ total (absorbPrev preA c).1 + (absorbNext (absorbPrev preA c).2 postA).1
          ≤ total pre1 := by
  rcases split_two _ _ _ _ _ _ e (Or.inr hne) with ⟨mid, h1, h2⟩ | ⟨mid, h1, h2⟩
  · left
    rw [h1, absorbPrev_append_cons, total_append, total_cons]
    simp only
    omega
  · right
    have t := absorbPrev_total preA c
    have l := absorbNext_le mid post1 (absorbPrev preA c).2 s1
    rw [← h2] at l
    rw [h1, total_append, total_cons]
    simp only
    omega

/-- Two distinct blocks of one chain do not overlap. -/
theorem blocks_apart (pre1 post1 preA postA : List Blk) (b a : Blk)
    (e : pre1 ++ b :: post1 = preA ++ a :: postA) (hne : total pre1 ≠ total preA) :
    total pre1 + b.1 ≤ total preA ∨ total preA + a.1 ≤ total pre1 := by
  rcases split_two _ _ _ _ _ _ e (Or.inr hne) with ⟨mid, h1, h2⟩ | ⟨mid, h1, h2⟩
  · left
    rw [h1, total_append, total_cons]
    omega
  · right
    rw [h1, total_append, total_cons]
    omega

/-! ## Blocks that `mm_malloc` leaves alone -/

/-- Writing into the payload of a block keeps the heap well-formed. -/
theorem Layout_payload (h : Heap) (pre post : List Blk) (s : Nat) (a : Bool) (m1 : Mem)
    (L : Layout h (pre ++ (s, a) :: post))
    (hm : ∀ x, (x < h.heap_listp + 8 + total pre
      ∨ h.heap_listp + 8 + total pre + s - 8 ≤ x) → m1 x = h.mem x) :
    Layout { h with mem := m1 } (pre ++ (s, a) :: post) := by
  have hb := L.base
  have hS := L.sizes
  have hs8 : 8 ≤ s ∧ s % 8 = 0 := hS (s, a) (by simp)
  obtain ⟨g1, g2⟩ := layout_block h pre post (s, a) L
  simp only at g1 g2
  have e1 : (8, true) :: (pre ++ (s, a) :: post) = ((8, true) :: pre) ++ [(s, a)] ++ post := by
    simp
  have hS1 : Sizes ((8, true) :: (pre ++ (s, a) :: post)) :=
    (Sizes_cons _ _).2 ⟨⟨le_refl _, rfl⟩, hS⟩
  have hT := L.tags
  rw [e1] at hT hS1
  have hT1 := Tags_rewrite h.mem m1 h.heap_listp ((8, true) :: pre) [(s, a)] [(s, a)] post
    (by omega) hT hS1
    (fun x hx => hm x (by
      simp only [total_cons, total_nil] at hx
      omega))
    ⟨by
      rw [← g1]
      simp only [total_cons]
      rw [show h.heap_listp + (8 + total pre) - 4 = h.heap_listp + 8 + total pre - 4 by omega]
      exact GET_congr _ _ _ (fun x h1 h2 => hm x (by omega)),
     by
      rw [← g2]
      simp only [total_cons]
      rw [show h.heap_listp + (8 + total pre) + s - 8 = h.heap_listp + 8 + total pre + s - 8
        by omega]
      exact GET_congr _ _ _ (fun x h1 h2 => hm x (by omega)),
     trivial⟩ rfl
  rw [← e1] at hT1
  refine ⟨hb, hT1, hS, ?_, L.brk, L.limit, L.nofree⟩
  have he := L.epilogue
  rw [← he]
  refine GET_congr _ _ _ (fun x h1 h2 => hm x ?_)
  rw [total_append, total_cons] at h1
  simp only at h1
  omega

theorem grow_frame (h : Heap) (bs : List Blk) (n : Nat) (L : Layout h bs)
    (hfit : h.mem_brk + max (adjust n) CHUNKSIZE ≤ h.mem_max_addr) :
    ∀ x, x + 4 < h.heap_listp + 8 + total (absorbPrev bs (max (adjust n) CHUNKSIZE)).1 →
      (extend_heap h (max (adjust n) CHUNKSIZE / WSIZE)).2.mem x = h.mem x := by
  have hw := extend_words (adjust n) (adjust_mod n) (adjust_lt n)
  have h8 : 8 ≤ max (adjust n) CHUNKSIZE := by
    have : CHUNKSIZE ≤ max (adjust n) CHUNKSIZE := Nat.le_max_right _ _
    unfold CHUNKSIZE at this ⊢; omega
  have hm8 : max (adjust n) CHUNKSIZE % 8 = 0 := by
    have := adjust_mod n
    rcases Nat.le_total (adjust n) CHUNKSIZE with h1 | h1
    · rw [Nat.max_eq_right h1]; rfl
    · rw [Nat.max_eq_left h1]; exact this
  exact (extend_heap_layout h bs _ _ L hw h8 hm8 hfit).2.2.2.2

/-- The free block in which `mm_malloc` places a request, and an allocated block
`(c, allocated)` of the heap: it is still there, its bytes unchanged. -/
theorem mm_malloc_source (h h1 : Heap) (preA postA : List Blk) (c n B : Nat)
    (L : Layout h (preA ++ (c, true) :: postA)) (hn : 0 < n)
    (hm : mm_malloc h n = some (B, h1)) (hB : B ≠ 0) :
    ∃ hX pre s post postA1, Layout hX (pre ++ (s, false) :: post)
      ∧ pre ++ (s, false) :: post = preA ++ (c, true) :: postA1
      ∧ adjust n ≤ s ∧ B = h.heap_listp + 8 + total pre
      ∧ h1 = place hX B (adjust n) ∧ hX.heap_listp = h.heap_listp
      ∧ ∀ x, x + 4 < h.heap_listp + 8 + total preA + c → hX.mem x = h.mem x := by
  rcases firstFit_cases (adjust n) (preA ++ (c, true) :: postA) with
    hmiss | ⟨pre, s, post, e, hs, hpre⟩
  · by_cases hfit : h.mem_brk + max (adjust n) CHUNKSIZE ≤ h.mem_max_addr
    · obtain ⟨e1, e2, e3, e4⟩ := mm_malloc_miss_grow h _ n L hn hmiss hfit
      have fr := grow_frame h _ n L hfit
      rw [e1] at hm
      simp only [Option.some.injEq, Prod.mk.injEq] at hm
      rw [freedList_nil] at e3
      have ea := absorbPrev_append_cons preA postA c (max (adjust n) CHUNKSIZE)
      refine ⟨_, _, _, [], (absorbPrev postA (max (adjust n) CHUNKSIZE)).1
        ++ [((absorbPrev postA (max (adjust n) CHUNKSIZE)).2, false)], e3, ?_, ?_, ?_, ?_, e4, ?_⟩
      · rw [ea]; simp
      · exact le_trans (Nat.le_max_left _ _) (absorbPrev_ge _ _)
      · rw [← hm.1, e2]
      · rw [← hm.2, hm.1]
      · intro x hx
        apply fr
        rw [ea, total_append, total_cons]
        simp only
        omega
    · have hfail : mem_sbrk h (max (adjust n) CHUNKSIZE) = none := by
        unfold mem_sbrk; rw [if_neg hfit]
      rw [mm_malloc_miss_fail h _ n L hn hmiss hfail] at hm
      simp only [Option.some.injEq, Prod.mk.injEq] at hm
      exact absurd hm.1.symm hB
  · have L2 := L
    rw [e] at L2
    rw [mm_malloc_hit h pre post s n L2 hn hpre hs] at hm
    simp only [Option.some.injEq, Prod.mk.injEq] at hm
    exact ⟨h, pre, s, post, postA, L2, e.symm, hs, hm.1.symm, by rw [← hm.2, hm.1], rfl,
      fun _ _ => rfl⟩

theorem place_keeps (h : Heap) (pre post preA postA : List Blk) (s c asize : Nat)
    (L : Layout h (pre ++ (s, false) :: post))
    (e : pre ++ (s, false) :: post = preA ++ (c, true) :: postA)
    (ha : asize ≤ s) (ham : asize % 8 = 0) (h8 : 8 ≤ asize ∨ s - asize < 16) :
    (∃ preA2 postA2, placedList pre s asize post = preA2 ++ (c, true) :: postA2
        ∧ total preA2 = total preA)
      ∧ total pre ≠ total preA
      ∧ ∀ x, h.heap_listp + 8 + total preA ≤ x + 4 →
          x + 4 < h.heap_listp + 8 + total preA + c →
          (place h (h.heap_listp + 8 + total pre) asize).mem x = h.mem x := by
  obtain ⟨-, -, -, -, fr⟩ := place_layout h pre post s asize L ha ham h8
  have hs8 : 8 ≤ s := (L.sizes (s, false) (by simp)).1
  have hc8 : 8 ≤ c := (L.sizes (c, true) (by rw [e]; simp)).1
  rcases split_two _ _ _ _ _ _ e (Or.inl (by simp)) with ⟨mid, h1, h2⟩ | ⟨mid, h1, h2⟩
  · have ht : total preA = total pre + s + total mid := by
      rw [h1, total_append, total_cons]; omega
    refine ⟨?_, by omega, fun x hx1 hx2 => fr x (Or.inr (by omega))⟩
    unfold placedList DSIZE
    split
    · refine ⟨pre ++ (asize, true) :: (s - asize, false) :: mid, postA, by rw [h2]; simp, ?_⟩
      rw [total_append, total_cons, total_cons]
      simp only
      omega
    · refine ⟨pre ++ (s, true) :: mid, postA, by rw [h2]; simp, ?_⟩
      rw [total_append, total_cons]
      simp only
      omega
  · have ht : total pre = total preA + c + total mid := by
      rw [h1, total_append, total_cons]; omega
    refine ⟨?_, by omega, fun x hx1 hx2 => fr x (Or.inl (by omega))⟩
    unfold placedList DSIZE
    split
    · exact ⟨preA, mid ++ (asize, true) :: (s - asize, false) :: post, by rw [h1]; simp, rfl⟩
    · exact ⟨preA, mid ++ (s, true) :: post, by rw [h1]; simp, rfl⟩

/-- A successful `mm_malloc` for at most `2^32 - 16` bytes returns an allocated
block of sufficient size and leaves every allocated block `(c, allocated)` of the
heap where it is, its bytes unchanged. -/
theorem mm_malloc_keeps (h h1 : Heap) (preA postA : List Blk) (c n B : Nat)
    (L : Layout h (preA ++ (c, true) :: postA)) (hn : 0 < n) (hlt : n + 15 < UMAX)
    (hm : mm_malloc h n = some (B, h1)) (hB : B ≠ 0) :
    ∃ pre1 s1 post1 preA1 postA1, Layout h1 (pre1 ++ (s1, true) :: post1)
      ∧ B = h.heap_listp + 8 + total pre1 ∧ n + 8 ≤ s1
      ∧ h1.heap_listp = h.heap_listp
      ∧ pre1 ++ (s1, true) :: post1 = preA1 ++ (c, true) :: postA1
      ∧ total preA1 = total preA ∧ total pre1 ≠ total preA
      ∧ ∀ x, h.heap_listp + 8 + total preA ≤ x + 4 →
          x + 4 < h.heap_listp + 8 + total preA + c → h1.mem x = h.mem x := by
  obtain ⟨hX, pre, s, post, postA1, LX, e, hs, eB, e1, eh, frX⟩ :=
    mm_malloc_source h h1 preA postA c n B L hn hm hB
  obtain ⟨g16, g8⟩ := adjust_ge n hlt
  obtain ⟨L1, f1, -⟩ := place_layout hX pre post s (adjust n) LX hs (adjust_mod n)
    (Or.inl (by omega))
  obtain ⟨⟨preA2, postA2, ep, et⟩, hne, fr⟩ :=
    place_keeps hX pre post preA postA1 s c (adjust n) LX e hs (adjust_mod n)
      (Or.inl (by omega))
  rw [eh, ← eB, ← e1] at L1 f1 fr
  have frA : ∀ x, h.heap_listp + 8 + total preA ≤ x + 4 →
      x + 4 < h.heap_listp + 8 + total preA + c → h1.mem x = h.mem x := by
    intro x h1x h2x
    rw [fr x h1x h2x]
    exact frX x h2x
  unfold placedList DSIZE at L1 ep
  split at L1
  · rw [if_pos (by assumption)] at ep
    exact ⟨pre, adjust n, (s - adjust n, false) :: post, preA2, postA2, L1, eB, g8,
      f1, ep, et, hne, frA⟩
  · rw [if_neg (by assumption)] at ep
    exact ⟨pre, s, post, preA2, postA2, L1, eB, by omega, f1, ep, et, hne, frA⟩

/-! ## The relocating path of `mm_realloc` without wrap-around -/

/-- The relocating path of `mm_realloc` for a request of at most `2^32 - 16`
bytes on a well-formed heap, when the inner `mm_malloc` succeeds: the new block
`B` is allocated, does not overlap the old block `A`, and its size exceeds the
number of bytes copied by at least 8; the resulting heap is well-formed, `B` is
still allocated in it, and the bytes of the old payload, up to the requested
size, are found at `B`. -/
theorem mm_realloc_relocate (h h1 : Heap) (preA postA : List Blk) (c size B : Nat)
    (L : Layout h (preA ++ (c, true) :: postA)) (hn : 0 < size) (hlt : size + 15 < UMAX)
    (hgrow : c < realloc_asize size) (hm : mm_malloc h size = some (B, h1)) (hB : B ≠ 0) :
    ∃ hR s1, mm_realloc h (h.heap_listp + 8 + total preA) size = some (B, hR)
      ∧ WF hR
      ∧ GET h1.mem (HDRP B) = PACK s1 1
      ∧ (if size < c then size else c) + 8 ≤ s1
      ∧ (B + s1 ≤ h.heap_listp + 8 + total preA ∨ h.heap_listp + 8 + total preA + c ≤ B)
      ∧ GET hR.mem (HDRP B) = PACK s1 1
      ∧ ∀ i, i < size → i + 8 < c →
          hR.mem (B + i) = h.mem (h.heap_listp + 8 + total preA + i) := by
  obtain ⟨pre1, s1, post1, preA1, postA1, L1, eB, hcap, hl1, eA, etA, hneq, frA⟩ :=
    mm_malloc_keeps h h1 preA postA c size B L hn hlt hm hB
  have hb := L.base
  have hc8 : 8 ≤ c ∧ c % 8 = 0 := L.sizes (c, true) (by simp)
  obtain ⟨gA, -⟩ := layout_block h preA postA (c, true) L
  rw [tag_eq _ hc8.2] at gA
  have hsz : GET_SIZE h.mem (HDRP (h.heap_listp + 8 + total preA)) = c := by
    rw [HDRP_eq]; exact GET_SIZE_of _ _ c true gA hc8.2
  obtain ⟨gB, -⟩ := layout_block h1 pre1 post1 (s1, true) L1
  rw [hl1, ← eB] at gB
  have hn0 : size ≠ 0 := by omega
  have hne1 : realloc_asize size ≠ c := by omega
  have hne2 : ¬ realloc_asize size ≤ c := by omega
  have hcopy : (if size < c then size else c) ≤ size := by split <;> omega
  have gB1 : GET h1.mem (B - 4) = PACK s1 1 := gB
  -- the copy stays inside the payload of the new block
  obtain ⟨hM, hMdef⟩ : ∃ hM : Heap, hM = { h1 with
      mem := copy_bytes h1.mem B (h.heap_listp + 8 + total preA)
        (if size < c then size else c) } :=
    ⟨_, rfl⟩
  have hMl : hM.heap_listp = h.heap_listp := by rw [hMdef]; exact hl1
  have hMm : ∀ x, hM.mem x = copy_bytes h1.mem B (h.heap_listp + 8 + total preA)
      (if size < c then size else c) x := by
    intro x; rw [hMdef]
  have L2 : Layout hM (pre1 ++ (s1, true) :: post1) := by
    rw [hMdef]
    apply Layout_payload h1 pre1 post1 s1 true _ L1
    intro x hx
    rw [hl1, ← eB] at hx
    unfold copy_bytes
    rw [if_neg (by omega)]
  rw [eA] at L2
  obtain ⟨L3, -, -, -, fr3⟩ := mm_free_layout hM preA1 postA1 c L2
  rw [hMl, etA] at L3 fr3
  have hap := freed_region_apart pre1 post1 preA1 postA1 s1 c eA (by omega)
  have hbl := blocks_apart pre1 post1 preA1 postA1 (s1, true) (c, true) eA (by omega)
  simp only at hbl
  refine ⟨mm_free hM (h.heap_listp + 8 + total preA), s1, ?_, ⟨_, L3⟩, gB, by omega, by omega,
    ?_, ?_⟩
  · unfold mm_realloc
    simp only [hsz, hn0, hne1, hne2, hm, memcpy_some _ _ _ _ hB, if_false]
    rw [hMdef]
  · rw [← gB1, HDRP_eq]
    refine GET_congr _ _ _ (fun x h1x h2x => ?_)
    rw [fr3 x (by omega), hMm]
    unfold copy_bytes
    rw [if_neg (by omega)]
  · intro i hi hic
    rw [fr3 (B + i) (by omega), hMm]
    unfold copy_bytes
    have hin : B ≤ B + i ∧ B + i < B + (if size < c then size else c) := by
      constructor
      · omega
      · split <;> omega
    rw [if_pos hin, show B + i - B = i by omega]
    exact frA _ (by omega) (by omega)

/-- The relocation scenario of the specification: after `A = mm_malloc(4000)`,
`mm_realloc(A, 5000)` returns another block `B = 8120` in a well-formed heap, and
the first 4000 bytes at `B` are those that were at `A`. -/
theorem relocate_scenario :
    ∃ hR, mm_realloc heap4000 4112 5000 = some (8120, hR) ∧ WF hR
      ∧ ∀ i, i < 4000 → hR.mem (8120 + i) = heap4000.mem (4112 + i) := by
  have L : Layout heap4000 ([] ++ (4008, true) :: [(88, false)]) := by decide
  have hm := mm_malloc_after heap4000 5000 8120 (by decide)
  obtain ⟨hR, s1, e, hw, -, -, -, -, hp⟩ :=
    mm_realloc_relocate heap4000 _ [] [(88, false)] 4008 5000 8120 L (by decide) (by decide)
      (by decide) hm (by decide)
  exact ⟨hR, e, hw, fun i hi => hp i (by omega) (by omega)⟩

end MM
